import Mathlib

/-!
# Verification of `tb2ud/subtreeconverter.py` (`SubTreeConverter`)

Shallow embedding of the subtree-restructuring engine.  The dependency-tree
data model (token nodes with a single parent pointer, a distinguished
sentence root, empty nodes with fractional ordinals, secondary `deps`
edges) is the external udapi layer; it is modelled from the spec's data
model (§3): ordinals are rationals, a token's ordinal is its 1-based
position in document order (the root has ordinal 0), the parent setter
performs the cycle check of the node model and raises (modelled as `none`)
when the new parent's ancestor chain passes through the node being moved,
`remove(children='rehang')` reattaches every child of the removed node to
the removed node's parent, and `remove(children='warn')` removes the node
together with its remaining descendants.  Python exceptions are modelled
with `Option`: a `none` result means an exception escaped `process_tree`.
-/

namespace Tb2ud

/-- An exact (non-negative) rational, kept as an explicit
numerator/denominator pair.  The spec's data model (§3) makes node
ordinals positive rationals; all ordinals the converter manufactures are
decimal fractions `p + k/10^d`.  Comparisons in the code (`in empty_ords`,
`n.ord == int(dep)`) are numeric, which `qeq` mirrors. -/
structure DOrd where
  num : Nat
  den : Nat
deriving DecidableEq, Repr

/-- Numeric equality of two ordinal fractions. -/
def DOrd.qeq (a b : DOrd) : Bool := a.num * b.den == b.num * a.den

/-- The value of an ordinal fraction as a rational number. -/
def DOrd.toQ (a : DOrd) : ℚ := (a.num : ℚ) / (a.den : ℚ)

/-- The ordinal of a token at 1-based document position `n`. -/
def DOrd.ofNat (n : Nat) : DOrd := ⟨n, 1⟩

/-- Reference to a node of a sentence: the synthetic root, a token
(identified by its stable id), or an empty node. Used as the governor in
secondary (`deps`) edges. -/
inductive NRef where
  | root
  | tok (id : Nat)
  | emp (id : Nat)
deriving DecidableEq, Repr

/-- A token node of the primary tree, with the metadata fields that
`SubTreeConverter` reads or writes.  `parent` is the id of the parent
token, with `0` standing for the sentence root.  The `misc` side-store is
flattened into the fields `nodeType` (`misc['NodeType']`), `originalDep`
(`misc['original_dep']`), `coordMember`/`aposMember` (booleans, as set by
the upstream shallow converter), `artDeps` (`misc['art_deps']`) and
`originalOrd` (`misc['original_ord']`). -/
structure UNode where
  id : Nat
  parent : Nat
  form : String := ""
  upos : String := ""
  xpos : String := ""
  deprel : String := ""
  nodeType : String := ""
  originalDep : String := ""
  coordMember : Bool := false
  aposMember : Bool := false
  artDeps : String := ""
  originalOrd : String := ""
  deps : List (NRef × String) := []
deriving DecidableEq, Repr

/-- An empty node created by `copy_to_empty` (udapi `create_empty_child`
plus the explicit `ord` assignment). -/
structure ENode where
  id : Nat
  eord : DOrd
  form : String := ""
  upos : String := ""
  xpos : String := ""
  originalDep : String := ""
  coordMember : Bool := false
  aposMember : Bool := false
  artDeps : String := ""
  originalOrd : String := ""
  deps : List (NRef × String) := []
deriving DecidableEq, Repr

/-- One sentence: the token list in document order plus the empty nodes. -/
structure UTree where
  nodes : List UNode
  empties : List ENode := []
deriving DecidableEq, Repr

/-- The parent skeleton of the primary tree: `(id, parent)` pairs in
document order.  All shape reasoning happens on this projection. -/
def skel (t : UTree) : List (Nat × Nat) :=
  t.nodes.map (fun n => (n.id, n.parent))

/-- Parent function read off a skeleton; unknown ids (and the root) map
to 0. -/
def pfunS (sk : List (Nat × Nat)) (i : Nat) : Nat :=
  ((sk.find? (fun q => q.1 == i)).map (·.2)).getD 0

def parentOf (t : UTree) (i : Nat) : Nat := pfunS (skel t) i

def idsOf (t : UTree) : List Nat := t.nodes.map (·.id)

def getNode? (t : UTree) (i : Nat) : Option UNode :=
  t.nodes.find? (fun n => n.id == i)

/-- `node.children` of udapi: the children snapshot in document order. -/
def children (t : UTree) (h : Nat) : List UNode :=
  t.nodes.filter (fun n => n.parent == h)

/-- udapi `node.ord`: the 1-based document position of a token; 0 for the
root and for ids that are not in the tree. -/
def ordN (t : UTree) (i : Nat) : Nat :=
  match t.nodes.findIdx? (fun n => n.id == i) with
  | some k => k + 1
  | none => 0

def deprelOf (t : UTree) (i : Nat) : String :=
  ((getNode? t i).map (·.deprel)).getD ""

/-- Python `str.split(sep)` on character lists (for a non-empty `sep`),
with the recursion depth made structural via `fuel` (a fuel of the input's
length always suffices: every step shortens the input). -/
def pySplitAux (sep : List Char) : Nat → List Char → List Char → List (List Char)
  | 0, s, acc => [acc.reverse ++ s]
  | f+1, s, acc =>
    match s with
    | [] => [acc.reverse]
    | c :: rest =>
      if sep.isPrefixOf s then acc.reverse :: pySplitAux sep f (s.drop sep.length) []
      else pySplitAux sep f rest (c :: acc)

/-- Python `s.split(sep)` for a non-empty separator. -/
def pySplit (s sep : String) : List String :=
  (pySplitAux sep.data (s.data.length + 1) s.data []).map (fun l => ⟨l⟩)

/-- udapi `node.udeprel`: the part of the deprel before the first `:`. -/
def udeprelOf (s : String) : String :=
  match pySplit s ":" with
  | [] => s
  | x :: _ => x

/-- One decimal digit value, or `none` for a non-digit character. -/
def digitVal (c : Char) : Option Nat :=
  if 48 ≤ c.toNat ∧ c.toNat ≤ 57 then some (c.toNat - 48) else none

def pyIntAux : List Char → Nat → Option Nat
  | [], acc => some acc
  | c :: rest, acc =>
    match digitVal c with
    | some d => pyIntAux rest (acc * 10 + d)
    | none => none

/-- Python `int(s)` restricted to the non-negative decimal numerals that
occur here (`none` models the `ValueError` on anything else). -/
def pyInt (s : String) : Option Nat :=
  match s.data with
  | [] => none
  | l => pyIntAux l 0

/-- The cycle check of the udapi parent setter: climb from `cur`; `true`
when the root is reached, `false` when the node `c` being re-attached is
met on the way (udapi raises there) or when the walk does not terminate
within `fuel` steps (a walk on a corrupted tree would not terminate). -/
def cycleCheckS (sk : List (Nat × Nat)) : Nat → Nat → Nat → Bool
  | 0, _c, _cur => false
  | f+1, c, cur =>
    if cur == 0 then true
    else if cur == c then false
    else cycleCheckS sk f c (pfunS sk cur)

/-- Raw parent update of node `c` to parent `p`. -/
def updParent (t : UTree) (c p : Nat) : UTree :=
  { t with nodes := t.nodes.map (fun n => if n.id == c then { n with parent := p } else n) }

/-- udapi `node.parent = new_parent`: the cycle check runs first; on
failure the setter raises (`none`).  Both nodes are always live node
objects of the tree at every call site of the converter, which the guard
makes explicit. -/
def setParent (t : UTree) (c p : Nat) : Option UTree :=
  if (c ∈ idsOf t) ∧ (p = 0 ∨ p ∈ idsOf t) then
    if cycleCheckS (skel t) (t.nodes.length + 1) c p then some (updParent t c p) else none
  else none

/-- udapi `node.remove(children='rehang')`: every child of `i` is
reattached to `i`'s parent and `i` is deleted (subsequent tokens keep
their relative order; ordinals are positional, so they renumber
automatically). -/
def removeRehang (t : UTree) (i : Nat) : UTree :=
  let p := parentOf t i
  let rehung := t.nodes.map (fun n => if n.parent == i then { n with parent := p } else n)
  { t with nodes := rehung.filter (fun n => n.id != i) }

/-- Does the parent walk from `cur` pass through `tgt` (before reaching the
root)? -/
def hitsS (sk : List (Nat × Nat)) : Nat → Nat → Nat → Bool
  | 0, _, _ => false
  | f+1, tgt, cur =>
    if cur == tgt then true
    else if cur == 0 then false
    else hitsS sk f tgt (pfunS sk cur)

/-- udapi `node.remove(children='warn')`: the node and its remaining
descendants are deleted (with a warning when children are present). -/
def removeSubtree (t : UTree) (i : Nat) : UTree :=
  { t with nodes := t.nodes.filter (fun n => !(hitsS (skel t) (t.nodes.length + 1) i n.id)) }

/-- Update a single node's non-structural fields. -/
def mapNode (t : UTree) (i : Nat) (f : UNode → UNode) : UTree :=
  { t with nodes := t.nodes.map (fun n => if n.id == i then f n else n) }

def setDeprel (t : UTree) (i : Nat) (d : String) : UTree :=
  mapNode t i (fun n => { n with deprel := d })

/-! ## The converter, translated from `subtreeconverter.py` -/

/-- `SubTreeConverter.redraw_subtree(new_head, current_head)`
(lines 48–64). -/
def redraw_subtree (t : UTree) (new_head current_head : Nat) : Option UTree := do
  let subhead := parentOf t current_head
  let t1 ← setParent t new_head subhead
  let t2 ← setParent t1 current_head new_head
  let t3 :=
    match getNode? t2 current_head with
    | none => t2
    | some old =>
      let ta := if old.aposMember then
          mapNode t2 new_head (fun n => { n with aposMember := old.aposMember }) else t2
      if old.coordMember then
          mapNode ta new_head (fun n => { n with coordMember := old.coordMember }) else ta
  (children t3 current_head).foldlM
    (fun acc c =>
      if udeprelOf c.deprel ≠ "goeswith" then setParent acc c.id new_head else pure acc)
    t3

/-- `SubTreeConverter.attach_right(element, attr, val)` (lines 66–86).
`attrv` stands for `getattr(b, attr)`; the converter only ever passes
`attr='udeprel'`.  Note that `element` itself belongs to `right_bros`
(`element.precedes(element)` is `False`). -/
def attach_right (t : UTree) (el : Nat) (attrv : UNode → String) (val : String) : Option UTree :=
  let h := parentOf t el
  let right_bros := (children t h).filter (fun ch => !(ordN t ch.id < ordN t el))
  match right_bros.find? (fun b => attrv b == val) with
  | some b => setParent t el b.id
  | none => some t

def parentNodeType (t : UTree) (n : UNode) : String :=
  ((getNode? t n.parent).map (·.nodeType)).getD ""

/-- `SubTreeConverter.write_deps_in_misc(tree)` (lines 103–119).  The loop
writes only `art_deps` and reads only node types, ordinals and deprels, so
the sequential loop is a pointwise map. -/
def write_deps_in_misc (t : UTree) : UTree :=
  { t with nodes := t.nodes.map (fun n =>
      if n.nodeType == "Artificial" ∨ parentNodeType t n == "Artificial" then
        { n with artDeps := toString (ordN t n.parent) ++ "%:%" ++ n.deprel }
      else n) }

/-- `a.misc['original_ord'] = str(a.ord)` for every artificial node
(lines 190–191). -/
def stampOriginalOrd (t : UTree) : UTree :=
  { t with nodes := t.nodes.map (fun n =>
      if n.nodeType == "Artificial" then { n with originalOrd := toString (ordN t n.id) } else n) }

/-- Number of decimal digits, with the recursion depth made structural
(`digits10Aux f k` is the digit count of `k` whenever `k ≤ f`). -/
def digits10Aux : Nat → Nat → Nat
  | 0, _ => 1
  | f+1, k => if k < 10 then 1 else digits10Aux f (k / 10) + 1

/-- Number of decimal digits of `k` (with `digits10 0 = 1`). -/
def digits10 (k : Nat) : Nat := digits10Aux k k

/-- The value of Python's `float(f'{p}.{k}')`: `k`'s decimal digits are
appended after the point, so the value is `p + k / 10 ^ d` where `d` is
the number of digits of `k` (e.g. iteration 10 yields `p.10 = p + 10/100`,
colliding with iteration 1). -/
def emptyOrdCand (p : Nat) (k : Nat) : DOrd :=
  ⟨p * 10 ^ digits10 k + k, 10 ^ digits10 k⟩

/-- `set_empty_ord(n, tree, iter)` (lines 143–148), with the recursion
depth made explicit as `fuel` (`none` = the Python recursion would not
have returned within `fuel` calls).  `used` is the list of ordinals of the
current empty nodes, `p` is `n.prev_node.ord`, and membership is the
numeric equality of the Python `in`. -/
def set_empty_ord (used : List DOrd) (p : Nat) : Nat → Nat → Option DOrd
  | 0, _ => none
  | fuel+1, k =>
    let neword := emptyOrdCand p k
    if used.any neword.qeq then set_empty_ord used p fuel (k+1) else some neword

/-- Decimal digits of `m` padded to width `d` (for rendering a fractional
part whose denominator is `10^d`). -/
def padDigits : Nat → Nat → List Char
  | 0, _ => []
  | d+1, m => padDigits d (m / 10) ++ [Nat.digitChar (m % 10)]

/-- Decimal rendering of a fractional ordinal (Python `str` of the float:
trailing zeros stripped), used only for the cosmetic `form` field
`f'E{ord_id}'`. -/
def dordStr (v : DOrd) (d : Nat) : String :=
  let ip := v.num / v.den
  let fr := v.num % v.den
  if fr = 0 then toString ip
  else
    let digs := (((padDigits d fr).reverse.dropWhile (fun c => c == '0')).reverse)
    toString ip ++ "." ++ String.mk digs

/-- One iteration of the `for art in artificials` loop of
`SubTreeConverter.copy_to_empty` (lines 150–181): compute the fresh
fractional ordinal, create the empty copy, then
`art.remove(children='rehang')`.  `n.prev_node.ord` is the document
position of the token before `art`, i.e. `art`'s 0-based index (0 when the
previous node is the root). -/
def copyOneArt (fuel : Nat) (t : UTree) (art : Nat) : Option UTree :=
  match t.nodes.findIdx? (fun n => n.id == art) with
  | none => some t
  | some idx =>
    match t.nodes[idx]? with
    | none => some t
    | some a => do
      let v ← set_empty_ord (t.empties.map (·.eord)) idx fuel 1
      let e : ENode :=
        { id := t.empties.length, eord := v, form := "E" ++ dordStr v (digits10 v.den - 1),
          upos := a.upos, xpos := a.xpos,
          originalDep := a.originalDep, coordMember := a.coordMember,
          aposMember := a.aposMember, artDeps := a.artDeps,
          originalOrd := a.originalOrd, deps := [] }
      let t1 := { t with empties := t.empties ++ [e] }
      pure (removeRehang t1 art)

/-- `SubTreeConverter.copy_to_empty(artificials, tree)` (lines 121–181). -/
def copy_to_empty (fuel : Nat) (t : UTree) (arts : List Nat) : Option UTree :=
  arts.foldlM (copyOneArt fuel) t

/-- `art_mapping = {str(e.misc['original_ord']): e for e in tree.empty_nodes}`
(line 322); original ordinals of distinct artificial nodes are distinct, so
first-match lookup agrees with the Python dict. -/
def artMapping (t : UTree) : List (String × Nat) :=
  t.empties.map (fun e => (e.originalOrd, e.id))

def appendEmpDep (t : UTree) (eid : Nat) (par : NRef) (rel : String) : UTree :=
  { t with empties := t.empties.map (fun e =>
      if e.id == eid then { e with deps := e.deps ++ [(par, rel)] } else e) }

/-- One iteration of the empty-node resolution loop (lines 324–338).
`none` models an uncaught exception: the `ValueError` of a failed 2-way
unpack, of `int(dep)`, or the `IndexError` of `[n for n in ...][0]` on an
ordinal that matches no live node. -/
def emptyDepStep (mapping : List (String × Nat)) (t : UTree) (eid : Nat) : Option UTree :=
  match t.empties.find? (fun e => e.id == eid) with
  | none => some t
  | some e =>
    if e.artDeps ≠ "" then
      match pySplit e.artDeps "%:%" with
      | [dep, rel] =>
        match mapping.find? (fun q => q.1 == dep) with
        | some q => some (appendEmpDep t eid (NRef.emp q.2) rel)
        | none =>
          if dep == "0" then some (appendEmpDep t eid NRef.root rel)
          else
            match pyInt dep with
            | none => none
            | some k =>
              match ((t.nodes.map (fun n => (DOrd.ofNat (ordN t n.id), NRef.tok n.id))) ++
                     (t.empties.map (fun e2 => (e2.eord, NRef.emp e2.id)))).find?
                    (fun q => q.1.qeq (DOrd.ofNat k)) with
              | some q => some (appendEmpDep t eid q.2 rel)
              | none => none
      | _ => none
    else some t

/-- One iteration of the ordinary-descendant resolution loop
(lines 340–347).  The split is on `":"` (not on the `"%:%"` separator the
pre-pass wrote); the `KeyError` of the mapping lookup is caught
(`continue`), the `ValueError` of a failed 2-way unpack is not. -/
def descDepStep (mapping : List (String × Nat)) (t : UTree) (i : Nat) : Option UTree :=
  match getNode? t i with
  | none => some t
  | some n =>
    if n.artDeps ≠ "" then
      match pySplit n.artDeps ":" with
      | [depHead, depRel] =>
        match mapping.find? (fun q => q.1 == depHead) with
        | some q => some (mapNode t i (fun m => { m with deps := m.deps ++ [(NRef.emp q.2, depRel)] }))
        | none => some t
      | _ => none
    else some t

/-- The five classification predicates of `tb2ud.utils.constructions`,
consumed as an external contract (spec §4.2): arbitrary boolean functions
of the tree and the subtree root. -/
structure Cls where
  isBridge : UTree → Nat → Bool
  isCoord : UTree → Nat → Bool
  isApos : UTree → Nat → Bool
  isCopula : UTree → Nat → Bool
  isEllipsis : UTree → Nat → Bool

/-- The fixed promotion priority list of the ellipsis branch
(lines 307–308). -/
def order_list : List String :=
  ["nsubj", "obj", "iobj", "obl", "advmod", "csubj", "xcomp", "ccomp", "advcl",
   "dislocated", "vocative", "nmod"]

/-- Modelled from the spec (§4.3, Ellipsis): `get_first_in_priority` lives
in `tb2ud/utils/__init__.py`, which is not among the sources; per the spec
it scans the fixed priority order and returns the child whose
target-schema relation label has the highest priority among the labels
present (the first such child in document order). -/
def get_first_in_priority (chs : List UNode) : List String → Option UNode
  | [] => none
  | r :: rest =>
    match chs.find? (fun c => c.deprel == r) with
    | some c => some c
    | none => get_first_in_priority chs rest

/-- The candidate filter of the bridge branch (lines 200–203).  For a
non-artificial child the comprehension reads `c.xpos[0]`, which raises
`IndexError` (`none`) when the fine-grained tag is empty. -/
def bridgeFilter : List UNode → Option (List UNode)
  | [] => some []
  | c :: cs =>
    if c.nodeType == "Artificial" then (bridgeFilter cs).map (c :: ·)
    else
      match c.xpos.data with
      | [] => none
      | x :: _ =>
        if (x ∈ ['a', 'p', 'v', 'n', 't', 'l', 'm']) ∧ ¬ (c.originalDep ∈ ["AuxY", "AuxZ"]) then
          (bridgeFilter cs).map (c :: ·)
        else bridgeFilter cs

/-- The `is_prague_bridge_subtree` branch of `process_tree`
(lines 199–211). -/
def bridgeBranch (t : UTree) (s : Nat) : Option UTree := do
  let ch ← bridgeFilter (children t s)
  match ch with
  | [newh] => redraw_subtree t newh.id s
  | _ => some t

/-- The `is_coord_subtree` branch of `process_tree` (lines 213–242). -/
def coordBranch (t : UTree) (s : Nat) : Option UTree :=
  match (children t s).filter (·.coordMember) with
  | [] => some t
  | first :: rest => do
    let t1 ← setParent t first.id (parentOf t s)
    let t2 ← rest.foldlM (fun acc m => do
        let acc1 ← setParent acc m.id first.id
        pure (setDeprel acc1 m.id "conj")) t1
    let t3 ← setParent t2 s first.id
    let t4 ← (children t3 s).foldlM (fun acc c => do
        let acc1 ← setParent acc c.id first.id
        if c.originalDep == "AuxY" ∧ c.upos == "CCONJ" then
          pure (setDeprel acc1 c.id "cc")
        else pure acc1) t3
    let t5 := if ((getNode? t4 s).map (·.nodeType)).getD "" == "Artificial"
              then removeSubtree t4 s else t4
    (children t5 first.id).foldlM (fun acc c =>
        if (udeprelOf c.deprel == "cc" ∨ udeprelOf c.deprel == "punct") ∧
           !(ordN acc c.id < ordN acc first.id) then
          attach_right acc c.id (fun b => udeprelOf b.deprel) "conj"
        else pure acc) t5

/-- The `is_apos_subtree` branch of `process_tree` (lines 244–267). -/
def aposBranch (t : UTree) (s : Nat) : Option UTree :=
  match (children t s).filter (·.aposMember) with
  | [] => some t
  | first :: rest => do
    let t1 ← setParent t first.id (parentOf t s)
    let t2 ← rest.foldlM (fun acc m => do
        let acc1 ← setParent acc m.id first.id
        pure (setDeprel acc1 m.id "apos")) t1
    let t3 ← (children t2 s).foldlM (fun acc c => setParent acc c.id first.id) t2
    if ((getNode? t3 s).map (·.nodeType)).getD "" == "Artificial" then
      pure (removeSubtree t3 s)
    else do
      let t4 ← setParent t3 s first.id
      pure (if ((getNode? t4 s).map (·.upos)).getD "" == "PUNCT" then setDeprel t4 s "punct" else t4)

/-- The `is_copula_subtree` branch of `process_tree` (lines 269–292):
`[...][0]` takes the first `PNOM` child; only the empty list raises the
(caught) `IndexError`. -/
def copulaBranch (t : UTree) (s : Nat) : Option UTree :=
  match (children t s).filter (fun c => c.originalDep == "PNOM") with
  | [] => some t
  | pnom :: _ => do
    let t1 := setDeprel t pnom.id (deprelOf t s)
    let t2 ← redraw_subtree t1 pnom.id s
    if ((getNode? t2 s).map (·.nodeType)).getD "" == "Artificial" then
      pure (removeSubtree t2 s)
    else do
      let t3 ← setParent t2 s pnom.id
      pure (setDeprel t3 s "cop")

/-- The `is_ellipsis_subtree` branch of `process_tree` (lines 294–314). -/
def ellipsisBranch (t : UTree) (s : Nat) : Option UTree :=
  match get_first_in_priority (children t s) order_list with
  | some newhead => do
    let t1 := setDeprel t newhead.id (deprelOf t s)
    redraw_subtree t1 newhead.id s
  | none => some t

/-- One iteration of the `for subtree, depth in subtrees` loop: the
`if/elif` chain over the five construction predicates (lines 196–314). -/
def processSubtree (cls : Cls) (t : UTree) (s : Nat) : Option UTree :=
  if cls.isBridge t s then bridgeBranch t s
  else if cls.isCoord t s then coordBranch t s
  else if cls.isApos t s then aposBranch t s
  else if cls.isCopula t s then copulaBranch t s
  else if cls.isEllipsis t s then ellipsisBranch t s
  else some t

def artificialIds (t : UTree) : List Nat :=
  (t.nodes.filter (fun n => n.nodeType == "Artificial")).map (·.id)

/-- `SubTreeConverter.process_tree(tree)` (lines 185–347).  `order` is the
bottom-up schedule produced by the external `get_subtree_depth`; `cls`
holds the external construction predicates; `fuel` bounds the
`set_empty_ord` recursion depth. -/
def process_tree (cls : Cls) (order : List Nat) (withEnhanced : Bool) (fuel : Nat)
    (t : UTree) : Option UTree := do
  let t0 := if withEnhanced then stampOriginalOrd (write_deps_in_misc t) else t
  let t1 ← order.foldlM (processSubtree cls) t0
  if withEnhanced then
    let remaining := artificialIds t1
    let t2 ← copy_to_empty fuel t1 remaining
    if remaining ≠ [] then
      let mapping := artMapping t2
      let t3 ← (t2.empties.map (·.id)).foldlM (emptyDepStep mapping) t2
      (t3.nodes.map (·.id)).foldlM (descDepStep mapping) t3
    else pure t2
  else pure t1

/-! ## The tree-shape invariant -/

/-- Bounded climb along the parent skeleton: does the parent chain from
`i` reach the root (id 0) within `f` steps? -/
def climbS (sk : List (Nat × Nat)) : Nat → Nat → Bool
  | 0, i => i == 0
  | f+1, i => i == 0 || climbS sk f (pfunS sk i)

/-- Well-formedness of a parent skeleton (spec §3, Tree invariant): ids
are distinct and non-zero (0 names the root), every parent is the root or
a live node, and every node's parent chain reaches the root within
`sk.length` steps — which excludes cycles and multiple parents by
construction. -/
def WfSk (sk : List (Nat × Nat)) : Prop :=
  (sk.map (·.1)).Nodup ∧
  (∀ q ∈ sk, q.1 ≠ 0) ∧
  (∀ q ∈ sk, q.2 = 0 ∨ q.2 ∈ sk.map (·.1)) ∧
  (∀ q ∈ sk, climbS sk sk.length q.1 = true)

instance (sk : List (Nat × Nat)) : Decidable (WfSk sk) := by
  unfold WfSk; infer_instance

/-- Well-formedness of the primary tree of a sentence. -/
def Wf (t : UTree) : Prop := WfSk (skel t)

instance (t : UTree) : Decidable (Wf t) := by
  unfold Wf; infer_instance

/-- A node id that is the root or a live node of the skeleton. -/
def liveOr0 (sk : List (Nat × Nat)) (i : Nat) : Prop :=
  i = 0 ∨ i ∈ sk.map (·.1)

/-- The skeleton-level effect of `updParent`. -/
def skelUpd (sk : List (Nat × Nat)) (c p : Nat) : List (Nat × Nat) :=
  sk.map (fun q => if q.1 == c then (q.1, p) else q)

/-- The skeleton-level effect of `removeRehang`. -/
def skelRemoveRehang (sk : List (Nat × Nat)) (i : Nat) : List (Nat × Nat) :=
  (sk.map (fun q => if q.2 == i then (q.1, pfunS sk i) else q)).filter (fun q => q.1 != i)

/-- The skeleton-level effect of `removeSubtree`. -/
def skelRemoveSubtree (sk : List (Nat × Nat)) (i : Nat) : List (Nat × Nat) :=
  sk.filter (fun q => !(hitsS sk (sk.length + 1) i q.1))

/-! ## Concrete input sentences and classifier instances used by the
claims.  Classifier functions model `tb2ud.utils.constructions`
predicates that single out the intended subtree root. -/

/-- Classifier valuation on which no construction matches. -/
def clsNone : Cls :=
  ⟨fun _ _ => false, fun _ _ => false, fun _ _ => false, fun _ _ => false, fun _ _ => false⟩

/-- Classifier valuation: node 1 heads a coordination. -/
def clsCoord1 : Cls :=
  ⟨fun _ _ => false, fun _ s => s == 1, fun _ _ => false, fun _ _ => false, fun _ _ => false⟩

/-- Classifier valuation: node 1 heads a bridge (relator) subtree. -/
def clsBridge1 : Cls :=
  ⟨fun _ s => s == 1, fun _ _ => false, fun _ _ => false, fun _ _ => false, fun _ _ => false⟩

/-- Sentence for C2: an artificial head (id 1) that no construction
consumes, with one ordinary dependent (id 2). -/
def exTreeC2 : UTree := { nodes := [
  { id := 1, parent := 0, deprel := "da", nodeType := "Artificial" },
  { id := 2, parent := 1, deprel := "dw" }] }

/-- Sentence for C5: two artificial nodes; the coordination rewrite
consumes the head (id 1), so the dependent's recorded head ordinal `1`
matches no live node during the resolver post-pass. -/
def exTreeC5 : UTree := { nodes := [
  { id := 1, parent := 0, deprel := "da", nodeType := "Artificial" },
  { id := 2, parent := 1, deprel := "db", nodeType := "Artificial", coordMember := true }] }

/-- Sentence for C3: a non-artificial coordination head (id 1, label
`cc`) placed between its first conjunct (id 2) and the later conjuncts
(ids 3, 4); all three children are flagged `CoordMember`. -/
def exTreeC3 : UTree := { nodes := [
  { id := 2, parent := 1, deprel := "nsubj", coordMember := true },
  { id := 1, parent := 0, deprel := "cc" },
  { id := 3, parent := 1, deprel := "xx", coordMember := true },
  { id := 4, parent := 1, deprel := "yy", coordMember := true }] }

/-- Sentence for C4: a relator head (id 1, label `case`) with a single
content-bearing candidate child (id 2, label `obl`, nominal tag). -/
def exTreeC4 : UTree := { nodes := [
  { id := 1, parent := 0, deprel := "case" },
  { id := 2, parent := 1, deprel := "obl", xpos := "n-" }] }

/-- Sentence for C10: a relator head whose non-artificial child has an
empty fine-grained tag. -/
def exTreeC10 : UTree := { nodes := [
  { id := 1, parent := 0, deprel := "case" },
  { id := 2, parent := 1, deprel := "obl", xpos := "" }] }

/-- Sentence for C8: a copula head (id 1) with two children whose
original label is `PNOM` (ids 2 and 3). -/
def exTreeC8 : UTree := { nodes := [
  { id := 1, parent := 0, deprel := "pred" },
  { id := 2, parent := 1, deprel := "xx", originalDep := "PNOM" },
  { id := 3, parent := 1, deprel := "yy", originalDep := "PNOM" }] }

/-- Sentence for C9: an artificial node (id 1) with a `goeswith` child
(id 2). -/
def exTreeC9 : UTree := { nodes := [
  { id := 1, parent := 0, deprel := "da", nodeType := "Artificial" },
  { id := 2, parent := 1, deprel := "goeswith" }] }

/-- Sentence for C6: an elided predicate (id 1) whose children carry the
target labels `advmod` (id 2), `obl` (id 3) and `nmod` (id 4). -/
def exTreeC6 : UTree := { nodes := [
  { id := 1, parent := 0, deprel := "pred" },
  { id := 2, parent := 1, deprel := "advmod" },
  { id := 3, parent := 1, deprel := "obl" },
  { id := 4, parent := 1, deprel := "nmod" }] }

/-- Sentence for the C1 witness: a two-token sentence left untouched by a
run in which no construction matches. -/
def exTreeC1 : UTree := { nodes := [
  { id := 1, parent := 0, deprel := "pred" },
  { id := 2, parent := 1, deprel := "nsubj" }] }

/-- Sentence for the C5 witness: one ordinary token whose metadata holds
a recorded pre-pass edge. -/
def exTreeC5b : UTree :=
  { nodes := [ { id := 2, parent := 0, deprel := "dw", artDeps := "1%:%dw" } ] }

/-- Resolver state for the C5 witness: a single empty node whose recorded
head ordinal `1` matches no live node. -/
def exTreeC5c : UTree :=
  { nodes := [],
    empties := [ { id := 0, eord := ⟨1, 10⟩, artDeps := "1%:%db", originalOrd := "2" } ] }


/-- Promotion demo sentence: relator 1 heads the new head 2, a `goeswith`
child 3 and an ordinary child 4. -/
def exTreeC4b : UTree := { nodes := [
  { id := 1, parent := 0, deprel := "case" },
  { id := 2, parent := 1, deprel := "obl" },
  { id := 3, parent := 1, deprel := "goeswith" },
  { id := 4, parent := 1, deprel := "amod" }] }

/-- `node.misc['NodeType']` read by the copula branch's Artificial test. -/
def nodeTypeOf (t : UTree) (i : Nat) : String :=
  ((getNode? t i).map (·.nodeType)).getD ""

/-- The first `PNOM` child of the C8 sentence's copula head. -/
def pnomA : UNode := { id := 2, parent := 1, deprel := "xx", originalDep := "PNOM" }

/-- The second `PNOM` child of the C8 sentence's copula head. -/
def pnomB : UNode := { id := 3, parent := 1, deprel := "yy", originalDep := "PNOM" }

/-- The first conjunct of the C3 sentence. -/
def coordA : UNode := { id := 2, parent := 1, deprel := "nsubj", coordMember := true }

/-- The second conjunct of the C3 sentence. -/
def coordB : UNode := { id := 3, parent := 1, deprel := "xx", coordMember := true }

/-- The third conjunct of the C3 sentence. -/
def coordC : UNode := { id := 4, parent := 1, deprel := "yy", coordMember := true }

/-! ## Lemmas: the shape invariant and its preservation -/


lemma pfunS_zero {sk : List (Nat × Nat)} (h0 : ∀ q ∈ sk, q.1 ≠ 0) : pfunS sk 0 = 0 := by
  unfold pfunS
  have h : sk.find? (fun q => q.1 == 0) = none := by
    apply List.find?_eq_none.2
    intro q hq
    simpa using h0 q hq
  simp [h]

lemma pfunS_eq_of_mem {sk : List (Nat × Nat)} (nd : (sk.map (·.1)).Nodup)
    {q : Nat × Nat} (hq : q ∈ sk) : pfunS sk q.1 = q.2 := by
  have hsome : (sk.find? (fun r => r.1 == q.1)).isSome := by
    rw [List.find?_isSome]
    exact ⟨q, hq, by simp⟩
  obtain ⟨r, hr⟩ := Option.isSome_iff_exists.1 hsome
  have hrm : r ∈ sk := List.mem_of_find?_eq_some hr
  have hr1 : r.1 = q.1 := by simpa using List.find?_some hr
  have hrq : r = q := List.inj_on_of_nodup_map nd hrm hq hr1
  unfold pfunS
  rw [hr, hrq]
  rfl

lemma pfunS_not_mem {sk : List (Nat × Nat)} {j : Nat} (h : j ∉ sk.map (·.1)) :
    pfunS sk j = 0 := by
  unfold pfunS
  have hnone : sk.find? (fun r => r.1 == j) = none := by
    apply List.find?_eq_none.2
    intro q hq hbeq
    exact h (List.mem_map.2 ⟨q, hq, by simpa using hbeq⟩)
  simp [hnone]

lemma climbS_iff {sk : List (Nat × Nat)} :
    ∀ (f i : Nat), climbS sk f i = true ↔ ∃ k ≤ f, (pfunS sk)^[k] i = 0 := by
  intro f
  induction f with
  | zero =>
    intro i
    simp only [climbS]
    constructor
    · intro h
      exact ⟨0, le_refl 0, by simpa using h⟩
    · rintro ⟨k, hk, h⟩
      interval_cases k
      simpa using h
  | succ f ih =>
    intro i
    simp only [climbS, Bool.or_eq_true, beq_iff_eq]
    constructor
    · rintro (h | h)
      · exact ⟨0, Nat.zero_le _, by simpa using h⟩
      · obtain ⟨k, hk, hk0⟩ := (ih (pfunS sk i)).1 h
        exact ⟨k + 1, Nat.succ_le_succ hk, by rwa [Function.iterate_succ_apply]⟩
    · rintro ⟨k, hk, hk0⟩
      match k with
      | 0 => exact Or.inl (by simpa using hk0)
      | k + 1 =>
        right
        exact (ih (pfunS sk i)).2 ⟨k, Nat.le_of_succ_le_succ hk, by rwa [Function.iterate_succ_apply] at hk0⟩



lemma cycleCheckS_iff {sk : List (Nat × Nat)} {c : Nat} :
    ∀ (f cur : Nat), cycleCheckS sk f c cur = true ↔
      ∃ m < f, (pfunS sk)^[m] cur = 0 ∧ ∀ j < m, (pfunS sk)^[j] cur ≠ c := by
  intro f
  induction f with
  | zero =>
    intro cur
    simp [cycleCheckS]
  | succ f ih =>
    intro cur
    simp only [cycleCheckS]
    by_cases h0 : cur = 0
    · subst h0
      simp only [beq_self_eq_true, if_true]
      constructor
      · intro _
        exact ⟨0, Nat.succ_pos _, by simp, by simp⟩
      · intro _; trivial
    · rw [if_neg (by simpa using h0)]
      by_cases hc : cur = c
      · subst hc
        rw [if_pos (by simp)]
        constructor
        · intro h; cases h
        · rintro ⟨m, _hm, hm0, hmc⟩
          match m with
          | 0 => exact absurd (by simpa using hm0) h0
          | m + 1 => exact absurd rfl (hmc 0 (Nat.succ_pos _))
      · rw [if_neg (by simpa using hc)]
        rw [ih (pfunS sk cur)]
        constructor
        · rintro ⟨m, hm, hm0, hmc⟩
          refine ⟨m + 1, Nat.succ_lt_succ hm, by rwa [Function.iterate_succ_apply], ?_⟩
          intro j hj
          match j with
          | 0 => simpa using hc
          | j + 1 =>
            rw [Function.iterate_succ_apply]
            exact hmc j (Nat.lt_of_succ_lt_succ hj)
        · rintro ⟨m, hm, hm0, hmc⟩
          match m with
          | 0 => exact absurd (by simpa using hm0) h0
          | m + 1 =>
            refine ⟨m, Nat.lt_of_succ_lt_succ hm, by rwa [Function.iterate_succ_apply] at hm0, ?_⟩
            intro j hj
            have := hmc (j + 1) (Nat.succ_lt_succ hj)
            rwa [Function.iterate_succ_apply] at this

lemma hitsS_iff {sk : List (Nat × Nat)} {tgt : Nat} :
    ∀ (f cur : Nat), hitsS sk f tgt cur = true ↔
      ∃ m < f, (pfunS sk)^[m] cur = tgt ∧ ∀ j < m, (pfunS sk)^[j] cur ≠ 0 := by
  intro f
  induction f with
  | zero =>
    intro cur
    simp [hitsS]
  | succ f ih =>
    intro cur
    simp only [hitsS]
    by_cases ht : cur = tgt
    · subst ht
      rw [if_pos (by simp)]
      constructor
      · intro _
        exact ⟨0, Nat.succ_pos _, by simp, by simp⟩
      · intro _; trivial
    · rw [if_neg (by simpa using ht)]
      by_cases h0 : cur = 0
      · subst h0
        rw [if_pos (by simp)]
        constructor
        · intro h; cases h
        · rintro ⟨m, _hm, hm0, hmz⟩
          match m with
          | 0 => exact absurd (by simpa using hm0) ht
          | m + 1 =>
            refine absurd ?_ (hmz 0 (Nat.succ_pos _))
            simp
      · rw [if_neg (by simpa using h0)]
        rw [ih (pfunS sk cur)]
        constructor
        · rintro ⟨m, hm, hm0, hmz⟩
          refine ⟨m + 1, Nat.succ_lt_succ hm, by rwa [Function.iterate_succ_apply], ?_⟩
          intro j hj
          match j with
          | 0 => simpa using h0
          | j + 1 =>
            rw [Function.iterate_succ_apply]
            exact hmz j (Nat.lt_of_succ_lt_succ hj)
        · rintro ⟨m, hm, hm0, hmz⟩
          match m with
          | 0 => exact absurd (by simpa using hm0) ht
          | m + 1 =>
            refine ⟨m, Nat.lt_of_succ_lt_succ hm, by rwa [Function.iterate_succ_apply] at hm0, ?_⟩
            intro j hj
            have := hmz (j + 1) (Nat.succ_lt_succ hj)
            rwa [Function.iterate_succ_apply] at this



lemma liveOr0_pfunS {sk : List (Nat × Nat)} (nd : (sk.map (·.1)).Nodup)
    (h0 : ∀ q ∈ sk, q.1 ≠ 0) (hl : ∀ q ∈ sk, q.2 = 0 ∨ q.2 ∈ sk.map (·.1))
    {x : Nat} (hx : liveOr0 sk x) : liveOr0 sk (pfunS sk x) := by
  rcases hx with hx | hx
  · subst hx
    rw [pfunS_zero h0]
    exact Or.inl rfl
  · obtain ⟨q, hq, hq1⟩ := List.mem_map.1 hx
    rw [← hq1, pfunS_eq_of_mem nd hq]
    exact hl q hq

lemma liveOr0_iterate {sk : List (Nat × Nat)} (nd : (sk.map (·.1)).Nodup)
    (h0 : ∀ q ∈ sk, q.1 ≠ 0) (hl : ∀ q ∈ sk, q.2 = 0 ∨ q.2 ∈ sk.map (·.1))
    {x : Nat} (hx : liveOr0 sk x) : ∀ j, liveOr0 sk ((pfunS sk)^[j] x) := by
  intro j
  induction j with
  | zero => simpa using hx
  | succ j ih =>
    rw [Function.iterate_succ_apply']
    exact liveOr0_pfunS nd h0 hl ih

/-- Any parent walk that first meets `tgt` after avoiding the root visits
pairwise-distinct live nodes, so a successful walk can be shortened to at
most `sk.length` steps. -/
lemma minimal_walk_bound {sk : List (Nat × Nat)} (nd : (sk.map (·.1)).Nodup)
    (h0 : ∀ q ∈ sk, q.1 ≠ 0) (hl : ∀ q ∈ sk, q.2 = 0 ∨ q.2 ∈ sk.map (·.1))
    {x tgt : Nat} (hx : liveOr0 sk x)
    (hex : ∃ m, (pfunS sk)^[m] x = tgt ∧ ∀ j < m, (pfunS sk)^[j] x ≠ 0) :
    ∃ m ≤ sk.length, (pfunS sk)^[m] x = tgt ∧ ∀ j < m, (pfunS sk)^[j] x ≠ 0 := by
  classical
  set f := pfunS sk with hf
  have hdec : DecidablePred (fun m => f^[m] x = tgt ∧ ∀ j < m, f^[j] x ≠ 0) := by
    intro m; infer_instance
  set m0 := Nat.find hex with hm0def
  obtain ⟨hm0t, hm0z⟩ := Nat.find_spec hex
  have hmin : ∀ m' < m0, ¬(f^[m'] x = tgt ∧ ∀ j < m', f^[j] x ≠ 0) := fun m' hm' =>
    Nat.find_min hex hm'
  -- entries below m0 are live
  have hlive : ∀ j < m0, f^[j] x ∈ sk.map (·.1) := by
    intro j hj
    have h1 := liveOr0_iterate nd h0 hl hx j
    rcases h1 with h1 | h1
    · exact absurd h1 (hm0z j hj)
    · exact h1
  -- entries below m0 are pairwise distinct
  have hinj : ∀ a < m0, ∀ b < m0, f^[a] x = f^[b] x → a = b := by
    intro a ha b hb hab
    by_contra hne
    -- wlog a < b
    rcases Nat.lt_or_ge a b with hab' | hab'
    · have hfm : f^[m0 - b + a] x = tgt := by
        have h1 : f^[m0] x = f^[m0 - b] (f^[b] x) := by
          rw [← Function.iterate_add_apply]
          congr 1
          omega
        have h2 : f^[m0 - b] (f^[a] x) = f^[m0 - b + a] x := by
          rw [← Function.iterate_add_apply]
        rw [h1, ← hab, h2] at hm0t
        exact hm0t
      have hlt : m0 - b + a < m0 := by omega
      exact hmin _ hlt ⟨hfm, fun j hj => hm0z j (by omega)⟩
    · have hba : b < a := by omega
      have hfm : f^[m0 - a + b] x = tgt := by
        have h1 : f^[m0] x = f^[m0 - a] (f^[a] x) := by
          rw [← Function.iterate_add_apply]
          congr 1
          omega
        have h2 : f^[m0 - a] (f^[b] x) = f^[m0 - a + b] x := by
          rw [← Function.iterate_add_apply]
        rw [h1, hab, h2] at hm0t
        exact hm0t
      have hlt : m0 - a + b < m0 := by omega
      exact hmin _ hlt ⟨hfm, fun j hj => hm0z j (by omega)⟩
  -- m0 ≤ sk.length by counting distinct live entries
  have hcard : m0 ≤ sk.length := by
    have h1 : (Finset.range m0).card ≤ ((sk.map (·.1)).toFinset).card := by
      apply Finset.card_le_card_of_injOn (fun m => f^[m] x)
      · intro m hm
        rw [List.mem_toFinset]
        exact hlive m (Finset.mem_range.1 hm)
      · intro a ha b hb hab
        exact hinj a (Finset.mem_range.1 ha) b (Finset.mem_range.1 hb) hab
    calc m0 = (Finset.range m0).card := (Finset.card_range m0).symm
    _ ≤ ((sk.map (·.1)).toFinset).card := h1
    _ ≤ (sk.map (·.1)).length := List.toFinset_card_le _
    _ = sk.length := List.length_map _ _
  exact ⟨m0, hcard, hm0t, hm0z⟩

/-- If some parent walk from a live-or-root node reaches the root, the
bounded climb with fuel `sk.length` succeeds. -/
lemma climb_of_exists {sk : List (Nat × Nat)} (nd : (sk.map (·.1)).Nodup)
    (h0 : ∀ q ∈ sk, q.1 ≠ 0) (hl : ∀ q ∈ sk, q.2 = 0 ∨ q.2 ∈ sk.map (·.1))
    {j : Nat} (hj : liveOr0 sk j) (hex : ∃ k, (pfunS sk)^[k] j = 0) :
    climbS sk sk.length j = true := by
  classical
  set f := pfunS sk with hf
  set k0 := Nat.find hex with hk0def
  have hk0 : f^[k0] j = 0 := Nat.find_spec hex
  have hmin : ∀ m < k0, f^[m] j ≠ 0 := fun m hm => Nat.find_min hex hm
  obtain ⟨m, hm, hmt, _⟩ := minimal_walk_bound nd h0 hl hj ⟨k0, hk0, hmin⟩
  exact (climbS_iff sk.length j).2 ⟨m, hm, hmt⟩



lemma skelUpd_ids (sk : List (Nat × Nat)) (c p : Nat) :
    (skelUpd sk c p).map (·.1) = sk.map (·.1) := by
  unfold skelUpd
  rw [List.map_map]
  apply List.map_congr_left
  intro q _
  by_cases h : q.1 = c
  · simp [h]
  · simp [h]

lemma pfunS_skelUpd {sk : List (Nat × Nat)} (nd : (sk.map (·.1)).Nodup)
    {c : Nat} (p : Nat) (hc : c ∈ sk.map (·.1)) (i : Nat) :
    pfunS (skelUpd sk c p) i = if i = c then p else pfunS sk i := by
  have nd' : ((skelUpd sk c p).map (·.1)).Nodup := by rwa [skelUpd_ids]
  by_cases hic : i = c
  · rw [if_pos hic]
    obtain ⟨q, hq, hq1⟩ := List.mem_map.1 hc
    have hmem : ((c : Nat), p) ∈ skelUpd sk c p := by
      unfold skelUpd
      refine List.mem_map.2 ⟨q, hq, ?_⟩
      rw [if_pos (by simpa using hq1), hq1]
    have h2 := pfunS_eq_of_mem nd' hmem
    rw [hic]
    simpa using h2
  · rw [if_neg hic]
    by_cases hi : i ∈ sk.map (·.1)
    · obtain ⟨q, hq, hq1⟩ := List.mem_map.1 hi
      have hqc : ¬(q.1 = c) := by rw [hq1]; exact hic
      have hmem : q ∈ skelUpd sk c p := by
        unfold skelUpd
        refine List.mem_map.2 ⟨q, hq, ?_⟩
        rw [if_neg (by simpa using hqc)]
      have h1 := pfunS_eq_of_mem nd' hmem
      have h2 := pfunS_eq_of_mem nd hq
      rw [hq1] at h1 h2
      rw [h1, h2]
    · rw [pfunS_not_mem hi, pfunS_not_mem (by rwa [skelUpd_ids])]

lemma iterate_agree {f g : Nat → Nat} {c : Nat} (hg : ∀ x, x ≠ c → g x = f x)
    {j k : Nat} (h : ∀ i < k, f^[i] j ≠ c) : ∀ i ≤ k, g^[i] j = f^[i] j := by
  intro i hi
  induction i with
  | zero => simp
  | succ i ih =>
    rw [Function.iterate_succ_apply', Function.iterate_succ_apply',
        ih (Nat.le_of_succ_le hi), hg _ (h i (Nat.lt_of_succ_le hi))]

lemma WfSk_skelUpd {sk : List (Nat × Nat)} {c p : Nat} (h : WfSk sk)
    (hc : c ∈ sk.map (·.1)) (hp : p = 0 ∨ p ∈ sk.map (·.1))
    (hchk : cycleCheckS sk (sk.length + 1) c p = true) :
    WfSk (skelUpd sk c p) := by
  obtain ⟨nd, h0, hl, hcl⟩ := h
  have hids := skelUpd_ids sk c p
  have hlen : (skelUpd sk c p).length = sk.length := List.length_map _ _
  have nd' : ((skelUpd sk c p).map (·.1)).Nodup := by rwa [hids]
  have hmemupd : ∀ q' ∈ skelUpd sk c p, ∃ q ∈ sk, q'.1 = q.1 ∧
      (q'.2 = p ∨ q'.2 = q.2) := by
    intro q' hq'
    obtain ⟨q, hq, hqeq⟩ := List.mem_map.1 hq'
    by_cases hqc : q.1 = c
    · rw [if_pos (by simpa using hqc)] at hqeq
      exact ⟨q, hq, by rw [← hqeq], Or.inl (by rw [← hqeq])⟩
    · rw [if_neg (by simpa using hqc)] at hqeq
      exact ⟨q, hq, by rw [← hqeq], Or.inr (by rw [← hqeq])⟩
  have h0' : ∀ q' ∈ skelUpd sk c p, q'.1 ≠ 0 := by
    intro q' hq'
    obtain ⟨q, hq, hq1, _⟩ := hmemupd q' hq'
    rw [hq1]; exact h0 q hq
  have hl' : ∀ q' ∈ skelUpd sk c p, q'.2 = 0 ∨ q'.2 ∈ (skelUpd sk c p).map (·.1) := by
    intro q' hq'
    rw [hids]
    obtain ⟨q, hq, _, hq2⟩ := hmemupd q' hq'
    rcases hq2 with hq2 | hq2
    · rw [hq2]; exact hp
    · rw [hq2]; exact hl q hq
  refine ⟨nd', h0', hl', ?_⟩
  -- climbs
  set f := pfunS sk with hfdef
  set g := pfunS (skelUpd sk c p) with hgdef
  have hg : ∀ x, g x = if x = c then p else f x := pfunS_skelUpd nd p hc
  have hgne : ∀ x, x ≠ c → g x = f x := by
    intro x hx; rw [hg, if_neg hx]
  obtain ⟨m, _hmlt, hm0, hmc⟩ := (cycleCheckS_iff (sk.length + 1) p).1 hchk
  -- the walk from p in g reaches the root
  have hpz : g^[m] p = 0 := by
    have := iterate_agree hgne (j := p) (k := m) hmc m (le_refl m)
    rw [this]; exact hm0
  intro q' hq'
  have hjl : q'.1 ∈ sk.map (·.1) := by
    have : q'.1 ∈ (skelUpd sk c p).map (·.1) := List.mem_map.2 ⟨q', hq', rfl⟩
    rwa [hids] at this
  obtain ⟨q, hq, hq1⟩ := List.mem_map.1 hjl
  have hclq := hcl q hq
  obtain ⟨k, _hk, hk0⟩ := (climbS_iff sk.length q.1).1 hclq
  have hex : ∃ kk, g^[kk] q'.1 = 0 := by
    rw [← hq1]
    by_cases hcase : ∀ i < k, f^[i] q.1 ≠ c
    · exact ⟨k, by rw [iterate_agree hgne hcase k (le_refl k)]; exact hk0⟩
    · push_neg at hcase
      classical
      have hfind : ∃ i, i < k ∧ f^[i] q.1 = c := by
        obtain ⟨i, hi, hic⟩ := hcase
        exact ⟨i, hi, hic⟩
      set a := Nat.find hfind with hadef
      obtain ⟨halt, hac⟩ := Nat.find_spec hfind
      have hamin : ∀ i < a, ¬(i < k ∧ f^[i] q.1 = c) := fun i hi => Nat.find_min hfind hi
      have hpre : ∀ i < a, f^[i] q.1 ≠ c := by
        intro i hi hcon
        exact hamin i hi ⟨by omega, hcon⟩
      have hga : g^[a] q.1 = c := by
        rw [iterate_agree hgne hpre a (le_refl a)]
        exact hac
      have hgap : g^[a + 1] q.1 = p := by
        rw [Function.iterate_succ_apply', hga, hg, if_pos rfl]
      refine ⟨m + (a + 1), ?_⟩
      rw [Function.iterate_add_apply, hgap]
      exact hpz
  have hlive' : liveOr0 (skelUpd sk c p) q'.1 := by
    unfold liveOr0
    rw [hids]
    exact Or.inr hjl
  exact climb_of_exists nd' h0' hl' hlive' hex



lemma pfunS_ne_self {sk : List (Nat × Nat)} (h : WfSk sk) {i : Nat}
    (hi : i ∈ sk.map (·.1)) : pfunS sk i ≠ i := by
  obtain ⟨nd, h0, _hl, hcl⟩ := h
  obtain ⟨q, hq, hq1⟩ := List.mem_map.1 hi
  intro hcon
  have hiz : i ≠ 0 := by rw [← hq1]; exact h0 q hq
  have hfix : ∀ k, (pfunS sk)^[k] i = i := by
    intro k
    induction k with
    | zero => simp
    | succ k ih => rw [Function.iterate_succ_apply', ih, hcon]
  obtain ⟨k, _, hk0⟩ := (climbS_iff sk.length q.1).1 (hcl q hq)
  rw [hq1] at hk0
  rw [hfix k] at hk0
  exact hiz hk0

lemma map_fst_filter_fst {F : (Nat × Nat) → (Nat × Nat)} (hF : ∀ q, (F q).1 = q.1)
    (p : Nat → Bool) (sk : List (Nat × Nat)) :
    ((sk.map F).filter (fun q => p q.1)).map (·.1) = (sk.map (·.1)).filter p := by
  induction sk with
  | nil => simp
  | cons q l ih =>
    simp only [List.map_cons, List.filter_cons, hF]
    cases hp : p q.1 <;> simp [hp, ih, hF]

lemma skelRemoveRehang_ids (sk : List (Nat × Nat)) (i : Nat) :
    (skelRemoveRehang sk i).map (·.1) = (sk.map (·.1)).filter (fun x => x != i) := by
  unfold skelRemoveRehang
  exact map_fst_filter_fst (F := fun q => if q.2 == i then (q.1, pfunS sk i) else q)
    (fun q => by by_cases h : q.2 == i <;> simp [h]) (p := fun x => x != i) sk

lemma skelRemoveRehang_mem {sk : List (Nat × Nat)} {i : Nat} {q : Nat × Nat}
    (hq : q ∈ sk) (hq1 : q.1 ≠ i) :
    (if q.2 == i then (q.1, pfunS sk i) else q) ∈ skelRemoveRehang sk i := by
  unfold skelRemoveRehang
  apply List.mem_filter.2
  constructor
  · exact List.mem_map.2 ⟨q, hq, rfl⟩
  · by_cases h : q.2 == i <;> simp [h, hq1]

lemma pfunS_skelRemoveRehang {sk : List (Nat × Nat)} (nd : (sk.map (·.1)).Nodup)
    (i : Nat) {j : Nat} (hji : j ≠ i) (hj : j ∈ sk.map (·.1)) :
    pfunS (skelRemoveRehang sk i) j =
      if pfunS sk j = i then pfunS sk i else pfunS sk j := by
  have nd' : ((skelRemoveRehang sk i).map (·.1)).Nodup := by
    rw [skelRemoveRehang_ids]
    exact nd.filter _
  obtain ⟨q, hq, hq1⟩ := List.mem_map.1 hj
  have hpj : pfunS sk j = q.2 := by rw [← hq1]; exact pfunS_eq_of_mem nd hq
  have hmem := skelRemoveRehang_mem hq (by rwa [hq1])
  by_cases hcase : q.2 = i
  · rw [if_pos (by rw [hpj]; exact hcase)]
    rw [if_pos (by simpa using hcase)] at hmem
    have := pfunS_eq_of_mem nd' hmem
    simpa [hq1] using this
  · rw [if_neg (by rw [hpj]; exact hcase)]
    rw [if_neg (by simpa using hcase)] at hmem
    have := pfunS_eq_of_mem nd' hmem
    rw [hq1] at this
    rw [this, hpj]

lemma WfSk_skelRemoveRehang {sk : List (Nat × Nat)} (h : WfSk sk) (i : Nat) :
    WfSk (skelRemoveRehang sk i) := by
  obtain ⟨nd, h0, hl, hcl⟩ := h
  have hWf : WfSk sk := ⟨nd, h0, hl, hcl⟩
  have hids := skelRemoveRehang_ids sk i
  have nd' : ((skelRemoveRehang sk i).map (·.1)).Nodup := by
    rw [hids]; exact nd.filter _
  -- membership in the new skeleton characterised through the old one
  have hmem' : ∀ q' ∈ skelRemoveRehang sk i, ∃ q ∈ sk, q'.1 = q.1 ∧ q.1 ≠ i ∧
      ((q.2 = i ∧ q'.2 = pfunS sk i) ∨ (q.2 ≠ i ∧ q'.2 = q.2)) := by
    intro q' hq'
    unfold skelRemoveRehang at hq'
    obtain ⟨hq'm, hq'1⟩ := List.mem_filter.1 hq'
    obtain ⟨q, hq, hqeq⟩ := List.mem_map.1 hq'm
    by_cases hcase : q.2 = i
    · rw [if_pos (by simpa using hcase)] at hqeq
      refine ⟨q, hq, by rw [← hqeq], ?_, Or.inl ⟨hcase, by rw [← hqeq]⟩⟩
      intro hcon
      rw [← hqeq] at hq'1
      simp at hq'1
      exact hq'1 hcon
    · rw [if_neg (by simpa using hcase)] at hqeq
      refine ⟨q, hq, by rw [← hqeq], ?_, Or.inr ⟨hcase, by rw [← hqeq]⟩⟩
      intro hcon
      rw [← hqeq] at hq'1
      simp at hq'1
      exact hq'1 hcon
  have h0' : ∀ q' ∈ skelRemoveRehang sk i, q'.1 ≠ 0 := by
    intro q' hq'
    obtain ⟨q, hq, hq1, _, _⟩ := hmem' q' hq'
    rw [hq1]; exact h0 q hq
  -- membership of a live id distinct from i in the filtered ids
  have hmemid : ∀ x, x ∈ sk.map (·.1) → x ≠ i →
      x ∈ (skelRemoveRehang sk i).map (·.1) := by
    intro x hx hxi
    rw [hids]
    apply List.mem_filter.2
    exact ⟨hx, by simpa using hxi⟩
  -- the rehang target is the root or stays live
  have hP : pfunS sk i = 0 ∨ (pfunS sk i ∈ sk.map (·.1) ∧ pfunS sk i ≠ i) := by
    by_cases hi : i ∈ sk.map (·.1)
    · obtain ⟨q, hq, hq1⟩ := List.mem_map.1 hi
      have := pfunS_eq_of_mem nd hq
      rw [hq1] at this
      rcases hl q hq with h2 | h2
      · exact Or.inl (by rw [this]; exact h2)
      · exact Or.inr ⟨by rw [this]; exact h2, pfunS_ne_self hWf hi⟩
    · exact Or.inl (pfunS_not_mem hi)
  have hl' : ∀ q' ∈ skelRemoveRehang sk i, q'.2 = 0 ∨
      q'.2 ∈ (skelRemoveRehang sk i).map (·.1) := by
    intro q' hq'
    obtain ⟨q, hq, _, _, hq2⟩ := hmem' q' hq'
    rcases hq2 with ⟨_, hq2⟩ | ⟨hne, hq2⟩
    · rw [hq2]
      rcases hP with hP | ⟨hP1, hP2⟩
      · exact Or.inl hP
      · exact Or.inr (hmemid _ hP1 hP2)
    · rw [hq2]
      rcases hl q hq with h2 | h2
      · exact Or.inl h2
      · exact Or.inr (hmemid _ h2 hne)
  refine ⟨nd', h0', hl', ?_⟩
  -- existence of a root path in the new skeleton
  have hexists : ∀ k, ∀ x, liveOr0 sk x → x ≠ i → (pfunS sk)^[k] x = 0 →
      ∃ kk, (pfunS (skelRemoveRehang sk i))^[kk] x = 0 := by
    intro k
    induction k using Nat.strong_induction_on with
    | _ k ihk =>
      intro x hx hxi hk0
      rcases hx with hx | hx
      · exact ⟨0, by simpa using hx⟩
      · have hxz : x ≠ 0 := by
          obtain ⟨q, hq, hq1⟩ := List.mem_map.1 hx
          rw [← hq1]; exact h0 q hq
        match k, hk0 with
        | 0, hk0 => exact absurd (by simpa using hk0) hxz
        | k' + 1, hk0 =>
          rw [Function.iterate_succ_apply] at hk0
          have hgx : pfunS (skelRemoveRehang sk i) x =
              if pfunS sk x = i then pfunS sk i else pfunS sk x :=
            pfunS_skelRemoveRehang nd i hxi hx
          by_cases hy : pfunS sk x = i
          · by_cases hi0 : i = 0
            · refine ⟨1, ?_⟩
              have hg1 : pfunS (skelRemoveRehang sk i) x = pfunS sk i := by
                rw [hgx, if_pos hy]
              rw [Function.iterate_one, hg1, hi0]
              exact pfunS_zero h0
            · -- the walk continues from the parent of i
              have hilive : i ∈ sk.map (·.1) := by
                have h3 := liveOr0_pfunS nd h0 hl (Or.inr hx)
                rw [hy] at h3
                rcases h3 with h2 | h2
                · exact absurd h2 hi0
                · exact h2
              have hfi : (pfunS sk)^[k'] i = 0 := by rwa [hy] at hk0
              have hk'pos : k' ≠ 0 := by
                intro hcon
                rw [hcon] at hfi
                exact hi0 (by simpa using hfi)
              obtain ⟨k'', rfl⟩ := Nat.exists_eq_succ_of_ne_zero hk'pos
              rw [Function.iterate_succ_apply] at hfi
              have hPlive : liveOr0 sk (pfunS sk i) := liveOr0_pfunS nd h0 hl (Or.inr hilive)
              have hPne : pfunS sk i ≠ i := pfunS_ne_self hWf hilive
              obtain ⟨kk, hkk⟩ := ihk k'' (by omega) (pfunS sk i) hPlive hPne hfi
              refine ⟨kk + 1, ?_⟩
              rw [Function.iterate_succ_apply]
              have hg1 : pfunS (skelRemoveRehang sk i) x = pfunS sk i := by
                rw [hgx, if_pos hy]
              rwa [hg1]
          · have hyl : liveOr0 sk (pfunS sk x) := liveOr0_pfunS nd h0 hl (Or.inr hx)
            obtain ⟨kk, hkk⟩ := ihk k' (by omega) (pfunS sk x) hyl hy hk0
            refine ⟨kk + 1, ?_⟩
            rw [Function.iterate_succ_apply]
            have hg1 : pfunS (skelRemoveRehang sk i) x = pfunS sk x := by
              rw [hgx, if_neg hy]
            rwa [hg1]
  intro q' hq'
  obtain ⟨q, hq, hq1, hqi, _⟩ := hmem' q' hq'
  obtain ⟨k, _, hk0⟩ := (climbS_iff sk.length q.1).1 (hcl q hq)
  have hex : ∃ kk, (pfunS (skelRemoveRehang sk i))^[kk] q'.1 = 0 := by
    rw [hq1]
    exact hexists k q.1 (Or.inr (List.mem_map.2 ⟨q, hq, rfl⟩)) hqi hk0
  apply climb_of_exists nd' h0' hl' _ hex
  unfold liveOr0
  exact Or.inr (List.mem_map.2 ⟨q', hq', rfl⟩)



lemma skelRemoveSubtree_ids (sk : List (Nat × Nat)) (i : Nat) :
    (skelRemoveSubtree sk i).map (·.1) =
      (sk.map (·.1)).filter (fun x => !(hitsS sk (sk.length + 1) i x)) := by
  unfold skelRemoveSubtree
  have h := map_fst_filter_fst (F := fun q => q) (fun _ => rfl)
    (p := fun x => !(hitsS sk (sk.length + 1) i x)) sk
  simpa using h

/-- Unbounded form of "the parent walk from `x` meets `i` before the
root". -/
lemma hits_iff_reach {sk : List (Nat × Nat)} (nd : (sk.map (·.1)).Nodup)
    (h0 : ∀ q ∈ sk, q.1 ≠ 0) (hl : ∀ q ∈ sk, q.2 = 0 ∨ q.2 ∈ sk.map (·.1))
    {i x : Nat} (hx : liveOr0 sk x) :
    hitsS sk (sk.length + 1) i x = true ↔
      ∃ m, (pfunS sk)^[m] x = i ∧ ∀ j < m, (pfunS sk)^[j] x ≠ 0 := by
  constructor
  · intro h
    obtain ⟨m, _, hm⟩ := (hitsS_iff (sk.length + 1) x).1 h
    exact ⟨m, hm⟩
  · intro h
    obtain ⟨m, hmle, hmt, hmz⟩ := minimal_walk_bound nd h0 hl hx h
    exact (hitsS_iff (sk.length + 1) x).2 ⟨m, by omega, hmt, hmz⟩

lemma reach_step {sk : List (Nat × Nat)} {i x y : Nat} (hxy : pfunS sk x = y)
    (hxz : x ≠ 0)
    (h : ∃ m, (pfunS sk)^[m] y = i ∧ ∀ j < m, (pfunS sk)^[j] y ≠ 0) :
    ∃ m, (pfunS sk)^[m] x = i ∧ ∀ j < m, (pfunS sk)^[j] x ≠ 0 := by
  obtain ⟨m, hmt, hmz⟩ := h
  refine ⟨m + 1, ?_, ?_⟩
  · rw [Function.iterate_succ_apply, hxy]
    exact hmt
  · intro j hj
    match j with
    | 0 => simpa using hxz
    | j + 1 =>
      rw [Function.iterate_succ_apply, hxy]
      exact hmz j (Nat.lt_of_succ_lt_succ hj)

lemma reach_iterate {sk : List (Nat × Nat)} {i x : Nat} {a : Nat}
    (hpre : ∀ j < a, (pfunS sk)^[j] x ≠ 0)
    (h : ∃ m, (pfunS sk)^[m] ((pfunS sk)^[a] x) = i ∧
         ∀ j < m, (pfunS sk)^[j] ((pfunS sk)^[a] x) ≠ 0) :
    ∃ m, (pfunS sk)^[m] x = i ∧ ∀ j < m, (pfunS sk)^[j] x ≠ 0 := by
  obtain ⟨m, hmt, hmz⟩ := h
  refine ⟨m + a, ?_, ?_⟩
  · rw [Function.iterate_add_apply]
    exact hmt
  · intro j hj
    by_cases hja : j < a
    · exact hpre j hja
    · have : (pfunS sk)^[j] x = (pfunS sk)^[j - a] ((pfunS sk)^[a] x) := by
        rw [← Function.iterate_add_apply]
        congr 1
        omega
      rw [this]
      exact hmz (j - a) (by omega)

lemma pfunS_skelRemoveSubtree {sk : List (Nat × Nat)} (nd : (sk.map (·.1)).Nodup)
    (i : Nat) {x : Nat} (hx : x ∈ sk.map (·.1))
    (hkept : ¬(hitsS sk (sk.length + 1) i x = true)) :
    pfunS (skelRemoveSubtree sk i) x = pfunS sk x := by
  have nd' : ((skelRemoveSubtree sk i).map (·.1)).Nodup := by
    rw [skelRemoveSubtree_ids]; exact nd.filter _
  obtain ⟨q, hq, hq1⟩ := List.mem_map.1 hx
  have hmem : q ∈ skelRemoveSubtree sk i := by
    unfold skelRemoveSubtree
    apply List.mem_filter.2
    refine ⟨hq, ?_⟩
    rw [hq1]
    simpa using hkept
  rw [← hq1, pfunS_eq_of_mem nd' hmem, pfunS_eq_of_mem nd hq]

lemma WfSk_skelRemoveSubtree {sk : List (Nat × Nat)} (h : WfSk sk) (i : Nat) :
    WfSk (skelRemoveSubtree sk i) := by
  obtain ⟨nd, h0, hl, hcl⟩ := h
  have hids := skelRemoveSubtree_ids sk i
  have nd' : ((skelRemoveSubtree sk i).map (·.1)).Nodup := by
    rw [hids]; exact nd.filter _
  have hmem' : ∀ q ∈ skelRemoveSubtree sk i, q ∈ sk ∧
      ¬(hitsS sk (sk.length + 1) i q.1 = true) := by
    intro q hq
    unfold skelRemoveSubtree at hq
    obtain ⟨h1, h2⟩ := List.mem_filter.1 hq
    exact ⟨h1, by simpa using h2⟩
  have h0' : ∀ q ∈ skelRemoveSubtree sk i, q.1 ≠ 0 :=
    fun q hq => h0 q (hmem' q hq).1
  have hmemid : ∀ x, x ∈ sk.map (·.1) → ¬(hitsS sk (sk.length + 1) i x = true) →
      x ∈ (skelRemoveSubtree sk i).map (·.1) := by
    intro x hx hxk
    rw [hids]
    apply List.mem_filter.2
    exact ⟨hx, by simpa using hxk⟩
  have hl' : ∀ q ∈ skelRemoveSubtree sk i, q.2 = 0 ∨
      q.2 ∈ (skelRemoveSubtree sk i).map (·.1) := by
    intro q hq
    obtain ⟨hqm, hqk⟩ := hmem' q hq
    rcases hl q hqm with h2 | h2
    · exact Or.inl h2
    · refine Or.inr (hmemid _ h2 ?_)
      intro hhit
      apply hqk
      have hq2live : liveOr0 sk q.2 := Or.inr h2
      have hreach2 := (hits_iff_reach nd h0 hl hq2live).1 hhit
      have hq1live : liveOr0 sk q.1 := Or.inr (List.mem_map.2 ⟨q, hqm, rfl⟩)
      refine (hits_iff_reach nd h0 hl hq1live).2 ?_
      exact reach_step (pfunS_eq_of_mem nd hqm) (h0 q hqm) hreach2
  refine ⟨nd', h0', hl', ?_⟩
  intro q hq
  obtain ⟨hqm, hqk⟩ := hmem' q hq
  have hq1live : liveOr0 sk q.1 := Or.inr (List.mem_map.2 ⟨q, hqm, rfl⟩)
  have hnoreach : ¬∃ m, (pfunS sk)^[m] q.1 = i ∧ ∀ j < m, (pfunS sk)^[j] q.1 ≠ 0 := by
    intro hcon
    exact hqk ((hits_iff_reach nd h0 hl hq1live).2 hcon)
  -- minimal root path of q.1 in the old skeleton
  obtain ⟨k, _, hk0⟩ := (climbS_iff sk.length q.1).1 (hcl q hqm)
  classical
  have hexz : ∃ kk, (pfunS sk)^[kk] q.1 = 0 := ⟨k, hk0⟩
  set k0 := Nat.find hexz with hk0def
  have hk0t : (pfunS sk)^[k0] q.1 = 0 := Nat.find_spec hexz
  have hk0min : ∀ m < k0, (pfunS sk)^[m] q.1 ≠ 0 := fun m hm => Nat.find_min hexz hm
  -- the new walk follows the old one
  have hagree : ∀ a ≤ k0, (pfunS (skelRemoveSubtree sk i))^[a] q.1 = (pfunS sk)^[a] q.1 := by
    intro a ha
    induction a with
    | zero => simp
    | succ a ih =>
      have ha' : a < k0 := Nat.lt_of_succ_le ha
      have hy : (pfunS sk)^[a] q.1 ≠ 0 := hk0min a ha'
      have hylive : (pfunS sk)^[a] q.1 ∈ sk.map (·.1) := by
        rcases liveOr0_iterate nd h0 hl hq1live a with h2 | h2
        · exact absurd h2 hy
        · exact h2
      have hykept : ¬(hitsS sk (sk.length + 1) i ((pfunS sk)^[a] q.1) = true) := by
        intro hhit
        apply hnoreach
        refine reach_iterate (a := a) (fun j hj => hk0min j (by omega)) ?_
        exact (hits_iff_reach nd h0 hl (Or.inr hylive)).1 hhit
      rw [Function.iterate_succ_apply', Function.iterate_succ_apply',
          ih (Nat.le_of_succ_le ha),
          pfunS_skelRemoveSubtree nd i hylive hykept]
  have hex : ∃ kk, (pfunS (skelRemoveSubtree sk i))^[kk] q.1 = 0 :=
    ⟨k0, by rw [hagree k0 (le_refl k0)]; exact hk0t⟩
  apply climb_of_exists nd' h0' hl' _ hex
  unfold liveOr0
  exact Or.inr (List.mem_map.2 ⟨q, hq, rfl⟩)



lemma idsOf_skel (t : UTree) : idsOf t = (skel t).map (·.1) := by
  unfold idsOf skel
  rw [List.map_map]
  rfl

lemma skel_length (t : UTree) : (skel t).length = t.nodes.length :=
  List.length_map _ _

lemma skel_updParent (t : UTree) (c p : Nat) :
    skel (updParent t c p) = skelUpd (skel t) c p := by
  unfold skel updParent skelUpd
  rw [List.map_map, List.map_map]
  apply List.map_congr_left
  intro n _
  by_cases h : n.id = c <;> simp [h]

lemma filter_id_map_pair (p : Nat → Bool) : ∀ (l : List UNode),
    (l.filter (fun n => p n.id)).map (fun n => (n.id, n.parent)) =
      (l.map (fun n => (n.id, n.parent))).filter (fun q => p q.1) := by
  intro l
  induction l with
  | nil => simp
  | cons n l ih =>
    simp only [List.filter_cons, List.map_cons]
    cases hp : p n.id <;> simp [hp, ih]

lemma skel_removeRehang (t : UTree) (i : Nat) :
    skel (removeRehang t i) = skelRemoveRehang (skel t) i := by
  unfold skel removeRehang skelRemoveRehang
  simp only
  have hcomm : ∀ (l : List UNode) (p0 : Nat),
      ((l.map (fun n => if n.parent == i then { n with parent := p0 } else n)).filter
        (fun n => n.id != i)).map (fun n => (n.id, n.parent)) =
      ((l.map (fun n => (n.id, n.parent))).map
        (fun q => if q.2 == i then (q.1, p0) else q)).filter (fun q => q.1 != i) := by
    intro l p0
    induction l with
    | nil => simp
    | cons n l ih =>
      simp only [List.map_cons, List.filter_cons]
      by_cases hpar : n.parent = i <;> by_cases hid : n.id = i <;>
        simp [hpar, hid] <;> simpa using ih
  exact hcomm t.nodes (parentOf t i)

lemma skel_removeSubtree (t : UTree) (i : Nat) :
    skel (removeSubtree t i) = skelRemoveSubtree (skel t) i := by
  have h1 : skel (removeSubtree t i) =
      (t.nodes.filter (fun n => !(hitsS (skel t) (t.nodes.length + 1) i n.id))).map
        (fun n => (n.id, n.parent)) := rfl
  have h2 : skelRemoveSubtree (skel t) i =
      (skel t).filter (fun q => !(hitsS (skel t) ((skel t).length + 1) i q.1)) := rfl
  rw [h1, h2, skel_length]
  exact filter_id_map_pair (fun x => !(hitsS (skel t) (t.nodes.length + 1) i x)) t.nodes



lemma Wf_of_skel_eq {t t' : UTree} (h : skel t' = skel t) (hw : Wf t) : Wf t' := by
  unfold Wf
  rw [h]
  exact hw

lemma skel_mapNode {i : Nat} {f : UNode → UNode}
    (hf : ∀ n, (f n).id = n.id ∧ (f n).parent = n.parent) (t : UTree) :
    skel (mapNode t i f) = skel t := by
  unfold skel mapNode
  simp only
  rw [List.map_map]
  apply List.map_congr_left
  intro n _
  by_cases h : n.id = i <;> simp [h, (hf n).1, (hf n).2]

lemma skel_setDeprel (t : UTree) (i : Nat) (d : String) :
    skel (setDeprel t i d) = skel t :=
  skel_mapNode (i := i) (f := fun n => { n with deprel := d }) (fun _ => ⟨rfl, rfl⟩) t

lemma Wf_setParent {t t' : UTree} {c p : Nat} (h : Wf t)
    (hs : setParent t c p = some t') : Wf t' := by
  unfold setParent at hs
  by_cases hg : (c ∈ idsOf t) ∧ (p = 0 ∨ p ∈ idsOf t)
  · rw [if_pos hg] at hs
    by_cases hchk : cycleCheckS (skel t) (t.nodes.length + 1) c p = true
    · rw [if_pos hchk] at hs
      have ht' : t' = updParent t c p := by
        injection hs with h1
        exact h1.symm
      rw [ht']
      unfold Wf
      rw [skel_updParent]
      apply WfSk_skelUpd h
      · rw [← idsOf_skel]; exact hg.1
      · rw [← idsOf_skel]; exact hg.2
      · rw [skel_length]; exact hchk
    · rw [if_neg hchk] at hs
      cases hs
  · rw [if_neg hg] at hs
    cases hs

lemma Wf_removeRehang {t : UTree} (h : Wf t) (i : Nat) : Wf (removeRehang t i) := by
  unfold Wf
  rw [skel_removeRehang]
  exact WfSk_skelRemoveRehang h i

lemma Wf_removeSubtree {t : UTree} (h : Wf t) (i : Nat) : Wf (removeSubtree t i) := by
  unfold Wf
  rw [skel_removeSubtree]
  exact WfSk_skelRemoveSubtree h i

lemma Wf_foldlM {α : Type} {step : UTree → α → Option UTree}
    (hstep : ∀ t a t', Wf t → step t a = some t' → Wf t') :
    ∀ (l : List α) (t t' : UTree), Wf t → l.foldlM step t = some t' → Wf t' := by
  intro l
  induction l with
  | nil =>
    intro t t' hw hf
    simp only [List.foldlM_nil] at hf
    injection hf with h1
    rw [← h1]
    exact hw
  | cons a l ih =>
    intro t t' hw hf
    simp only [List.foldlM_cons] at hf
    cases hsa : step t a with
    | none => rw [hsa] at hf; cases hf
    | some t1 =>
      rw [hsa] at hf
      exact ih t1 t' (hstep t a t1 hw hsa) hf



lemma skel_map_nodes {g : UNode → UNode}
    (hg : ∀ n, (g n).id = n.id ∧ (g n).parent = n.parent) (t : UTree) :
    skel { t with nodes := t.nodes.map g } = skel t := by
  unfold skel
  simp only
  rw [List.map_map]
  apply List.map_congr_left
  intro n _
  simp [(hg n).1, (hg n).2]

lemma skel_write_deps (t : UTree) : skel (write_deps_in_misc t) = skel t := by
  unfold write_deps_in_misc
  apply skel_map_nodes
  intro n
  by_cases h : n.nodeType = "Artificial" ∨ parentNodeType t n = "Artificial" <;>
    simp [h]

lemma skel_stampOriginalOrd (t : UTree) : skel (stampOriginalOrd t) = skel t := by
  unfold stampOriginalOrd
  apply skel_map_nodes
  intro n
  by_cases h : n.nodeType = "Artificial" <;> simp [h]

lemma skel_mapNode_apos (t : UTree) (i : Nat) (b : Bool) :
    skel (mapNode t i (fun n => { n with aposMember := b })) = skel t :=
  skel_mapNode (i := i) (f := fun n => { n with aposMember := b })
    (fun _ => ⟨rfl, rfl⟩) t

lemma skel_mapNode_coord (t : UTree) (i : Nat) (b : Bool) :
    skel (mapNode t i (fun n => { n with coordMember := b })) = skel t :=
  skel_mapNode (i := i) (f := fun n => { n with coordMember := b })
    (fun _ => ⟨rfl, rfl⟩) t

lemma Wf_redraw {t t' : UTree} {nh ch : Nat} (h : Wf t)
    (hs : redraw_subtree t nh ch = some t') : Wf t' := by
  unfold redraw_subtree at hs
  dsimp only at hs
  cases h1 : setParent t nh (parentOf t ch) with
  | none => rw [h1] at hs; cases hs
  | some t1 =>
    rw [h1] at hs
    simp only [Option.bind_eq_bind, Option.some_bind] at hs
    cases h2 : setParent t1 ch nh with
    | none => rw [h2] at hs; cases hs
    | some t2 =>
      rw [h2] at hs
      simp only [Option.bind_eq_bind, Option.some_bind] at hs
      have hw2 : Wf t2 := Wf_setParent (Wf_setParent h h1) h2
      -- the misc propagation step preserves the skeleton
      revert hs
      generalize hcs : (match getNode? t2 ch with
        | none => t2
        | some old =>
          let ta := if old.aposMember then
              mapNode t2 nh (fun n => { n with aposMember := old.aposMember }) else t2
          if old.coordMember then
              mapNode ta nh (fun n => { n with coordMember := old.coordMember }) else ta) = t3
      intro hs
      have hsk3 : skel t3 = skel t2 := by
        rw [← hcs]
        cases getNode? t2 ch with
        | none => rfl
        | some old =>
          simp only
          by_cases ha : old.aposMember <;> by_cases hc : old.coordMember <;>
            simp [ha, hc, skel_mapNode_apos, skel_mapNode_coord]
      have hw3 : Wf t3 := Wf_of_skel_eq hsk3 hw2
      apply Wf_foldlM ?_ (children t3 ch) t3 t' hw3 hs
      intro ta c ta' hwa hsa
      by_cases hg : udeprelOf c.deprel ≠ "goeswith"
      · rw [if_pos hg] at hsa
        exact Wf_setParent hwa hsa
      · rw [if_neg hg] at hsa
        injection hsa with h4
        rw [← h4]
        exact hwa

lemma Wf_attach_right {t t' : UTree} {el : Nat} {attrv : UNode → String} {val : String}
    (h : Wf t) (hs : attach_right t el attrv val = some t') : Wf t' := by
  unfold attach_right at hs
  dsimp only at hs
  cases hf : ((children t (parentOf t el)).filter
      (fun ch => !(ordN t ch.id < ordN t el))).find? (fun b => attrv b == val) with
  | none =>
    rw [hf] at hs
    injection hs with h1
    rw [← h1]
    exact h
  | some b =>
    rw [hf] at hs
    exact Wf_setParent h hs



lemma Wf_bridgeBranch {t t' : UTree} {s : Nat} (h : Wf t)
    (hs : bridgeBranch t s = some t') : Wf t' := by
  unfold bridgeBranch at hs
  cases hf : bridgeFilter (children t s) with
  | none => rw [hf] at hs; cases hs
  | some ch =>
    rw [hf] at hs
    simp only [Option.bind_eq_bind, Option.some_bind] at hs
    match ch, hs with
    | [], hs => injection hs with h1; rw [← h1]; exact h
    | [newh], hs => exact Wf_redraw h hs
    | x :: y :: zs, hs => injection hs with h1; rw [← h1]; exact h

lemma Wf_coordBranch {t t' : UTree} {s : Nat} (h : Wf t)
    (hs : coordBranch t s = some t') : Wf t' := by
  unfold coordBranch at hs
  cases hm : (children t s).filter (·.coordMember) with
  | nil => rw [hm] at hs; injection hs with h1; rw [← h1]; exact h
  | cons first rest =>
    rw [hm] at hs
    simp only [Option.bind_eq_bind] at hs
    obtain ⟨t1, h1, hs⟩ := Option.bind_eq_some.1 hs
    obtain ⟨t2, h2, hs⟩ := Option.bind_eq_some.1 hs
    obtain ⟨t3, h3, hs⟩ := Option.bind_eq_some.1 hs
    obtain ⟨t4, h4, hs⟩ := Option.bind_eq_some.1 hs
    have hw1 : Wf t1 := Wf_setParent h h1
    have hw2 : Wf t2 := by
      apply Wf_foldlM ?_ rest t1 t2 hw1 h2
      intro ta m ta' hwa hsa
      obtain ⟨tb, hsp, hsa⟩ := Option.bind_eq_some.1 hsa
      injection hsa with h5
      rw [← h5]
      exact Wf_of_skel_eq (skel_setDeprel _ _ _) (Wf_setParent hwa hsp)
    have hw3 : Wf t3 := Wf_setParent hw2 h3
    have hw4 : Wf t4 := by
      apply Wf_foldlM ?_ (children t3 s) t3 t4 hw3 h4
      intro ta c ta' hwa hsa
      obtain ⟨tb, hsp, hsa⟩ := Option.bind_eq_some.1 hsa
      have hwb : Wf tb := Wf_setParent hwa hsp
      by_cases hcc : (c.originalDep == "AuxY") = true ∧ (c.upos == "CCONJ") = true
      · rw [if_pos hcc] at hsa
        injection hsa with h5
        rw [← h5]
        exact Wf_of_skel_eq (skel_setDeprel _ _ _) hwb
      · rw [if_neg hcc] at hsa
        injection hsa with h5
        rw [← h5]
        exact hwb
    have hw5 : Wf (if ((getNode? t4 s).map (·.nodeType)).getD "" == "Artificial"
        then removeSubtree t4 s else t4) := by
      by_cases hart : (((getNode? t4 s).map (·.nodeType)).getD "" == "Artificial") = true
      · rw [if_pos hart]; exact Wf_removeSubtree hw4 s
      · rw [if_neg hart]; exact hw4
    apply Wf_foldlM ?_ _ _ t' hw5 hs
    intro ta c ta' hwa hsa
    by_cases hcp : ((udeprelOf c.deprel == "cc") = true ∨ (udeprelOf c.deprel == "punct") = true) ∧
        (!(ordN ta c.id < ordN ta first.id) : Bool) = true
    · rw [if_pos hcp] at hsa
      exact Wf_attach_right hwa hsa
    · rw [if_neg hcp] at hsa
      injection hsa with h6
      rw [← h6]
      exact hwa



lemma Wf_aposBranch {t t' : UTree} {s : Nat} (h : Wf t)
    (hs : aposBranch t s = some t') : Wf t' := by
  unfold aposBranch at hs
  cases hm : (children t s).filter (·.aposMember) with
  | nil => rw [hm] at hs; injection hs with h1; rw [← h1]; exact h
  | cons first rest =>
    rw [hm] at hs
    simp only [Option.bind_eq_bind] at hs
    obtain ⟨t1, h1, hs⟩ := Option.bind_eq_some.1 hs
    obtain ⟨t2, h2, hs⟩ := Option.bind_eq_some.1 hs
    obtain ⟨t3, h3, hs⟩ := Option.bind_eq_some.1 hs
    have hw1 : Wf t1 := Wf_setParent h h1
    have hw2 : Wf t2 := by
      apply Wf_foldlM ?_ rest t1 t2 hw1 h2
      intro ta m ta' hwa hsa
      obtain ⟨tb, hsp, hsa⟩ := Option.bind_eq_some.1 hsa
      injection hsa with h5
      rw [← h5]
      exact Wf_of_skel_eq (skel_setDeprel _ _ _) (Wf_setParent hwa hsp)
    have hw3 : Wf t3 := by
      apply Wf_foldlM ?_ (children t2 s) t2 t3 hw2 h3
      intro ta c ta' hwa hsa
      exact Wf_setParent hwa hsa
    by_cases hart : (((getNode? t3 s).map (·.nodeType)).getD "" == "Artificial") = true
    · rw [if_pos hart] at hs
      injection hs with h6
      rw [← h6]
      exact Wf_removeSubtree hw3 s
    · rw [if_neg hart] at hs
      obtain ⟨t4, h4, hs⟩ := Option.bind_eq_some.1 hs
      have hw4 : Wf t4 := Wf_setParent hw3 h4
      injection hs with h6
      rw [← h6]
      by_cases hpu : (((getNode? t4 s).map (·.upos)).getD "" == "PUNCT") = true
      · rw [if_pos hpu]
        exact Wf_of_skel_eq (skel_setDeprel _ _ _) hw4
      · rw [if_neg hpu]
        exact hw4

lemma Wf_copulaBranch {t t' : UTree} {s : Nat} (h : Wf t)
    (hs : copulaBranch t s = some t') : Wf t' := by
  unfold copulaBranch at hs
  cases hm : (children t s).filter (fun c => c.originalDep == "PNOM") with
  | nil => rw [hm] at hs; injection hs with h1; rw [← h1]; exact h
  | cons pnom rest =>
    rw [hm] at hs
    simp only [Option.bind_eq_bind] at hs
    obtain ⟨t2, h2, hs⟩ := Option.bind_eq_some.1 hs
    have hw1 : Wf (setDeprel t pnom.id (deprelOf t s)) :=
      Wf_of_skel_eq (skel_setDeprel _ _ _) h
    have hw2 : Wf t2 := Wf_redraw hw1 h2
    by_cases hart : (((getNode? t2 s).map (·.nodeType)).getD "" == "Artificial") = true
    · rw [if_pos hart] at hs
      injection hs with h6
      rw [← h6]
      exact Wf_removeSubtree hw2 s
    · rw [if_neg hart] at hs
      obtain ⟨t3, h3, hs⟩ := Option.bind_eq_some.1 hs
      injection hs with h6
      rw [← h6]
      exact Wf_of_skel_eq (skel_setDeprel _ _ _) (Wf_setParent hw2 h3)

lemma Wf_ellipsisBranch {t t' : UTree} {s : Nat} (h : Wf t)
    (hs : ellipsisBranch t s = some t') : Wf t' := by
  unfold ellipsisBranch at hs
  cases hm : get_first_in_priority (children t s) order_list with
  | none => rw [hm] at hs; injection hs with h1; rw [← h1]; exact h
  | some newhead =>
    rw [hm] at hs
    simp only at hs
    exact Wf_redraw (Wf_of_skel_eq (skel_setDeprel _ _ _) h) hs

lemma Wf_processSubtree {t t' : UTree} {cls : Cls} {s : Nat} (h : Wf t)
    (hs : processSubtree cls t s = some t') : Wf t' := by
  unfold processSubtree at hs
  by_cases h1 : cls.isBridge t s = true
  · rw [if_pos h1] at hs; exact Wf_bridgeBranch h hs
  · rw [if_neg h1] at hs
    by_cases h2 : cls.isCoord t s = true
    · rw [if_pos h2] at hs; exact Wf_coordBranch h hs
    · rw [if_neg h2] at hs
      by_cases h3 : cls.isApos t s = true
      · rw [if_pos h3] at hs; exact Wf_aposBranch h hs
      · rw [if_neg h3] at hs
        by_cases h4 : cls.isCopula t s = true
        · rw [if_pos h4] at hs; exact Wf_copulaBranch h hs
        · rw [if_neg h4] at hs
          by_cases h5 : cls.isEllipsis t s = true
          · rw [if_pos h5] at hs; exact Wf_ellipsisBranch h hs
          · rw [if_neg h5] at hs
            injection hs with h6
            rw [← h6]
            exact h

lemma Wf_copyOneArt {t t' : UTree} {fuel art : Nat} (h : Wf t)
    (hs : copyOneArt fuel t art = some t') : Wf t' := by
  unfold copyOneArt at hs
  cases hidx : t.nodes.findIdx? (fun n => n.id == art) with
  | none => rw [hidx] at hs; injection hs with h1; rw [← h1]; exact h
  | some idx =>
    rw [hidx] at hs
    dsimp only at hs
    cases hget : t.nodes[idx]? with
    | none => rw [hget] at hs; injection hs with h1; rw [← h1]; exact h
    | some a =>
      rw [hget] at hs
      dsimp only at hs
      simp only [Option.bind_eq_bind] at hs
      obtain ⟨v, hv, hs⟩ := Option.bind_eq_some.1 hs
      injection hs with h1
      rw [← h1]
      apply Wf_removeRehang ?_ art
      exact h

lemma Wf_emptyDepStep {t t' : UTree} {mapping : List (String × Nat)} {eid : Nat}
    (h : Wf t) (hs : emptyDepStep mapping t eid = some t') : Wf t' := by
  have hskel : ∀ (par : NRef) (rel : String), skel (appendEmpDep t eid par rel) = skel t :=
    fun _ _ => rfl
  unfold emptyDepStep at hs
  cases hfe : t.empties.find? (fun e => e.id == eid) with
  | none => rw [hfe] at hs; injection hs with h1; rw [← h1]; exact h
  | some e =>
    rw [hfe] at hs
    dsimp only at hs
    by_cases hne : e.artDeps ≠ ""
    · rw [if_pos hne] at hs
      cases hsp : pySplit e.artDeps "%:%" with
      | nil => rw [hsp] at hs; cases hs
      | cons dep rest =>
        rw [hsp] at hs
        match rest, hs with
        | [], hs => cases hs
        | [rel], hs =>
          simp only at hs
          cases hmf : mapping.find? (fun q => q.1 == dep) with
          | some q =>
            rw [hmf] at hs
            injection hs with h1
            rw [← h1]
            exact Wf_of_skel_eq (hskel _ _) h
          | none =>
            rw [hmf] at hs
            by_cases hd0 : (dep == "0") = true
            · rw [if_pos hd0] at hs
              injection hs with h1
              rw [← h1]
              exact Wf_of_skel_eq (hskel _ _) h
            · rw [if_neg hd0] at hs
              dsimp only at hs
              cases hpi : pyInt dep with
              | none => rw [hpi] at hs; cases hs
              | some k =>
                rw [hpi] at hs
                dsimp only at hs
                cases hfind : ((t.nodes.map (fun n => (DOrd.ofNat (ordN t n.id), NRef.tok n.id))) ++
                    (t.empties.map (fun e2 => (e2.eord, NRef.emp e2.id)))).find?
                      (fun q => q.1.qeq (DOrd.ofNat k)) with
                | none => rw [hfind] at hs; cases hs
                | some q =>
                  rw [hfind] at hs
                  injection hs with h1
                  rw [← h1]
                  exact Wf_of_skel_eq (hskel _ _) h
        | r1 :: r2 :: rs, hs => cases hs
    · rw [if_neg hne] at hs
      injection hs with h1
      rw [← h1]
      exact h

lemma Wf_descDepStep {t t' : UTree} {mapping : List (String × Nat)} {i : Nat}
    (h : Wf t) (hs : descDepStep mapping t i = some t') : Wf t' := by
  unfold descDepStep at hs
  cases hfe : getNode? t i with
  | none => rw [hfe] at hs; injection hs with h1; rw [← h1]; exact h
  | some n =>
    rw [hfe] at hs
    dsimp only at hs
    by_cases hne : n.artDeps ≠ ""
    · rw [if_pos hne] at hs
      cases hsp : pySplit n.artDeps ":" with
      | nil => rw [hsp] at hs; cases hs
      | cons depHead rest =>
        rw [hsp] at hs
        match rest, hs with
        | [], hs => cases hs
        | [depRel], hs =>
          simp only at hs
          cases hmf : mapping.find? (fun q => q.1 == depHead) with
          | some q =>
            rw [hmf] at hs
            injection hs with h1
            rw [← h1]
            refine Wf_of_skel_eq ?_ h
            exact skel_mapNode (i := i)
              (f := fun m => { m with deps := m.deps ++ [(NRef.emp q.2, depRel)] })
              (fun _ => ⟨rfl, rfl⟩) t
          | none =>
            rw [hmf] at hs
            injection hs with h1
            rw [← h1]
            exact h
        | r1 :: r2 :: rs, hs => cases hs
    · rw [if_neg hne] at hs
      injection hs with h1
      rw [← h1]
      exact h



/-- C1: for every well-formed input tree, any completing run of
`process_tree` — enhanced or not, under arbitrary classifier verdicts and
an arbitrary bottom-up schedule, including runs in which branches logged a
failure and skipped their subtree — leaves the primary parent relation a
single-rooted tree: every node's parent chain reaches the sentence root in
finitely many steps with no repeated node, and every non-root node has
exactly one parent (the `Wf` invariant). -/
theorem c1_parent_invariant (cls : Cls) (order : List Nat) (withEnhanced : Bool)
    (fuel : Nat) (t t' : UTree) (h : Wf t)
    (hrun : process_tree cls order withEnhanced fuel t = some t') : Wf t' := by
  unfold process_tree at hrun
  simp only [Option.bind_eq_bind] at hrun
  have hw0 : Wf (if withEnhanced then stampOriginalOrd (write_deps_in_misc t) else t) := by
    by_cases he : withEnhanced = true
    · rw [if_pos he]
      refine Wf_of_skel_eq ?_ h
      rw [skel_stampOriginalOrd, skel_write_deps]
    · rw [if_neg he]
      exact h
  obtain ⟨t1, h1, hrun⟩ := Option.bind_eq_some.1 hrun
  have hw1 : Wf t1 :=
    Wf_foldlM (fun ta s ta' hwa hsa => Wf_processSubtree hwa hsa) order _ t1 hw0 h1
  by_cases he : withEnhanced = true
  · rw [if_pos he] at hrun
    obtain ⟨t2, h2, hrun⟩ := Option.bind_eq_some.1 hrun
    have hw2 : Wf t2 := by
      unfold copy_to_empty at h2
      exact Wf_foldlM (fun ta a ta' hwa hsa => Wf_copyOneArt hwa hsa) _ t1 t2 hw1 h2
    by_cases hr : artificialIds t1 ≠ []
    · rw [if_pos hr] at hrun
      obtain ⟨t3, h3, hrun⟩ := Option.bind_eq_some.1 hrun
      have hw3 : Wf t3 :=
        Wf_foldlM (fun ta a ta' hwa hsa => Wf_emptyDepStep hwa hsa) _ t2 t3 hw2 h3
      exact Wf_foldlM (fun ta a ta' hwa hsa => Wf_descDepStep hwa hsa) _ t3 t' hw3 hrun
    · rw [if_neg hr] at hrun
      injection hrun with h4
      rw [← h4]
      exact hw2
  · rw [if_neg he] at hrun
    injection hrun with h4
    rw [← h4]
    exact hw1


/-- Witness for C1 at a concrete sentence: a well-formed two-token tree,
processed with no matching construction, stays well-formed. -/
theorem c1_parent_invariant_witness :
    Wf exTreeC1 ∧ process_tree clsNone [1] false 0 exTreeC1 = some exTreeC1 ∧ Wf exTreeC1 :=
  ⟨by decide, by decide,
    c1_parent_invariant clsNone [1] false 0 exTreeC1 exTreeC1 (by decide) (by decide)⟩


/-- `get_first_in_priority` returns a child whose label has the least
index in the priority list among all the children (labels outside the
list count as index `length`). -/
lemma get_first_in_priority_spec :
    ∀ (ord : List String) (chs : List UNode) (c : UNode),
      get_first_in_priority chs ord = some c →
      c ∈ chs ∧ c.deprel ∈ ord ∧
      ∀ c' ∈ chs, ord.indexOf c.deprel ≤ ord.indexOf c'.deprel := by
  intro ord
  induction ord with
  | nil => intro chs c h; cases h
  | cons r rest ih =>
    intro chs c h
    unfold get_first_in_priority at h
    cases hf : chs.find? (fun x => x.deprel == r) with
    | some c0 =>
      rw [hf] at h
      injection h with h1
      rw [← h1]
      have hc0m : c0 ∈ chs := List.mem_of_find?_eq_some hf
      have hc0r : c0.deprel = r := by simpa using List.find?_some hf
      refine ⟨hc0m, by rw [hc0r]; exact List.mem_cons_self r rest, ?_⟩
      intro c' _
      rw [hc0r]
      simp [List.indexOf_cons]
    | none =>
      rw [hf] at h
      obtain ⟨hcm, hcd, hle⟩ := ih chs c h
      have hnr : ∀ x ∈ chs, x.deprel ≠ r := by
        intro x hx
        have := List.find?_eq_none.1 hf x hx
        simpa using this
      refine ⟨hcm, List.mem_cons_of_mem r hcd, ?_⟩
      intro c' hc'
      have hb1 : (r == c.deprel) = false := by
        simp only [beq_eq_false_iff_ne]
        exact fun hcon => hnr c hcm hcon.symm
      have hb2 : (r == c'.deprel) = false := by
        simp only [beq_eq_false_iff_ne]
        exact fun hcon => hnr c' hc' hcon.symm
      have h1 : (r :: rest).indexOf c.deprel = rest.indexOf c.deprel + 1 := by
        simp [List.indexOf_cons, hb1]
      have h2 : (r :: rest).indexOf c'.deprel = rest.indexOf c'.deprel + 1 := by
        simp [List.indexOf_cons, hb2]
      rw [h1, h2]
      exact Nat.succ_le_succ (hle c' hc')

/-! ## C2: the descendant post-pass drops every recorded secondary edge -/

/-- C2 (code evidence): on a sentence whose artificial head survives to the
resolver with one ordinary dependent, the pre-pass records the pair
`1%:%dw` on the dependent and the artificial mapping holds the key `1`,
yet after the post-pass the dependent's secondary-edge list is empty — the
descendant loop splits on `":"` instead of the writer's `"%:%"`, so its
lookup key `1%` never matches the mapping and the edge is silently
dropped.  (The empty node's own edge, read with the correct separator,
does resolve.) -/
theorem c2_descendant_secondary_edge_dropped :
    ((process_tree clsNone [1] true 10 exTreeC2).map
      (fun t => t.nodes.map (fun n => (n.id, n.artDeps, n.deps))) =
        some [(2, "1%:%dw", [])]) ∧
    ((process_tree clsNone [1] true 10 exTreeC2).map
      (fun t => t.empties.map (fun e => (e.originalOrd, e.artDeps, e.deps))) =
        some [("1", "0%:%da", [(NRef.root, "da")])]) :=
  ⟨by decide, by decide⟩

/-! ## C10: the bridge candidate filter and empty fine-grained tags -/

/-- C10: the bridge branch's candidate filter reads the first character of
each non-artificial child's fine-grained tag, so it is total whenever
every non-artificial child has a non-empty tag; and on a concrete bridge
subtree whose non-artificial child has an empty tag, candidate selection
raises an unhandled `IndexError` (the run returns `none`) instead of
logging and skipping the subtree. -/
theorem c10_bridge_empty_xpos :
    (∀ (chs : List UNode), (∀ c ∈ chs, c.nodeType ≠ "Artificial" → c.xpos ≠ "") →
      (bridgeFilter chs).isSome = true) ∧
    process_tree clsBridge1 [1] false 0 exTreeC10 = none := by
  constructor
  · intro chs
    induction chs with
    | nil => intro _; rfl
    | cons c cs ih =>
      intro h
      have hcs : (bridgeFilter cs).isSome = true :=
        ih (fun c' hc' => h c' (List.mem_cons_of_mem _ hc'))
      obtain ⟨l, hl⟩ := Option.isSome_iff_exists.1 hcs
      unfold bridgeFilter
      by_cases hart : (c.nodeType == "Artificial") = true
      · rw [if_pos hart, hl]
        rfl
      · rw [if_neg hart]
        have hx : c.xpos ≠ "" := h c (List.mem_cons_self c cs) (by simpa using hart)
        cases hd : c.xpos.data with
        | nil =>
          exact absurd (String.ext (by rw [hd])) hx
        | cons x xs =>
          dsimp only
          rw [hl]
          by_cases hcond : x ∈ ['a', 'p', 'v', 'n', 't', 'l', 'm'] ∧
              c.originalDep ∉ ["AuxY", "AuxZ"]
          · rw [if_pos hcond]; rfl
          · rw [if_neg hcond]; rfl
  · decide

/-- Witness for C10's totality half: on a bridge subtree whose child has a
non-empty tag, the filter does not raise. -/
theorem c10_bridge_empty_xpos_witness :
    (∀ c ∈ children exTreeC4 1, c.nodeType ≠ "Artificial" → c.xpos ≠ "") ∧
    (bridgeFilter (children exTreeC4 1)).isSome = true :=
  ⟨by decide, c10_bridge_empty_xpos.1 _ (by decide)⟩

/-! ## C5: the resolver post-pass on unresolvable recorded heads -/

/-- C5 counterexample: an unresolvable recorded head ordinal in the
empty-node loop is not dropped-and-logged — the `[...][0]` lookup raises
an uncaught `IndexError` and the exception escapes `process_tree`
(modelled as a `none` run): the coordination rewrite consumes the
artificial head at ordinal 1, so the surviving artificial's recorded head
`1` matches no live node. -/
theorem c5_resolver_counterexample :
    process_tree clsCoord1 [1] true 10 exTreeC5 = none := by decide

/-- C5 (amended): in the ordinary-descendant loop, a recorded head that
matches no key of the artificial mapping makes that one edge be dropped
silently (the `KeyError` is caught, nothing is logged) and processing
continues with the tree otherwise unchanged; in the empty-node loop, a
recorded head that is not a mapping key, not `0`, and matches no live
node's ordinal raises an uncaught `IndexError` (`none`). -/
theorem c5_resolver_amended :
    (∀ (mapping : List (String × Nat)) (t : UTree) (i : Nat) (n : UNode)
        (depHead depRel : String),
        getNode? t i = some n →
        pySplit n.artDeps ":" = [depHead, depRel] →
        mapping.find? (fun q => q.1 == depHead) = none →
        descDepStep mapping t i = some t) ∧
    (∀ (mapping : List (String × Nat)) (t : UTree) (eid : Nat) (e : ENode)
        (dep rel : String),
        t.empties.find? (fun x => x.id == eid) = some e →
        e.artDeps ≠ "" →
        pySplit e.artDeps "%:%" = [dep, rel] →
        mapping.find? (fun q => q.1 == dep) = none →
        (dep == "0") = false →
        (∀ k, pyInt dep = some k →
          ((t.nodes.map (fun n => (DOrd.ofNat (ordN t n.id), NRef.tok n.id))) ++
           (t.empties.map (fun e2 => (e2.eord, NRef.emp e2.id)))).find?
             (fun q => q.1.qeq (DOrd.ofNat k)) = none) →
        emptyDepStep mapping t eid = none) := by
  constructor
  · intro mapping t i n depHead depRel hget hsp hmf
    unfold descDepStep
    rw [hget]
    dsimp only
    have hne : n.artDeps ≠ "" := by
      intro hcon
      rw [hcon] at hsp
      cases hsp
    rw [if_pos hne, hsp]
    dsimp only
    rw [hmf]
  · intro mapping t eid e dep rel hget hne hsp hmf hd0 hfind
    unfold emptyDepStep
    rw [hget]
    dsimp only
    rw [if_pos hne, hsp]
    dsimp only
    rw [hmf]
    dsimp only
    rw [if_neg (by simp [hd0])]
    cases hpi : pyInt dep with
    | none => rfl
    | some k =>
      dsimp only
      rw [hfind k hpi]

/-- Witness for C5's amended statement at concrete resolver states. -/
theorem c5_resolver_amended_witness :
    descDepStep [("9", 0)] exTreeC5b 2 = some exTreeC5b ∧
    emptyDepStep [("2", 0)] exTreeC5c 0 = none :=
  ⟨c5_resolver_amended.1 [("9", 0)] exTreeC5b 2
      { id := 2, parent := 0, deprel := "dw", artDeps := "1%:%dw" } "1%" "%dw"
      (by decide) (by decide) (by decide),
   c5_resolver_amended.2 [("2", 0)] exTreeC5c 0
      { id := 0, eord := ⟨1, 10⟩, artDeps := "1%:%db", originalOrd := "2" } "1" "db"
      (by decide) (by decide) (by decide) (by decide) (by decide)
      (by intro k hk; injection hk with hk1; rw [← hk1]; decide)⟩

/-! ## C6: ellipsis promotion priority (the candidate picker is modelled
from the spec, `get_first_in_priority` not being among the sources) -/

/-- C6: the promoted ellipsis child is the one whose target-schema label
comes first in the fixed priority order: whatever `get_first_in_priority`
returns has a label in the order list of minimal index among the children;
on the concrete `{obl, advmod, nmod}` subtree the `obl` child is promoted
and takes the head's former label; and with no child labelled in the list
the subtree is left unchanged. -/
theorem c6_ellipsis_priority :
    (∀ (chs : List UNode) (c : UNode),
      get_first_in_priority chs order_list = some c →
      c ∈ chs ∧ c.deprel ∈ order_list ∧
      ∀ c' ∈ chs, order_list.indexOf c.deprel ≤ order_list.indexOf c'.deprel) ∧
    ((ellipsisBranch exTreeC6 1).map
      (fun t => t.nodes.map (fun n => (n.id, n.parent, n.deprel))) =
        some [(1, 3, "pred"), (2, 3, "advmod"), (3, 0, "pred"), (4, 3, "nmod")]) ∧
    (∀ t s, get_first_in_priority (children t s) order_list = none →
      ellipsisBranch t s = some t) := by
  refine ⟨fun chs c h => get_first_in_priority_spec order_list chs c h, by decide, ?_⟩
  intro t s h
  unfold ellipsisBranch
  rw [h]

/-- Witness for C6's generic half at the concrete subtree. -/
theorem c6_ellipsis_priority_witness :
    get_first_in_priority (children exTreeC6 1) order_list =
      some { id := 3, parent := 1, deprel := "obl" } ∧
    ({ id := 3, parent := 1, deprel := "obl" } : UNode) ∈ children exTreeC6 1 :=
  ⟨by decide, (c6_ellipsis_priority.1 _ _ (by decide)).1⟩


/-! ## C7: fractional ordinal assignment for empty nodes -/

lemma digits10Aux_eq : ∀ (f : Nat), ∀ (f' k : Nat), k ≤ f → k ≤ f' →
    digits10Aux f k = digits10Aux f' k := by
  intro f
  induction f with
  | zero =>
    intro f' k hf hf'
    have hk : k = 0 := Nat.le_zero.1 hf
    subst hk
    cases f' with
    | zero => rfl
    | succ f'' => simp [digits10Aux]
  | succ f ih =>
    intro f' k hf hf'
    cases f' with
    | zero =>
      have hk : k = 0 := Nat.le_zero.1 hf'
      subst hk
      simp [digits10Aux]
    | succ f'' =>
      simp only [digits10Aux]
      by_cases hk : k < 10
      · simp [hk]
      · simp only [hk, if_false]
        have hkpos : 0 < k := by omega
        have hdiv : k / 10 < k := Nat.div_lt_self hkpos (by omega)
        rw [ih f'' (k / 10) (by omega) (by omega)]

lemma digits10_lt10 {k : Nat} (h : k < 10) : digits10 k = 1 := by
  unfold digits10
  cases k with
  | zero => rfl
  | succ k' => simp [digits10Aux, h]

lemma digits10_ge10 {k : Nat} (h : 10 ≤ k) : digits10 k = digits10 (k / 10) + 1 := by
  unfold digits10
  have hkpos : 0 < k := by omega
  obtain ⟨k', rfl⟩ := Nat.exists_eq_succ_of_ne_zero (Nat.pos_iff_ne_zero.1 hkpos)
  simp only [digits10Aux]
  rw [if_neg (by omega)]
  have hdiv : (k' + 1) / 10 < k' + 1 := Nat.div_lt_self (by omega) (by omega)
  rw [digits10Aux_eq k' ((k' + 1) / 10) ((k' + 1) / 10) (by omega) (le_refl _)]

lemma lt_pow_digits10 : ∀ (k : Nat), k < 10 ^ digits10 k := by
  intro k
  induction k using Nat.strong_induction_on with
  | _ k ih =>
    by_cases hk : k < 10
    · rw [digits10_lt10 hk]
      simpa using hk
    · push_neg at hk
      rw [digits10_ge10 hk]
      have hdiv : k / 10 < k := Nat.div_lt_self (by omega) (by omega)
      have h1 := ih (k / 10) hdiv
      have h2 : k < 10 * (k / 10) + 10 := by omega
      calc k < 10 * (k / 10) + 10 := h2
        _ = 10 * (k / 10 + 1) := by ring
        _ ≤ 10 * 10 ^ digits10 (k / 10) := by
            apply Nat.mul_le_mul_left
            omega
        _ = 10 ^ (digits10 (k / 10) + 1) := by ring

lemma digits10_eq_of_range : ∀ (d : Nat), ∀ (k : Nat), 10 ^ d ≤ k → k < 10 ^ (d + 1) →
    digits10 k = d + 1 := by
  intro d
  induction d with
  | zero =>
    intro k h1 h2
    exact digits10_lt10 (by simpa using h2)
  | succ d ih =>
    intro k h1 h2
    have h10 : 10 ≤ k := le_trans (by
      calc (10:Nat) = 10 ^ 1 := by ring
      _ ≤ 10 ^ (d + 1) := Nat.pow_le_pow_right (by omega) (by omega)) h1
    rw [digits10_ge10 h10]
    have hb1 : 10 ^ d ≤ k / 10 := by
      rw [Nat.le_div_iff_mul_le (by omega)]
      calc 10 ^ d * 10 = 10 ^ (d + 1) := by ring
      _ ≤ k := h1
    have hb2 : k / 10 < 10 ^ (d + 1) := by
      rw [Nat.div_lt_iff_lt_mul (by omega)]
      calc k < 10 ^ (d + 1 + 1) := h2
      _ = 10 ^ (d + 1) * 10 := by ring
    rw [ih (k / 10) hb1 hb2]

lemma emptyOrdCand_den_pos (p k : Nat) : 0 < (emptyOrdCand p k).den := by
  unfold emptyOrdCand
  positivity

lemma emptyOrdCand_toQ (p k : Nat) :
    (emptyOrdCand p k).toQ = (p : ℚ) + (k : ℚ) / (10 : ℚ) ^ digits10 k := by
  unfold emptyOrdCand DOrd.toQ
  have h10 : ((10 : ℚ) ^ digits10 k) ≠ 0 := by positivity
  push_cast
  field_simp

lemma emptyOrdCand_range (p : Nat) {k : Nat} (hk : 1 ≤ k) :
    (p : ℚ) < (emptyOrdCand p k).toQ ∧ (emptyOrdCand p k).toQ < (p : ℚ) + 1 := by
  rw [emptyOrdCand_toQ]
  have hpow : (0 : ℚ) < (10 : ℚ) ^ digits10 k := by positivity
  have hkq : (0 : ℚ) < (k : ℚ) := by exact_mod_cast hk
  have hlt : (k : ℚ) < (10 : ℚ) ^ digits10 k := by
    have := lt_pow_digits10 k
    exact_mod_cast this
  constructor
  · have : (0 : ℚ) < (k : ℚ) / (10 : ℚ) ^ digits10 k := div_pos hkq hpow
    linarith
  · have : (k : ℚ) / (10 : ℚ) ^ digits10 k < 1 := (div_lt_one hpow).2 hlt
    linarith

lemma qeq_iff_toQ {a b : DOrd} (ha : 0 < a.den) (hb : 0 < b.den) :
    a.qeq b = true ↔ a.toQ = b.toQ := by
  unfold DOrd.qeq DOrd.toQ
  rw [beq_iff_eq]
  have ha' : ((a.den : ℚ)) ≠ 0 := by exact_mod_cast Nat.pos_iff_ne_zero.1 ha
  have hb' : ((b.den : ℚ)) ≠ 0 := by exact_mod_cast Nat.pos_iff_ne_zero.1 hb
  rw [div_eq_div_iff ha' hb']
  constructor
  · intro h
    exact_mod_cast h
  · intro h
    exact_mod_cast h

lemma set_empty_ord_sound {used : List DOrd} {p : Nat} :
    ∀ (fuel k : Nat) {v : DOrd}, set_empty_ord used p fuel k = some v →
      used.any v.qeq = false ∧ ∃ j, k ≤ j ∧ v = emptyOrdCand p j := by
  intro fuel
  induction fuel with
  | zero => intro k v h; cases h
  | succ fuel ih =>
    intro k v h
    unfold set_empty_ord at h
    by_cases hu : used.any (emptyOrdCand p k).qeq = true
    · rw [if_pos hu] at h
      obtain ⟨h1, j, hj, hv⟩ := ih (k + 1) h
      exact ⟨h1, j, by omega, hv⟩
    · rw [if_neg hu] at h
      injection h with h1
      refine ⟨?_, k, le_refl k, h1.symm⟩
      rw [← h1]
      simpa using hu

lemma set_empty_ord_success {used : List DOrd} {p : Nat} :
    ∀ (fuel k : Nat),
      (∃ j, k ≤ j ∧ j < k + fuel ∧ used.any (emptyOrdCand p j).qeq = false) →
      (set_empty_ord used p fuel k).isSome = true := by
  intro fuel
  induction fuel with
  | zero =>
    rintro k ⟨j, hj1, hj2, _⟩
    omega
  | succ fuel ih =>
    rintro k ⟨j, hj1, hj2, hj3⟩
    unfold set_empty_ord
    by_cases hu : used.any (emptyOrdCand p k).qeq = true
    · rw [if_pos hu]
      apply ih (k + 1)
      refine ⟨j, ?_, by omega, hj3⟩
      rcases Nat.eq_or_lt_of_le hj1 with h | h
      · exfalso
        rw [h] at hu
        rw [hu] at hj3
        cases hj3
      · omega
    · rw [if_neg hu]
      rfl

lemma exists_unused_cand (used : List DOrd) (hden : ∀ u ∈ used, 0 < u.den)
    (p : Nat) (k0 : Nat) :
    ∃ j, k0 ≤ j ∧ used.any (emptyOrdCand p j).qeq = false := by
  classical
  set n := used.length with hn
  set d := k0 + n + 1 with hd
  have hdpow : d < 10 ^ d := Nat.lt_pow_self (by omega) d
  -- all candidates 10^d + r for r ≤ n have d+1 digits
  have hdig : ∀ r, r ≤ n → digits10 (10 ^ d + r) = d + 1 := by
    intro r hr
    apply digits10_eq_of_range
    · omega
    · have : 10 ^ (d + 1) = 10 ^ d * 10 := by ring
      have hnd : n < 10 ^ d := by omega
      omega
  have hval : ∀ r, r ≤ n →
      (emptyOrdCand p (10 ^ d + r)).toQ =
        (p : ℚ) + ((10 ^ d + r : Nat) : ℚ) / (10 : ℚ) ^ (d + 1) := by
    intro r hr
    rw [emptyOrdCand_toQ, hdig r hr]
  by_contra hcon
  push_neg at hcon
  -- every candidate collides with a used value
  have hcoll : ∀ r, r ≤ n → ∃ u ∈ used, (emptyOrdCand p (10 ^ d + r)).toQ = u.toQ := by
    intro r hr
    have h1 := hcon (10 ^ d + r) (by omega)
    have h2 : used.any (emptyOrdCand p (10 ^ d + r)).qeq = true := by
      cases h3 : used.any (emptyOrdCand p (10 ^ d + r)).qeq with
      | false => exact absurd h3 h1
      | true => rfl
    obtain ⟨u, hu, hq⟩ := List.any_eq_true.1 h2
    exact ⟨u, hu, (qeq_iff_toQ (emptyOrdCand_den_pos _ _) (hden u hu)).1 hq⟩
  -- pigeonhole on the n+1 distinct candidate values
  have hinj : ∀ r1, r1 ≤ n → ∀ r2, r2 ≤ n →
      (emptyOrdCand p (10 ^ d + r1)).toQ = (emptyOrdCand p (10 ^ d + r2)).toQ →
      r1 = r2 := by
    intro r1 h1 r2 h2 heq
    rw [hval r1 h1, hval r2 h2] at heq
    have hpow : ((10 : ℚ) ^ (d + 1)) ≠ 0 := by positivity
    field_simp at heq
    exact_mod_cast heq
  have hcard : (Finset.range (n + 1)).card ≤ ((used.map DOrd.toQ).toFinset).card := by
    apply Finset.card_le_card_of_injOn (fun r => (emptyOrdCand p (10 ^ d + r)).toQ)
    · intro r hr
      obtain ⟨u, hu, hq⟩ := hcoll r (by simpa [Nat.lt_succ_iff] using hr)
      rw [List.mem_toFinset, hq]
      exact List.mem_map.2 ⟨u, hu, rfl⟩
    · intro r1 h1 r2 h2 heq
      exact hinj r1 (by simpa [Nat.lt_succ_iff] using h1) r2
        (by simpa [Nat.lt_succ_iff] using h2) heq
  have h1 : (Finset.range (n + 1)).card = n + 1 := Finset.card_range _
  have h2 : ((used.map DOrd.toQ).toFinset).card ≤ n := by
    calc ((used.map DOrd.toQ).toFinset).card ≤ (used.map DOrd.toQ).length :=
      List.toFinset_card_le _
    _ = n := List.length_map _ _
  omega

lemma any_qeq_false_forall {used : List DOrd} {v : DOrd} (h : used.any v.qeq = false) :
    ∀ u ∈ used, v.qeq u = false := by
  intro u hu
  cases hq : v.qeq u with
  | false => rfl
  | true =>
    exfalso
    have h2 : used.any v.qeq = true := List.any_eq_true.2 ⟨u, hu, hq⟩
    rw [h2] at h
    cases h

lemma set_empty_ord_run (used : List DOrd) (hden : ∀ u ∈ used, 0 < u.den) (p : Nat) :
    ∃ (fuel : Nat) (v : DOrd), set_empty_ord used p fuel 1 = some v ∧
      0 < v.den ∧ (∀ u ∈ used, v.toQ ≠ u.toQ) ∧
      (p : ℚ) < v.toQ ∧ v.toQ < (p : ℚ) + 1 := by
  obtain ⟨j, hj1, hju⟩ := exists_unused_cand used hden p 1
  have hsome : (set_empty_ord used p j 1).isSome = true :=
    set_empty_ord_success j 1 ⟨j, hj1, by omega, hju⟩
  obtain ⟨v, hv⟩ := Option.isSome_iff_exists.1 hsome
  obtain ⟨hany, jv, hjv1, hjv⟩ := set_empty_ord_sound j 1 hv
  have hdenv : 0 < v.den := by rw [hjv]; exact emptyOrdCand_den_pos _ _
  have hrange := emptyOrdCand_range p hjv1
  refine ⟨j, v, hv, hdenv, ?_, by rw [hjv]; exact hrange.1, by rw [hjv]; exact hrange.2⟩
  intro u hu heq
  have hq : v.qeq u = false := any_qeq_false_forall hany u hu
  have : v.qeq u = true := (qeq_iff_toQ hdenv (hden u hu)).2 heq
  rw [this] at hq
  cases hq

/-- C7: for any previous-token ordinal `p` and any list of already-used
empty-node ordinals, the retry loop of `set_empty_ord` terminates (some
recursion depth returns a value) at an ordinal numerically distinct from
every used one; running it a second time for a node anchored after the
same token (with the first result now used) yields a second ordinal, the
two are distinct, and both lie strictly between `p` and `p + 1`. -/
theorem c7_ordinal_uniqueness (p : Nat) (used : List DOrd) (hden : ∀ u ∈ used, 0 < u.den) :
    ∃ (f1 f2 : Nat) (v1 v2 : DOrd),
      set_empty_ord used p f1 1 = some v1 ∧
      set_empty_ord (used ++ [v1]) p f2 1 = some v2 ∧
      v1.toQ ≠ v2.toQ ∧
      (∀ u ∈ used, v1.toQ ≠ u.toQ) ∧
      (p : ℚ) < v1.toQ ∧ v1.toQ < (p : ℚ) + 1 ∧
      (p : ℚ) < v2.toQ ∧ v2.toQ < (p : ℚ) + 1 := by
  obtain ⟨f1, v1, hv1, hd1, hu1, hr1, hr1'⟩ := set_empty_ord_run used hden p
  have hden' : ∀ u ∈ used ++ [v1], 0 < u.den := by
    intro u hu
    rcases List.mem_append.1 hu with hu | hu
    · exact hden u hu
    · rw [List.mem_singleton.1 hu]; exact hd1
  obtain ⟨f2, v2, hv2, hd2, hu2, hr2, hr2'⟩ := set_empty_ord_run (used ++ [v1]) hden' p
  refine ⟨f1, f2, v1, v2, hv1, hv2, ?_, hu1, hr1, hr1', hr2, hr2'⟩
  intro heq
  exact hu2 v1 (List.mem_append.2 (Or.inr (List.mem_singleton.2 rfl))) heq.symm


/-- Witness for C7 at a concrete anchor and used list. -/
theorem c7_ordinal_uniqueness_witness :
    (∀ u ∈ [(⟨41, 10⟩ : DOrd)], 0 < u.den) ∧
    (∃ (f1 f2 : Nat) (v1 v2 : DOrd),
      set_empty_ord [⟨41, 10⟩] 4 f1 1 = some v1 ∧
      set_empty_ord ([⟨41, 10⟩] ++ [v1]) 4 f2 1 = some v2 ∧
      v1.toQ ≠ v2.toQ ∧
      (∀ u ∈ [(⟨41, 10⟩ : DOrd)], v1.toQ ≠ u.toQ) ∧
      ((4 : Nat) : ℚ) < v1.toQ ∧ v1.toQ < ((4 : Nat) : ℚ) + 1 ∧
      ((4 : Nat) : ℚ) < v2.toQ ∧ v2.toQ < ((4 : Nat) : ℚ) + 1) :=
  ⟨by decide, c7_ordinal_uniqueness 4 [⟨41, 10⟩] (by decide)⟩


/-! ## Counterexamples for C3, C4, C8, C9 -/

/-- C3 counterexample: for the coordination subtree headed by the
non-artificial node 1 (label `cc`, placed between its conjuncts 2, 3, 4
flagged `CoordMember`), after the rewrite the first conjunct (2) is a
child of the old grandparent but keeps its own label `nsubj` instead of
bearing the head's former label `cc`, and the head ends up a child of the
second conjunct (3), not of the first — the final `attach_right` pass
moves a non-preceding `cc`/`punct` child off the first conjunct. -/
theorem c3_coordination_counterexample :
    ((coordBranch exTreeC3 1).map
      (fun t => t.nodes.map (fun n => (n.id, n.parent, n.deprel))) =
        some [(2, 0, "nsubj"), (1, 3, "cc"), (3, 2, "conj"), (4, 2, "conj")]) ∧
    deprelOf exTreeC3 1 = "cc" ∧ ("nsubj" : String) ≠ "cc" ∧ (3 : Nat) ≠ 2 :=
  ⟨by decide, by decide, by decide, by decide⟩

/-- C4 counterexample: promoting the single bridge candidate (node 2,
label `obl`) under the relator (node 1, label `case`) reparents it onto
the relator's former parent but leaves its own label unchanged —
`redraw_subtree` never copies the old head's relation label. -/
theorem c4_promote_counterexample :
    ((bridgeBranch exTreeC4 1).map
      (fun t => t.nodes.map (fun n => (n.id, n.parent, n.deprel))) =
        some [(1, 2, "case"), (2, 0, "obl")]) ∧
    deprelOf exTreeC4 1 = "case" ∧ ("obl" : String) ≠ "case" :=
  ⟨by decide, by decide, by decide⟩

/-- C8 counterexample: a copula subtree with two `PNOM` children is not
left unrewritten — the branch takes the first `PNOM` child (`[...][0]`)
and performs the full rewrite. -/
theorem c8_ambiguous_copula_counterexample :
    ((copulaBranch exTreeC8 1).map
      (fun t => t.nodes.map (fun n => (n.id, n.parent, n.deprel))) =
        some [(1, 2, "cop"), (2, 0, "pred"), (3, 2, "yy")]) ∧
    ((children exTreeC8 1).filter (fun c => c.originalDep == "PNOM")).length = 2 ∧
    copulaBranch exTreeC8 1 ≠ some exTreeC8 :=
  ⟨by decide, by decide, by decide⟩

/-- C9 counterexample: when `copy_to_empty` deletes the artificial node 1,
its `goeswith` child (node 2) does not keep its attachment — udapi
`remove(children='rehang')` rehangs every child, `goeswith` included, onto
the removed node's parent (the root). -/
theorem c9_goeswith_rehang_counterexample :
    ((copyOneArt 10 exTreeC9 1).map
      (fun t => t.nodes.map (fun n => (n.id, n.parent, n.deprel))) =
        some [(2, 0, "goeswith")]) ∧
    parentOf exTreeC9 2 = 1 ∧ (0 : Nat) ≠ 1 :=
  ⟨by decide, by decide, by decide⟩

end Tb2ud

namespace Tb2ud

lemma iterate_zero_fix {sk : List (Nat × Nat)} (h0 : ∀ q ∈ sk, q.1 ≠ 0) :
    ∀ j, (pfunS sk)^[j] 0 = 0 := by
  intro j
  induction j with
  | zero => simp
  | succ j ih => rw [Function.iterate_succ_apply', ih, pfunS_zero h0]

lemma no_cycle {sk : List (Nat × Nat)} (h : WfSk sk) {x : Nat}
    (hx : x ∈ sk.map (·.1)) : ∀ k, 1 ≤ k → (pfunS sk)^[k] x ≠ x := by
  obtain ⟨nd, h0, hl, hcl⟩ := h
  intro k hk hcon
  obtain ⟨q, hq, hq1⟩ := List.mem_map.1 hx
  have hxz : x ≠ 0 := by rw [← hq1]; exact h0 q hq
  obtain ⟨m, _, hm0⟩ := (climbS_iff sk.length q.1).1 (hcl q hq)
  rw [hq1] at hm0
  -- iterating the k-cycle beyond m forces x = 0
  have hcyc : ∀ j, (pfunS sk)^[j * k] x = x := by
    intro j
    induction j with
    | zero => simp
    | succ j ih =>
      have : (j + 1) * k = k + j * k := by ring
      rw [this, Function.iterate_add_apply, ih, hcon]
  have hbig : (pfunS sk)^[(m + 1) * k] x = x := hcyc (m + 1)
  have hge : m ≤ (m + 1) * k := by nlinarith
  have : (pfunS sk)^[(m + 1) * k] x = 0 := by
    have h1 : (m + 1) * k = ((m + 1) * k - m) + m := by omega
    rw [h1, Function.iterate_add_apply, hm0, iterate_zero_fix h0]
  rw [this] at hbig
  exact hxz hbig.symm

/-- Record-level parent lookup: the parent field of any node record is the
value of the parent function at its id. -/
lemma parentOf_of_mem {t : UTree} (h : Wf t) {n : UNode} (hn : n ∈ t.nodes) :
    parentOf t n.id = n.parent := by
  have hmem : (n.id, n.parent) ∈ skel t := List.mem_map.2 ⟨n, hn, rfl⟩
  exact pfunS_eq_of_mem h.1 hmem

lemma idsOf_mem_of_node {t : UTree} {n : UNode} (hn : n ∈ t.nodes) :
    n.id ∈ idsOf t := List.mem_map.2 ⟨n, hn, rfl⟩

lemma parent_liveOr0 {t : UTree} (h : Wf t) {x : Nat} (hx : x ∈ idsOf t) :
    parentOf t x = 0 ∨ parentOf t x ∈ idsOf t := by
  rw [idsOf_skel] at hx ⊢
  obtain ⟨q, hq, hq1⟩ := List.mem_map.1 hx
  rw [← hq1]
  unfold parentOf
  rw [pfunS_eq_of_mem h.1 hq]
  exact h.2.2.1 q hq

lemma parentOf_ne_self {t : UTree} (h : Wf t) {x : Nat} (hx : x ∈ idsOf t) :
    parentOf t x ≠ x := by
  rw [idsOf_skel] at hx
  exact pfunS_ne_self h hx

lemma idsOf_ne_zero {t : UTree} (h : Wf t) {x : Nat} (hx : x ∈ idsOf t) : x ≠ 0 := by
  rw [idsOf_skel] at hx
  obtain ⟨q, hq, hq1⟩ := List.mem_map.1 hx
  rw [← hq1]
  exact h.2.1 q hq

lemma climb_exists_utree {t : UTree} (h : Wf t) {x : Nat} (hx : x ∈ idsOf t) :
    ∃ m ≤ t.nodes.length, (parentOf t)^[m] x = 0 := by
  rw [idsOf_skel] at hx
  obtain ⟨q, hq, hq1⟩ := List.mem_map.1 hx
  obtain ⟨m, hm, hm0⟩ := (climbS_iff (skel t).length q.1).1 (h.2.2.2 q hq)
  rw [hq1] at hm0
  rw [skel_length] at hm
  exact ⟨m, hm, hm0⟩

/-- Ancestor antisymmetry: if `y` is a strict ancestor of `x`, then `x`
is on no parent chain starting at `y`. -/
lemma avoid_of_strict_anc {t : UTree} (h : Wf t) {x y : Nat} (hx : x ∈ idsOf t)
    {m : Nat} (hm : 1 ≤ m) (hxy : (parentOf t)^[m] x = y) :
    ∀ k, (parentOf t)^[k] y ≠ x := by
  intro k hcon
  have : (parentOf t)^[k + m] x = x := by
    rw [Function.iterate_add_apply, hxy, hcon]
  have hx' : x ∈ (skel t).map (·.1) := by rwa [← idsOf_skel]
  exact no_cycle h hx' (k + m) (by omega) this

lemma setParent_succeeds {t : UTree} {c p : Nat} (h : Wf t) (hc : c ∈ idsOf t)
    (hp : p = 0 ∨ p ∈ idsOf t) (havoid : ∀ k, (parentOf t)^[k] p ≠ c) :
    setParent t c p = some (updParent t c p) := by
  unfold setParent
  rw [if_pos ⟨hc, hp⟩]
  rw [if_pos ?_]
  apply (cycleCheckS_iff (t.nodes.length + 1) p).2
  rcases hp with hp | hp
  · exact ⟨0, by omega, by simpa using hp, by omega⟩
  · obtain ⟨m, hm, hm0⟩ := climb_exists_utree h hp
    exact ⟨m, by omega, hm0, fun j _ => havoid j⟩

lemma idsOf_updParent (t : UTree) (c p : Nat) : idsOf (updParent t c p) = idsOf t := by
  rw [idsOf_skel, idsOf_skel, skel_updParent, skelUpd_ids]

lemma parentOf_updParent {t : UTree} (h : Wf t) {c : Nat} (hc : c ∈ idsOf t)
    (p i : Nat) : parentOf (updParent t c p) i = if i = c then p else parentOf t i := by
  unfold parentOf
  rw [skel_updParent]
  rw [idsOf_skel] at hc
  exact pfunS_skelUpd h.1 p hc i

lemma iterate_updParent_avoid {t : UTree} (h : Wf t) {c : Nat} (hc : c ∈ idsOf t)
    (p : Nat) {x : Nat} (havoid : ∀ k, (parentOf t)^[k] x ≠ c) :
    ∀ k, (parentOf (updParent t c p))^[k] x = (parentOf t)^[k] x := by
  intro k
  have hg : ∀ y, y ≠ c → parentOf (updParent t c p) y = parentOf t y := by
    intro y hy
    rw [parentOf_updParent h hc p y, if_neg hy]
  exact iterate_agree hg (fun i _ => havoid i) k (le_refl k)

lemma getNode?_map_nodes {g : UNode → UNode} (hg : ∀ n, (g n).id = n.id)
    (t : UTree) (i : Nat) :
    getNode? { t with nodes := t.nodes.map g } i = (getNode? t i).map g := by
  unfold getNode?
  simp only
  induction t.nodes with
  | nil => rfl
  | cons n l ih =>
    simp only [List.map_cons, List.find?_cons]
    by_cases hni : n.id = i
    · rw [hg n]
      simp [hni]
    · have h1 : ((g n).id == i) = false := by
        rw [hg n]
        simpa using hni
      have h2 : (n.id == i) = false := by simpa using hni
      rw [h1, h2]
      exact ih

lemma deprelOf_updParent (t : UTree) (c p i : Nat) :
    deprelOf (updParent t c p) i = deprelOf t i := by
  unfold deprelOf updParent
  rw [getNode?_map_nodes (fun n => by by_cases hn : n.id = c <;> simp [hn]) t i]
  cases getNode? t i with
  | none => rfl
  | some n =>
    by_cases hn : n.id = c <;> simp [hn]

lemma findIdx?_map_id {g : UNode → UNode} (hg : ∀ n, (g n).id = n.id) (i : Nat) :
    ∀ (l : List UNode) (s : Nat), List.findIdx? (fun n => n.id == i) (l.map g) s =
      List.findIdx? (fun n => n.id == i) l s := by
  intro l
  induction l with
  | nil => intro s; rfl
  | cons n l ih =>
    intro s
    cases hni : (n.id == i) <;> simp [List.findIdx?_cons, hg n, hni, ih]

lemma ordN_map_nodes {g : UNode → UNode} (hg : ∀ n, (g n).id = n.id)
    (t : UTree) (i : Nat) : ordN { t with nodes := t.nodes.map g } i = ordN t i := by
  unfold ordN
  simp only
  rw [findIdx?_map_id hg i t.nodes 0]

end Tb2ud

namespace Tb2ud

lemma mem_children {t : UTree} {h : Nat} {n : UNode} :
    n ∈ children t h ↔ n ∈ t.nodes ∧ n.parent = h := by
  unfold children
  rw [List.mem_filter]
  simp

lemma deprelOf_map_nodes {g : UNode → UNode} (hgid : ∀ n, (g n).id = n.id)
    (hgd : ∀ n, (g n).deprel = n.deprel) (t : UTree) (i : Nat) :
    deprelOf { t with nodes := t.nodes.map g } i = deprelOf t i := by
  unfold deprelOf
  rw [getNode?_map_nodes hgid t i]
  cases getNode? t i with
  | none => rfl
  | some n => simp [hgd n]

lemma deprelOf_setDeprel_self {t : UTree} (h : Wf t) {i : Nat} (hi : i ∈ idsOf t)
    (d : String) : deprelOf (setDeprel t i d) i = d := by
  unfold setDeprel mapNode deprelOf
  rw [getNode?_map_nodes (fun n => by by_cases hn : n.id = i <;> simp [hn]) t i]
  obtain ⟨n, hn, hni⟩ := List.mem_map.1 (by rwa [idsOf] at hi)
  have hsome : (getNode? t i).isSome := by
    unfold getNode?
    rw [List.find?_isSome]
    exact ⟨n, hn, by simp [hni]⟩
  obtain ⟨m, hm⟩ := Option.isSome_iff_exists.1 hsome
  have hmi : m.id = i := by simpa using List.find?_some hm
  rw [hm]
  simp [hmi]

lemma deprelOf_setDeprel_ne (t : UTree) {i j : Nat} (hne : j ≠ i) (d : String) :
    deprelOf (setDeprel t i d) j = deprelOf t j := by
  unfold setDeprel mapNode deprelOf
  rw [getNode?_map_nodes (fun n => by by_cases hn : n.id = i <;> simp [hn]) t j]
  cases hg : getNode? t j with
  | none => rfl
  | some n =>
    have hni : n.id = j := by simpa using List.find?_some hg
    simp [hni, hne]

lemma parentOf_setDeprel (t : UTree) (i : Nat) (d : String) (j : Nat) :
    parentOf (setDeprel t i d) j = parentOf t j := by
  unfold parentOf
  rw [skel_setDeprel]

lemma idsOf_setDeprel (t : UTree) (i : Nat) (d : String) :
    idsOf (setDeprel t i d) = idsOf t := by
  rw [idsOf_skel, idsOf_skel, skel_setDeprel]

/-- The reparenting loop of `redraw_subtree`: every non-`goeswith` element
of `l` ends up a child of `nh`; nothing else moves; labels, ids and the
parent chain of `nh` are untouched. -/
lemma fold_redraw_loop {nh : Nat} :
    ∀ (l : List UNode) (t0 : UTree), Wf t0 →
    nh ∈ idsOf t0 →
    (∀ c ∈ l, c.id ∈ idsOf t0) →
    (∀ c ∈ l, c.id ≠ nh) →
    (∀ c ∈ l, ∀ k, (parentOf t0)^[k] nh ≠ c.id) →
    ∃ t1, l.foldlM (fun acc c =>
        if udeprelOf c.deprel ≠ "goeswith" then setParent acc c.id nh else pure acc) t0
        = some t1 ∧
      Wf t1 ∧ idsOf t1 = idsOf t0 ∧
      (∀ i, deprelOf t1 i = deprelOf t0 i) ∧
      (∀ k, (parentOf t1)^[k] nh = (parentOf t0)^[k] nh) ∧
      (∀ c ∈ l, udeprelOf c.deprel ≠ "goeswith" → parentOf t1 c.id = nh) ∧
      (∀ x, (∀ c ∈ l, udeprelOf c.deprel ≠ "goeswith" → c.id ≠ x) →
        parentOf t1 x = parentOf t0 x) := by
  intro l
  induction l with
  | nil =>
    intro t0 hw _ _ _ _
    refine ⟨t0, rfl, hw, rfl, fun _ => rfl, fun _ => rfl, by simp, fun _ _ => rfl⟩
  | cons c l ih =>
    intro t0 hw hnh hcid hcnh havoid
    by_cases hgw : udeprelOf c.deprel ≠ "goeswith"
    · have hstep : setParent t0 c.id nh = some (updParent t0 c.id nh) :=
        setParent_succeeds hw (hcid c (List.mem_cons_self c l)) (Or.inr hnh)
          (havoid c (List.mem_cons_self c l))
      set t0' := updParent t0 c.id nh with ht0'
      have hw' : Wf t0' := Wf_setParent hw hstep
      have hids' : idsOf t0' = idsOf t0 := idsOf_updParent t0 c.id nh
      have hchain' : ∀ k, (parentOf t0')^[k] nh = (parentOf t0)^[k] nh :=
        iterate_updParent_avoid hw (hcid c (List.mem_cons_self c l)) nh
          (havoid c (List.mem_cons_self c l))
      have hpar' : ∀ i, parentOf t0' i = if i = c.id then nh else parentOf t0 i :=
        parentOf_updParent hw (hcid c (List.mem_cons_self c l)) nh
      obtain ⟨t1, hfold, hw1, hids1, hdep1, hchain1, hset1, hkeep1⟩ :=
        ih t0' hw' (by rwa [hids']) (fun c' hc' => by
            rw [hids']; exact hcid c' (List.mem_cons_of_mem c hc'))
          (fun c' hc' => hcnh c' (List.mem_cons_of_mem c hc'))
          (fun c' hc' k => by
            rw [hchain' k]
            exact havoid c' (List.mem_cons_of_mem c hc') k)
      refine ⟨t1, ?_, hw1, by rw [hids1, hids'], ?_, ?_, ?_, ?_⟩
      · simp only [List.foldlM_cons]
        rw [if_pos hgw, hstep]
        exact hfold
      · intro i
        rw [hdep1 i, deprelOf_updParent]
      · intro k
        rw [hchain1 k, hchain' k]
      · intro c' hc' hgw'
        rcases List.mem_cons.1 hc' with hc' | hc'
        · rw [hc']
          by_cases hlater : ∀ c'' ∈ l, udeprelOf c''.deprel ≠ "goeswith" → c''.id ≠ c.id
          · rw [hkeep1 c.id hlater, hpar' c.id, if_pos rfl]
          · push_neg at hlater
            obtain ⟨c'', hc'', hgw'', hid''⟩ := hlater
            rw [← hid'']
            exact hset1 c'' hc'' hgw''
        · exact hset1 c' hc' hgw'
      · intro x hx
        have hxc : c.id ≠ x := hx c (List.mem_cons_self c l) hgw
        rw [hkeep1 x (fun c'' hc'' hgw'' => hx c'' (List.mem_cons_of_mem c hc'') hgw''),
            hpar' x, if_neg (fun hcon => hxc (hcon.symm))]
    · obtain ⟨t1, hfold, hw1, hids1, hdep1, hchain1, hset1, hkeep1⟩ :=
        ih t0 hw hnh (fun c' hc' => hcid c' (List.mem_cons_of_mem c hc'))
          (fun c' hc' => hcnh c' (List.mem_cons_of_mem c hc'))
          (fun c' hc' => havoid c' (List.mem_cons_of_mem c hc'))
      refine ⟨t1, ?_, hw1, hids1, hdep1, hchain1, ?_, ?_⟩
      · simp only [List.foldlM_cons]
        rw [if_neg hgw]
        exact hfold
      · intro c' hc' hgw'
        rcases List.mem_cons.1 hc' with hc' | hc'
        · exact absurd hgw' (by rw [hc']; exact hgw)
        · exact hset1 c' hc' hgw'
      · intro x hx
        exact hkeep1 x (fun c'' hc'' hgw'' => hx c'' (List.mem_cons_of_mem c hc'') hgw'')

end Tb2ud

namespace Tb2ud

lemma nodes_id_inj {t : UTree} (h : Wf t) {m n : UNode} (hm : m ∈ t.nodes)
    (hn : n ∈ t.nodes) (hid : m.id = n.id) : m = n := by
  have hnd : (List.map (fun n => n.id) t.nodes).Nodup := by
    have h1 := h.1
    rw [← idsOf_skel t] at h1
    exact h1
  exact List.inj_on_of_nodup_map hnd hm hn hid

lemma getNode?_eq_of_mem {t : UTree} (h : Wf t) {n : UNode} (hn : n ∈ t.nodes) :
    getNode? t n.id = some n := by
  have hsome : (getNode? t n.id).isSome := by
    unfold getNode?
    rw [List.find?_isSome]
    exact ⟨n, hn, by simp⟩
  obtain ⟨m, hm⟩ := Option.isSome_iff_exists.1 hsome
  have hmm : m ∈ t.nodes := List.mem_of_find?_eq_some hm
  have hmi : m.id = n.id := by simpa using List.find?_some hm
  rw [hm, nodes_id_inj h hmm hn hmi]

lemma deprelOf_of_mem {t : UTree} (h : Wf t) {n : UNode} (hn : n ∈ t.nodes) :
    deprelOf t n.id = n.deprel := by
  unfold deprelOf
  rw [getNode?_eq_of_mem h hn]
  rfl

lemma exists_node_of_id {t : UTree} {i : Nat} (hi : i ∈ idsOf t) :
    ∃ n, n ∈ t.nodes ∧ n.id = i := List.mem_map.1 hi

lemma idsOf_of_skel_eq {t t' : UTree} (h : skel t' = skel t) : idsOf t' = idsOf t := by
  rw [idsOf_skel, idsOf_skel, h]

lemma parentOf_of_skel_eq {t t' : UTree} (h : skel t' = skel t) (i : Nat) :
    parentOf t' i = parentOf t i := by
  unfold parentOf
  rw [h]

lemma deprelOf_mapNode_apos (t : UTree) (i : Nat) (b : Bool) (j : Nat) :
    deprelOf (mapNode t i (fun n => { n with aposMember := b })) j = deprelOf t j := by
  unfold mapNode
  exact deprelOf_map_nodes
    (fun n => by by_cases hn : n.id = i <;> simp [hn])
    (fun n => by by_cases hn : n.id = i <;> simp [hn]) t j

lemma deprelOf_mapNode_coord (t : UTree) (i : Nat) (b : Bool) (j : Nat) :
    deprelOf (mapNode t i (fun n => { n with coordMember := b })) j = deprelOf t j := by
  unfold mapNode
  exact deprelOf_map_nodes
    (fun n => by by_cases hn : n.id = i <;> simp [hn])
    (fun n => by by_cases hn : n.id = i <;> simp [hn]) t j

/-- The final reparenting phase of `redraw_subtree`, characterised for any
intermediate tree `t3` whose parent relation is that of `t` with `nh`
re-hung onto `ch`'s parent and `ch` re-hung onto `nh`. -/
lemma redraw_phase2 {t t3 : UTree} {nh ch : Nat} (h : Wf t) (hw3 : Wf t3)
    (hnh : nh ∈ idsOf t) (hch : ch ∈ idsOf t) (hne : nh ≠ ch)
    (hids3 : idsOf t3 = idsOf t)
    (hdep3 : ∀ i, deprelOf t3 i = deprelOf t i)
    (hpar3 : ∀ i, parentOf t3 i =
      if i = ch then nh else if i = nh then parentOf t ch else parentOf t i)
    (hav_nh : ∀ j, (parentOf t)^[j] (parentOf t ch) ≠ nh) :
    ∃ t', (children t3 ch).foldlM (fun acc c =>
        if udeprelOf c.deprel ≠ "goeswith" then setParent acc c.id nh else pure acc) t3
        = some t' ∧
      Wf t' ∧ idsOf t' = idsOf t ∧
      (∀ i, deprelOf t' i = deprelOf t i) ∧
      parentOf t' nh = parentOf t ch ∧ parentOf t' ch = nh ∧
      (∀ c ∈ children t ch, c.id ≠ nh →
        parentOf t' c.id = if udeprelOf c.deprel = "goeswith" then ch else nh) ∧
      (∀ x, x ≠ nh → x ≠ ch → (∀ c ∈ children t ch, c.id ≠ x) →
        parentOf t' x = parentOf t x) ∧
      (∀ k, (parentOf t')^[k] (parentOf t ch) = (parentOf t)^[k] (parentOf t ch)) := by
  classical
  have hav_ch : ∀ j, (parentOf t)^[j] (parentOf t ch) ≠ ch :=
    avoid_of_strict_anc h hch le_rfl (by rw [Function.iterate_one])
  have hcorr : ∀ c' ∈ children t3 ch, ∃ c, c ∈ children t ch ∧
      c.id = c'.id ∧ c.deprel = c'.deprel ∧ c'.id ≠ nh ∧ c'.id ≠ ch := by
    intro c' hc'
    obtain ⟨hc'mem, hc'par⟩ := mem_children.1 hc'
    have hcid3 : c'.id ∈ idsOf t := by rw [← hids3]; exact idsOf_mem_of_node hc'mem
    have hp3 : parentOf t3 c'.id = ch := by
      rw [parentOf_of_mem hw3 hc'mem]; exact hc'par
    rw [hpar3 c'.id] at hp3
    by_cases h1 : c'.id = ch
    · rw [if_pos h1] at hp3
      exact absurd hp3 hne
    rw [if_neg h1] at hp3
    by_cases h2 : c'.id = nh
    · rw [if_pos h2] at hp3
      exact absurd hp3 (parentOf_ne_self h hch)
    rw [if_neg h2] at hp3
    obtain ⟨c, hcmem, hcid⟩ := exists_node_of_id hcid3
    have hcpar : c.parent = ch := by
      rw [← parentOf_of_mem h hcmem, hcid]
      exact hp3
    refine ⟨c, mem_children.2 ⟨hcmem, hcpar⟩, hcid, ?_, h2, h1⟩
    have hd := hdep3 c'.id
    rw [deprelOf_of_mem hw3 hc'mem] at hd
    rw [← hcid, deprelOf_of_mem h hcmem] at hd
    exact hd.symm
  have hfwd : ∀ c ∈ children t ch, c.id ≠ nh → ∃ c', c' ∈ children t3 ch ∧
      c'.id = c.id ∧ c'.deprel = c.deprel := by
    intro c hc hcnh
    obtain ⟨hcmem, hcpar⟩ := mem_children.1 hc
    have hpc : parentOf t c.id = ch := by rw [parentOf_of_mem h hcmem]; exact hcpar
    have hcch : c.id ≠ ch := by
      intro hcon
      rw [hcon] at hpc
      exact parentOf_ne_self h hch hpc
    have hcid : c.id ∈ idsOf t3 := by rw [hids3]; exact idsOf_mem_of_node hcmem
    obtain ⟨c', hc'mem, hc'id⟩ := exists_node_of_id hcid
    have hc'par : c'.parent = ch := by
      have hq := parentOf_of_mem hw3 hc'mem
      rw [hc'id, hpar3 c.id, if_neg hcch, if_neg hcnh, hpc] at hq
      exact hq.symm
    have hc'dep : c'.deprel = c.deprel := by
      have hd := hdep3 c'.id
      rw [deprelOf_of_mem hw3 hc'mem, hc'id, deprelOf_of_mem h hcmem] at hd
      exact hd
    exact ⟨c', mem_children.2 ⟨hc'mem, hc'par⟩, hc'id, hc'dep⟩
  have hchain3 : ∀ j, (parentOf t3)^[j] (parentOf t ch)
      = (parentOf t)^[j] (parentOf t ch) := by
    intro j
    induction j with
    | zero => rfl
    | succ j ih =>
      rw [Function.iterate_succ_apply', Function.iterate_succ_apply', ih,
          hpar3 ((parentOf t)^[j] (parentOf t ch)), if_neg (hav_ch j), if_neg (hav_nh j)]
  have hnh3 : nh ∈ idsOf t3 := by rw [hids3]; exact hnh
  have hlids : ∀ c' ∈ children t3 ch, c'.id ∈ idsOf t3 :=
    fun c' hc' => idsOf_mem_of_node (mem_children.1 hc').1
  have hlnh : ∀ c' ∈ children t3 ch, c'.id ≠ nh := by
    intro c' hc'
    obtain ⟨c, hc, hid, hdep, hx, _⟩ := hcorr c' hc'
    exact hx
  have hlavoid : ∀ c' ∈ children t3 ch, ∀ k, (parentOf t3)^[k] nh ≠ c'.id := by
    intro c' hc' k
    obtain ⟨c, hc, hid, _, hnh', _⟩ := hcorr c' hc'
    cases k with
    | zero =>
      simp only [Function.iterate_zero, id_eq]
      exact fun hcon => hnh' hcon.symm
    | succ j =>
      rw [Function.iterate_succ_apply, hpar3 nh, if_neg hne, if_pos rfl, hchain3 j]
      obtain ⟨hcmem, hcpar⟩ := mem_children.1 hc
      have hpc : parentOf t c.id = ch := by rw [parentOf_of_mem h hcmem]; exact hcpar
      have hanc : (parentOf t)^[1+1] c.id = parentOf t ch := by
        rw [Function.iterate_succ_apply', Function.iterate_one, hpc]
      rw [← hid]
      exact avoid_of_strict_anc h (idsOf_mem_of_node hcmem) (by omega) hanc j
  obtain ⟨t', hfold, hw', hids', hdep', hchain', hset', hkeep'⟩ :=
    fold_redraw_loop (children t3 ch) t3 hw3 hnh3 hlids hlnh hlavoid
  have hpnh : parentOf t' nh = parentOf t ch := by
    have hc1 := hchain' 1
    rw [Function.iterate_one, Function.iterate_one] at hc1
    rw [hc1, hpar3 nh, if_neg hne, if_pos rfl]
  refine ⟨t', hfold, hw', by rw [hids', hids3], ?_, hpnh, ?_, ?_, ?_, ?_⟩
  · intro i
    rw [hdep' i, hdep3 i]
  · have hkch : ∀ c' ∈ children t3 ch, udeprelOf c'.deprel ≠ "goeswith" → c'.id ≠ ch := by
      intro c' hc' _
      obtain ⟨c, hc, hid, hdep, hnh', hch'⟩ := hcorr c' hc'
      exact hch'
    rw [hkeep' ch hkch, hpar3 ch, if_pos rfl]
  · intro c hc hcnh
    obtain ⟨hcmem, hcpar⟩ := mem_children.1 hc
    have hpc : parentOf t c.id = ch := by rw [parentOf_of_mem h hcmem]; exact hcpar
    have hcch : c.id ≠ ch := by
      intro hcon
      rw [hcon] at hpc
      exact parentOf_ne_self h hch hpc
    by_cases hgw : udeprelOf c.deprel = "goeswith"
    · rw [if_pos hgw]
      have hkc : ∀ c'' ∈ children t3 ch,
          udeprelOf c''.deprel ≠ "goeswith" → c''.id ≠ c.id := by
        intro c'' hc'' hgw'' hcon
        obtain ⟨d, hd, hdid, hddep, _, _⟩ := hcorr c'' hc''
        obtain ⟨hdmem, _⟩ := mem_children.1 hd
        have hdc : d = c := nodes_id_inj h hdmem hcmem (by rw [hdid, hcon])
        apply hgw''
        rw [← hddep, hdc]
        exact hgw
      rw [hkeep' c.id hkc, hpar3 c.id, if_neg hcch, if_neg hcnh, hpc]
    · rw [if_neg hgw]
      obtain ⟨c', hc', hc'id, hc'dep⟩ := hfwd c hc hcnh
      have hs := hset' c' hc' (by rw [hc'dep]; exact hgw)
      rw [← hc'id]
      exact hs
  · intro x hxnh hxch hxc
    have hk : ∀ c'' ∈ children t3 ch, udeprelOf c''.deprel ≠ "goeswith" → c''.id ≠ x := by
      intro c'' hc'' _
      obtain ⟨d, hd, hdid, _, _, _⟩ := hcorr c'' hc''
      rw [← hdid]
      exact hxc d hd
    rw [hkeep' x hk, hpar3 x, if_neg hxch, if_neg hxnh]
  · intro k
    have e0 := hchain' (k+1)
    rw [Function.iterate_succ_apply, Function.iterate_succ_apply] at e0
    rw [hpnh] at e0
    have e2 : parentOf t3 nh = parentOf t ch := by
      rw [hpar3 nh, if_neg hne, if_pos rfl]
    rw [e2] at e0
    rw [e0, hchain3 k]

end Tb2ud

namespace Tb2ud

/-- Wrapper for `redraw_phase2` when `t3` differs from the two-update tree
`t2` only by misc-flag edits (same skeleton, same labels). -/
lemma redraw_phase2_of_t2 {t t2 t3 : UTree} {nh ch : Nat} (h : Wf t)
    (hnh : nh ∈ idsOf t) (hch : ch ∈ idsOf t) (hne : nh ≠ ch)
    (hw2 : Wf t2) (hids2 : idsOf t2 = idsOf t)
    (hdep2 : ∀ i, deprelOf t2 i = deprelOf t i)
    (hpar2 : ∀ i, parentOf t2 i =
      if i = ch then nh else if i = nh then parentOf t ch else parentOf t i)
    (hav_nh : ∀ j, (parentOf t)^[j] (parentOf t ch) ≠ nh)
    (hsk : skel t3 = skel t2) (hdep32 : ∀ i, deprelOf t3 i = deprelOf t2 i) :
    ∃ t', (children t3 ch).foldlM (fun acc c =>
        if udeprelOf c.deprel ≠ "goeswith" then setParent acc c.id nh else pure acc) t3
        = some t' ∧
      Wf t' ∧ idsOf t' = idsOf t ∧
      (∀ i, deprelOf t' i = deprelOf t i) ∧
      parentOf t' nh = parentOf t ch ∧ parentOf t' ch = nh ∧
      (∀ c ∈ children t ch, c.id ≠ nh →
        parentOf t' c.id = if udeprelOf c.deprel = "goeswith" then ch else nh) ∧
      (∀ x, x ≠ nh → x ≠ ch → (∀ c ∈ children t ch, c.id ≠ x) →
        parentOf t' x = parentOf t x) ∧
      (∀ k, (parentOf t')^[k] (parentOf t ch) = (parentOf t)^[k] (parentOf t ch)) :=
  redraw_phase2 h (Wf_of_skel_eq hsk hw2) hnh hch hne
    (by rw [idsOf_of_skel_eq hsk, hids2])
    (fun i => by rw [hdep32 i, hdep2 i])
    (fun i => by rw [parentOf_of_skel_eq hsk i, hpar2 i])
    hav_nh

/-- `SubTreeConverter.redraw_subtree(new_head, current_head)` fully
characterised when `new_head` is currently a child of `current_head`: it
succeeds, `new_head` takes over `current_head`'s parent, `current_head`
hangs under `new_head`, the other children of `current_head` move under
`new_head` except `goeswith` ones (which stay under `current_head`), every
other node and every relation label is untouched. -/
lemma redraw_spec {t : UTree} {nh ch : Nat} (h : Wf t)
    (hnh : nh ∈ idsOf t) (hch : ch ∈ idsOf t) (hne : nh ≠ ch)
    (hpar : parentOf t nh = ch) :
    ∃ t', redraw_subtree t nh ch = some t' ∧ Wf t' ∧ idsOf t' = idsOf t ∧
      (∀ i, deprelOf t' i = deprelOf t i) ∧
      parentOf t' nh = parentOf t ch ∧ parentOf t' ch = nh ∧
      (∀ c ∈ children t ch, c.id ≠ nh →
        parentOf t' c.id = if udeprelOf c.deprel = "goeswith" then ch else nh) ∧
      (∀ x, x ≠ nh → x ≠ ch → (∀ c ∈ children t ch, c.id ≠ x) →
        parentOf t' x = parentOf t x) ∧
      (∀ k, (parentOf t')^[k] (parentOf t ch) = (parentOf t)^[k] (parentOf t ch)) := by
  classical
  have hanc2 : (parentOf t)^[1+1] nh = parentOf t ch := by
    rw [Function.iterate_succ_apply', Function.iterate_one, hpar]
  have hav_nh : ∀ j, (parentOf t)^[j] (parentOf t ch) ≠ nh :=
    avoid_of_strict_anc h hnh (by omega) hanc2
  have hav_ch : ∀ j, (parentOf t)^[j] (parentOf t ch) ≠ ch :=
    avoid_of_strict_anc h hch le_rfl (by rw [Function.iterate_one])
  have hs1 : setParent t nh (parentOf t ch) = some (updParent t nh (parentOf t ch)) :=
    setParent_succeeds h hnh (parent_liveOr0 h hch) hav_nh
  set t1 := updParent t nh (parentOf t ch) with ht1
  have hw1 : Wf t1 := Wf_setParent h hs1
  have hids1 : idsOf t1 = idsOf t := by rw [ht1, idsOf_updParent]
  have hpar1 : ∀ i, parentOf t1 i = if i = nh then parentOf t ch else parentOf t i := by
    intro i
    rw [ht1]
    exact parentOf_updParent h hnh (parentOf t ch) i
  have hchain1 : ∀ k, (parentOf t1)^[k] (parentOf t ch)
      = (parentOf t)^[k] (parentOf t ch) := by
    intro k
    rw [ht1]
    exact iterate_updParent_avoid h hnh (parentOf t ch) hav_nh k
  have hav2 : ∀ k, (parentOf t1)^[k] nh ≠ ch := by
    intro k
    cases k with
    | zero =>
      simp only [Function.iterate_zero, id_eq]
      exact hne
    | succ j =>
      rw [Function.iterate_succ_apply, hpar1 nh, if_pos rfl, hchain1 j]
      exact hav_ch j
  have hs2 : setParent t1 ch nh = some (updParent t1 ch nh) :=
    setParent_succeeds hw1 (by rw [hids1]; exact hch)
      (Or.inr (by rw [hids1]; exact hnh)) hav2
  set t2 := updParent t1 ch nh with ht2
  have hw2 : Wf t2 := Wf_setParent hw1 hs2
  have hids2 : idsOf t2 = idsOf t := by rw [ht2, idsOf_updParent, hids1]
  have hpar2 : ∀ i, parentOf t2 i =
      if i = ch then nh else if i = nh then parentOf t ch else parentOf t i := by
    intro i
    rw [ht2, parentOf_updParent hw1 (by rw [hids1]; exact hch) nh i]
    by_cases hic : i = ch
    · rw [if_pos hic, if_pos hic]
    · rw [if_neg hic, if_neg hic, hpar1 i]
  have hdep2 : ∀ i, deprelOf t2 i = deprelOf t i := by
    intro i
    rw [ht2, deprelOf_updParent, ht1, deprelOf_updParent]
  unfold redraw_subtree
  dsimp only
  rw [hs1]
  simp only [Option.bind_eq_bind, Option.some_bind]
  rw [hs2]
  simp only [Option.bind_eq_bind, Option.some_bind]
  cases hold : getNode? t2 ch with
  | none =>
    exact redraw_phase2_of_t2 h hnh hch hne hw2 hids2 hdep2 hpar2 hav_nh rfl (fun _ => rfl)
  | some old =>
    dsimp only
    by_cases hC : old.coordMember = true
    · rw [if_pos hC]
      by_cases hA : old.aposMember = true
      · rw [if_pos hA]
        exact redraw_phase2_of_t2 h hnh hch hne hw2 hids2 hdep2 hpar2 hav_nh
          (by rw [skel_mapNode_coord, skel_mapNode_apos])
          (fun i => by rw [deprelOf_mapNode_coord, deprelOf_mapNode_apos])
      · rw [if_neg hA]
        exact redraw_phase2_of_t2 h hnh hch hne hw2 hids2 hdep2 hpar2 hav_nh
          (by rw [skel_mapNode_coord])
          (fun i => by rw [deprelOf_mapNode_coord])
    · rw [if_neg hC]
      by_cases hA : old.aposMember = true
      · rw [if_pos hA]
        exact redraw_phase2_of_t2 h hnh hch hne hw2 hids2 hdep2 hpar2 hav_nh
          (by rw [skel_mapNode_apos])
          (fun i => by rw [deprelOf_mapNode_apos])
      · rw [if_neg hA]
        exact redraw_phase2_of_t2 h hnh hch hne hw2 hids2 hdep2 hpar2 hav_nh rfl
          (fun _ => rfl)

end Tb2ud

namespace Tb2ud

/-- C4 (amended): `redraw_subtree(new_head, current_head)` with `new_head`
a child of `current_head` re-hangs `new_head` onto `current_head`'s former
parent, hangs `current_head` under `new_head`, moves the remaining
children of `current_head` under `new_head` except `goeswith` children,
which stay attached to `current_head`; every relation label — including
`new_head`'s — is left unchanged (the primitive transfers no label), and
no other node moves. -/
theorem c4_promote_amended {t : UTree} {nh ch : Nat} (h : Wf t)
    (hnh : nh ∈ idsOf t) (hch : ch ∈ idsOf t) (hne : nh ≠ ch)
    (hpar : parentOf t nh = ch) :
    ∃ t', redraw_subtree t nh ch = some t' ∧
      parentOf t' nh = parentOf t ch ∧
      parentOf t' ch = nh ∧
      (∀ c ∈ children t ch, c.id ≠ nh →
        parentOf t' c.id = if udeprelOf c.deprel = "goeswith" then ch else nh) ∧
      (∀ i, deprelOf t' i = deprelOf t i) ∧
      (∀ x, x ≠ nh → x ≠ ch → (∀ c ∈ children t ch, c.id ≠ x) →
        parentOf t' x = parentOf t x) := by
  obtain ⟨t', hred, hwf, hids, hdep, hp1, hp2, hc, hx, hchain⟩ := redraw_spec h hnh hch hne hpar
  exact ⟨t', hred, hp1, hp2, hc, hdep, hx⟩

theorem c4_promote_amended_witness :
    Wf exTreeC4b ∧ 2 ∈ idsOf exTreeC4b ∧ 1 ∈ idsOf exTreeC4b ∧ (2 : Nat) ≠ 1 ∧
    parentOf exTreeC4b 2 = 1 ∧
    (∃ t', redraw_subtree exTreeC4b 2 1 = some t' ∧
      parentOf t' 2 = parentOf exTreeC4b 1 ∧
      parentOf t' 1 = 2 ∧
      (∀ c ∈ children exTreeC4b 1, c.id ≠ 2 →
        parentOf t' c.id = if udeprelOf c.deprel = "goeswith" then 1 else 2) ∧
      (∀ i, deprelOf t' i = deprelOf exTreeC4b i) ∧
      (∀ x, x ≠ 2 → x ≠ 1 → (∀ c ∈ children exTreeC4b 1, c.id ≠ x) →
        parentOf t' x = parentOf exTreeC4b x)) :=
  ⟨by decide, by decide, by decide, by decide, by decide,
    c4_promote_amended (by decide) (by decide) (by decide) (by decide) (by decide)⟩

/-- C9 (amended): when the resolver's per-node copy-and-delete step
succeeds on an artificial node, every current child of that node — the
`goeswith` ones included, since `remove(children='rehang')` makes no
exception — is rehung onto the node's parent; the node disappears, all
other nodes survive, and no node outside the subtree moves. -/
theorem c9_rehang_amended {fuel : Nat} {t : UTree} {art : Nat} (h : Wf t)
    (hart : art ∈ idsOf t) (hsucc : (copyOneArt fuel t art).isSome = true) :
    ∃ t', copyOneArt fuel t art = some t' ∧
      (∀ c ∈ children t art, parentOf t' c.id = parentOf t art) ∧
      art ∉ idsOf t' ∧
      (∀ x ∈ idsOf t, x ≠ art → x ∈ idsOf t') ∧
      (∀ x, x ≠ art → parentOf t x ≠ art → parentOf t' x = parentOf t x) := by
  obtain ⟨t', ht'⟩ := Option.isSome_iff_exists.1 hsucc
  have hcopy := ht'
  unfold copyOneArt at hcopy
  have hsk : skel t' = skelRemoveRehang (skel t) art := by
    cases hfi : t.nodes.findIdx? (fun n => n.id == art) with
    | none =>
      exfalso
      rw [List.findIdx?_eq_none_iff] at hfi
      obtain ⟨n, hn, hni⟩ := exists_node_of_id hart
      have hf := hfi n hn
      rw [hni] at hf
      simp at hf
    | some idx =>
      rw [hfi] at hcopy
      dsimp only at hcopy
      obtain ⟨hlt, hp, hmin⟩ := List.findIdx?_eq_some_iff_getElem.1 hfi
      rw [List.getElem?_eq_getElem hlt] at hcopy
      dsimp only at hcopy
      simp only [Option.bind_eq_bind] at hcopy
      obtain ⟨v, hv, hcopy⟩ := Option.bind_eq_some.1 hcopy
      have ht'' := Option.some.inj hcopy
      rw [← ht'', skel_removeRehang]
      rfl
  refine ⟨t', ht', ?_, ?_, ?_, ?_⟩
  · intro c hc
    obtain ⟨hcm, hcp⟩ := mem_children.1 hc
    have hpc : parentOf t c.id = art := by rw [parentOf_of_mem h hcm]; exact hcp
    have hca : c.id ≠ art := by
      intro hcon
      rw [hcon] at hpc
      exact parentOf_ne_self h hart hpc
    have hj : c.id ∈ (skel t).map (·.1) := by
      rw [← idsOf_skel]
      exact idsOf_mem_of_node hcm
    have hpc' : pfunS (skel t) c.id = art := hpc
    unfold parentOf
    rw [hsk, pfunS_skelRemoveRehang h.1 art hca hj, if_pos hpc']
  · rw [idsOf_skel, hsk, skelRemoveRehang_ids]
    intro hcon
    have hg := (List.mem_filter.1 hcon).2
    simp at hg
  · intro x hx hxa
    rw [idsOf_skel, hsk, skelRemoveRehang_ids]
    apply List.mem_filter.2
    refine ⟨by rw [← idsOf_skel]; exact hx, by simp [hxa]⟩
  · intro x hxa hpx
    by_cases hx : x ∈ idsOf t
    · have hpx' : ¬(pfunS (skel t) x = art) := hpx
      unfold parentOf
      rw [hsk, pfunS_skelRemoveRehang h.1 art hxa (by rw [← idsOf_skel]; exact hx),
        if_neg hpx']
    · have h1 : parentOf t x = 0 := pfunS_not_mem (by rw [← idsOf_skel]; exact hx)
      have h2 : x ∉ (skel t').map (·.1) := by
        rw [hsk, skelRemoveRehang_ids]
        intro hcon
        exact hx (by rw [idsOf_skel]; exact (List.mem_filter.1 hcon).1)
      have h3 : parentOf t' x = 0 := pfunS_not_mem h2
      rw [h3, h1]

theorem c9_rehang_amended_witness :
    Wf exTreeC9 ∧ 1 ∈ idsOf exTreeC9 ∧ ((copyOneArt 12 exTreeC9 1).isSome = true) ∧
    (∃ t', copyOneArt 12 exTreeC9 1 = some t' ∧
      (∀ c ∈ children exTreeC9 1, parentOf t' c.id = parentOf exTreeC9 1) ∧
      1 ∉ idsOf t' ∧
      (∀ x ∈ idsOf exTreeC9, x ≠ 1 → x ∈ idsOf t') ∧
      (∀ x, x ≠ 1 → parentOf exTreeC9 x ≠ 1 → parentOf t' x = parentOf exTreeC9 x)) :=
  ⟨by decide, by decide, by decide,
    c9_rehang_amended (by decide) (by decide) (by decide)⟩

end Tb2ud

namespace Tb2ud

lemma setParent_some {t t' : UTree} {c p : Nat} (hs : setParent t c p = some t') :
    t' = updParent t c p := by
  unfold setParent at hs
  by_cases hg : (c ∈ idsOf t) ∧ (p = 0 ∨ p ∈ idsOf t)
  · rw [if_pos hg] at hs
    by_cases hchk : cycleCheckS (skel t) (t.nodes.length + 1) c p = true
    · rw [if_pos hchk] at hs
      exact (Option.some.inj hs).symm
    · rw [if_neg hchk] at hs
      exact absurd hs (by simp)
  · rw [if_neg hg] at hs
    exact absurd hs (by simp)

lemma nodeTypeOf_map_nodes {g : UNode → UNode} (hgid : ∀ n, (g n).id = n.id)
    (hgd : ∀ n, (g n).nodeType = n.nodeType) (t : UTree) (i : Nat) :
    nodeTypeOf { t with nodes := t.nodes.map g } i = nodeTypeOf t i := by
  unfold nodeTypeOf
  rw [getNode?_map_nodes hgid t i]
  cases getNode? t i with
  | none => rfl
  | some n => simp [hgd n]

lemma nodeTypeOf_updParent (t : UTree) (c p i : Nat) :
    nodeTypeOf (updParent t c p) i = nodeTypeOf t i := by
  unfold updParent
  exact nodeTypeOf_map_nodes
    (fun n => by by_cases hn : n.id = c <;> simp [hn])
    (fun n => by by_cases hn : n.id = c <;> simp [hn]) t i

lemma nodeTypeOf_mapNode_apos (t : UTree) (i : Nat) (b : Bool) (j : Nat) :
    nodeTypeOf (mapNode t i (fun n => { n with aposMember := b })) j = nodeTypeOf t j := by
  unfold mapNode
  exact nodeTypeOf_map_nodes
    (fun n => by by_cases hn : n.id = i <;> simp [hn])
    (fun n => by by_cases hn : n.id = i <;> simp [hn]) t j

lemma nodeTypeOf_mapNode_coord (t : UTree) (i : Nat) (b : Bool) (j : Nat) :
    nodeTypeOf (mapNode t i (fun n => { n with coordMember := b })) j = nodeTypeOf t j := by
  unfold mapNode
  exact nodeTypeOf_map_nodes
    (fun n => by by_cases hn : n.id = i <;> simp [hn])
    (fun n => by by_cases hn : n.id = i <;> simp [hn]) t j

lemma nodeTypeOf_setDeprel (t : UTree) (i : Nat) (d : String) (j : Nat) :
    nodeTypeOf (setDeprel t i d) j = nodeTypeOf t j := by
  unfold setDeprel mapNode
  exact nodeTypeOf_map_nodes
    (fun n => by by_cases hn : n.id = i <;> simp [hn])
    (fun n => by by_cases hn : n.id = i <;> simp [hn]) t j

lemma ntype_fold {nh : Nat} :
    ∀ (l : List UNode) (t0 t1 : UTree), l.foldlM (fun acc c =>
        if udeprelOf c.deprel ≠ "goeswith" then setParent acc c.id nh else pure acc) t0
        = some t1 →
      ∀ i, nodeTypeOf t1 i = nodeTypeOf t0 i := by
  intro l
  induction l with
  | nil =>
    intro t0 t1 hf i
    rw [Option.some.inj hf]
  | cons c l ih =>
    intro t0 t1 hf i
    rw [List.foldlM_cons] at hf
    by_cases hgw : udeprelOf c.deprel ≠ "goeswith"
    · rw [if_pos hgw] at hf
      simp only [Option.bind_eq_bind] at hf
      obtain ⟨ta, hsa, hf⟩ := Option.bind_eq_some.1 hf
      rw [ih ta t1 hf i, setParent_some hsa, nodeTypeOf_updParent]
    · rw [if_neg hgw] at hf
      simp only [Option.bind_eq_bind, Option.pure_def, Option.some_bind] at hf
      exact ih t0 t1 hf i

/-- `redraw_subtree` never touches the `NodeType` attribute of any node. -/
lemma ntype_redraw {t t' : UTree} {nh ch : Nat}
    (hs : redraw_subtree t nh ch = some t') :
    ∀ i, nodeTypeOf t' i = nodeTypeOf t i := by
  intro i
  unfold redraw_subtree at hs
  simp only [Option.bind_eq_bind] at hs
  obtain ⟨t1, h1, hs⟩ := Option.bind_eq_some.1 hs
  obtain ⟨t2, h2, hs⟩ := Option.bind_eq_some.1 hs
  have e1 : nodeTypeOf t1 i = nodeTypeOf t i := by
    rw [setParent_some h1, nodeTypeOf_updParent]
  have e2 : nodeTypeOf t2 i = nodeTypeOf t1 i := by
    rw [setParent_some h2, nodeTypeOf_updParent]
  rw [← e1, ← e2]
  cases hold : getNode? t2 ch with
  | none =>
    rw [hold] at hs
    dsimp only at hs
    exact ntype_fold _ _ _ hs i
  | some old =>
    rw [hold] at hs
    dsimp only at hs
    by_cases hC : old.coordMember = true
    · rw [if_pos hC] at hs
      by_cases hA : old.aposMember = true
      · rw [if_pos hA] at hs
        rw [ntype_fold _ _ _ hs i, nodeTypeOf_mapNode_coord, nodeTypeOf_mapNode_apos]
      · rw [if_neg hA] at hs
        rw [ntype_fold _ _ _ hs i, nodeTypeOf_mapNode_coord]
    · rw [if_neg hC] at hs
      by_cases hA : old.aposMember = true
      · rw [if_pos hA] at hs
        rw [ntype_fold _ _ _ hs i, nodeTypeOf_mapNode_apos]
      · rw [if_neg hA] at hs
        exact ntype_fold _ _ _ hs i

end Tb2ud

namespace Tb2ud

/-- C8 (amended): a copula subtree with more than one `PNOM` child is not
left unrewritten; the branch promotes the first `PNOM` child in document
order (`pnoms[0]`): it takes the head's former relation label and parent,
the head hangs under it with label `cop`, and in particular the tree does
change. (Restricted to a non-Artificial copula head, the branch that does
not delete the head.) -/
theorem c8_first_pnom_amended {t : UTree} {s : Nat} {pn : UNode} {rest : List UNode}
    (h : Wf t) (hsl : s ∈ idsOf t)
    (hflt : (children t s).filter (fun c => c.originalDep == "PNOM") = pn :: rest)
    (hrest : rest ≠ [])
    (hnart : nodeTypeOf t s ≠ "Artificial") :
    ∃ t', copulaBranch t s = some t' ∧
      2 ≤ ((children t s).filter (fun c => c.originalDep == "PNOM")).length ∧
      deprelOf t' pn.id = deprelOf t s ∧
      parentOf t' pn.id = parentOf t s ∧
      parentOf t' s = pn.id ∧
      deprelOf t' s = "cop" ∧
      t' ≠ t := by
  classical
  have hpnc : pn ∈ children t s := by
    have hm : pn ∈ (children t s).filter (fun c => c.originalDep == "PNOM") := by
      rw [hflt]
      exact List.mem_cons_self pn rest
    exact (List.mem_filter.1 hm).1
  obtain ⟨hpnm, hpnp⟩ := mem_children.1 hpnc
  have hpnl : pn.id ∈ idsOf t := idsOf_mem_of_node hpnm
  have hpar : parentOf t pn.id = s := by rw [parentOf_of_mem h hpnm]; exact hpnp
  have hne : pn.id ≠ s := by
    intro hcon
    rw [hcon] at hpar
    exact parentOf_ne_self h hsl hpar
  set t1 := setDeprel t pn.id (deprelOf t s) with ht1
  have hsk1 : skel t1 = skel t := skel_setDeprel t pn.id (deprelOf t s)
  have hw1 : Wf t1 := Wf_of_skel_eq hsk1 h
  have hids1 : idsOf t1 = idsOf t := idsOf_of_skel_eq hsk1
  have hpar1 : ∀ i, parentOf t1 i = parentOf t i := parentOf_of_skel_eq hsk1
  obtain ⟨t2, hred, hw2, hids2, hdep2, hp2nh, hp2ch, hc2, hx2, hchain2⟩ :=
    redraw_spec hw1 (by rw [hids1]; exact hpnl) (by rw [hids1]; exact hsl) hne
      (by rw [hpar1 pn.id]; exact hpar)
  have hsl2 : s ∈ idsOf t2 := by rw [hids2, hids1]; exact hsl
  have hnt2 : nodeTypeOf t2 s = nodeTypeOf t s := by
    rw [ntype_redraw hred s, ht1, nodeTypeOf_setDeprel]
  have hcond : (((getNode? t2 s).map (·.nodeType)).getD "" == "Artificial") = false := by
    apply beq_eq_false_iff_ne.2
    show nodeTypeOf t2 s ≠ "Artificial"
    rw [hnt2]
    exact hnart
  have havoid3 : ∀ k, (parentOf t2)^[k] pn.id ≠ s := by
    intro k
    cases k with
    | zero =>
      simp only [Function.iterate_zero, id_eq]
      exact hne
    | succ j =>
      rw [Function.iterate_succ_apply, hp2nh, hchain2 j]
      exact avoid_of_strict_anc hw1 (by rw [hids1]; exact hsl) le_rfl
        (by rw [Function.iterate_one]) j
  have hs3 : setParent t2 s pn.id = some (updParent t2 s pn.id) :=
    setParent_succeeds hw2 hsl2
      (Or.inr (by rw [hids2, hids1]; exact hpnl)) havoid3
  set t3 := updParent t2 s pn.id with ht3
  have hw3 : Wf t3 := Wf_setParent hw2 hs3
  have hids3 : idsOf t3 = idsOf t := by rw [ht3, idsOf_updParent, hids2, hids1]
  have hps' : parentOf (setDeprel t3 s "cop") s = pn.id := by
    rw [parentOf_setDeprel, ht3, parentOf_updParent hw2 hsl2 pn.id s, if_pos rfl]
  refine ⟨setDeprel t3 s "cop", ?_, ?_, ?_, ?_, hps', ?_, ?_⟩
  · unfold copulaBranch
    rw [hflt]
    dsimp only
    rw [← ht1, hred]
    simp only [Option.bind_eq_bind, Option.some_bind]
    rw [hcond, if_neg (by simp)]
    rw [hs3]
    simp only [Option.bind_eq_bind, Option.some_bind]
    rfl
  · rw [hflt, List.length_cons]
    have hp := List.length_pos.2 hrest
    omega
  · rw [deprelOf_setDeprel_ne t3 hne, ht3, deprelOf_updParent, hdep2 pn.id, ht1,
        deprelOf_setDeprel_self h hpnl]
  · rw [parentOf_setDeprel, ht3, parentOf_updParent hw2 hsl2 pn.id pn.id, if_neg hne,
        hp2nh, hpar1 s]
  · exact deprelOf_setDeprel_self hw3 (by rw [hids3]; exact hsl) "cop"
  · intro hcon
    rw [hcon] at hps'
    have h2 : (parentOf t)^[1+1] s = s := by
      rw [Function.iterate_succ_apply', Function.iterate_one, hps', hpar]
    exact no_cycle h (by rw [← idsOf_skel]; exact hsl) (1+1) (by omega) h2

theorem c8_first_pnom_amended_witness :
    Wf exTreeC8 ∧ 1 ∈ idsOf exTreeC8 ∧
    (children exTreeC8 1).filter (fun c => c.originalDep == "PNOM") = pnomA :: [pnomB] ∧
    ([pnomB] : List UNode) ≠ [] ∧
    nodeTypeOf exTreeC8 1 ≠ "Artificial" ∧
    (∃ t', copulaBranch exTreeC8 1 = some t' ∧
      2 ≤ ((children exTreeC8 1).filter (fun c => c.originalDep == "PNOM")).length ∧
      deprelOf t' pnomA.id = deprelOf exTreeC8 1 ∧
      parentOf t' pnomA.id = parentOf exTreeC8 1 ∧
      parentOf t' 1 = pnomA.id ∧
      deprelOf t' 1 = "cop" ∧
      t' ≠ exTreeC8) :=
  ⟨by decide, by decide, by decide, by decide, by decide,
    @c8_first_pnom_amended exTreeC8 1 pnomA [pnomB]
      (by decide) (by decide) (by decide) (by decide) (by decide)⟩

end Tb2ud

namespace Tb2ud

lemma ordN_updParent (t : UTree) (c p i : Nat) :
    ordN (updParent t c p) i = ordN t i := by
  unfold updParent
  exact ordN_map_nodes (fun n => by by_cases hn : n.id = c <;> simp [hn]) t i

lemma ordN_setDeprel (t : UTree) (c : Nat) (d : String) (i : Nat) :
    ordN (setDeprel t c d) i = ordN t i := by
  unfold setDeprel mapNode
  exact ordN_map_nodes (fun n => by by_cases hn : n.id = c <;> simp [hn]) t i

lemma children_ids_nodup {t : UTree} (h : Wf t) (s : Nat) :
    ((children t s).map (·.id)).Nodup := by
  have hnd : (List.map (fun n => n.id) t.nodes).Nodup := by
    have h1 := h.1
    rw [← idsOf_skel t] at h1
    exact h1
  unfold children
  exact ((List.filter_sublist t.nodes).map (fun n => n.id)).nodup hnd

/-- An iteration of the final coordination pass whose subject has a
non-`cc`, non-`punct` target label does nothing. -/
lemma coordFinal_skip (fid : Nat) :
    ∀ (l : List UNode) (t0 : UTree),
    (∀ x ∈ l, (udeprelOf x.deprel == "cc") = false ∧
      (udeprelOf x.deprel == "punct") = false) →
    l.foldlM (fun acc c =>
      if (udeprelOf c.deprel == "cc" ∨ udeprelOf c.deprel == "punct") ∧
         !(ordN acc c.id < ordN acc fid) then
        attach_right acc c.id (fun b => udeprelOf b.deprel) "conj"
      else pure acc) t0 = some t0 := by
  intro l
  induction l with
  | nil => intro t0 _; rfl
  | cons x l ih =>
    intro t0 hx
    rw [List.foldlM_cons]
    have hcond : ¬((udeprelOf x.deprel == "cc" ∨ udeprelOf x.deprel == "punct") ∧
        !(ordN t0 x.id < ordN t0 fid)) := by
      intro hcon
      rcases hcon.1 with h1 | h1
      · rw [(hx x (List.mem_cons_self x l)).1] at h1
        exact absurd h1 (by simp)
      · rw [(hx x (List.mem_cons_self x l)).2] at h1
        exact absurd h1 (by simp)
    rw [if_neg hcond]
    simp only [Option.pure_def, Option.bind_eq_bind, Option.some_bind]
    exact ih t0 (fun y hy => hx y (List.mem_cons_of_mem x hy))

/-- The final coordination pass with exactly one active element `e`:
its result is the single `attach_right` step applied to the start tree. -/
lemma coordFinal_fold (fid : Nat) {l : List UNode} {e : UNode} {t0 t1 : UTree}
    (hmem : e ∈ l) (hnd : (l.map (·.id)).Nodup)
    (hinact : ∀ x ∈ l, x.id ≠ e.id →
      (udeprelOf x.deprel == "cc") = false ∧ (udeprelOf x.deprel == "punct") = false)
    (hstep : (if (udeprelOf e.deprel == "cc" ∨ udeprelOf e.deprel == "punct") ∧
         !(ordN t0 e.id < ordN t0 fid) then
        attach_right t0 e.id (fun b => udeprelOf b.deprel) "conj"
      else pure t0) = some t1) :
    l.foldlM (fun acc c =>
      if (udeprelOf c.deprel == "cc" ∨ udeprelOf c.deprel == "punct") ∧
         !(ordN acc c.id < ordN acc fid) then
        attach_right acc c.id (fun b => udeprelOf b.deprel) "conj"
      else pure acc) t0 = some t1 := by
  obtain ⟨l1, l2, hl⟩ := List.append_of_mem hmem
  subst hl
  have hnd' := hnd
  rw [List.map_append, List.map_cons, List.nodup_append] at hnd'
  have hn1 : ∀ x ∈ l1, x.id ≠ e.id := by
    intro x hx hcon
    exact hnd'.2.2 (List.mem_map.2 ⟨x, hx, rfl⟩)
      (by rw [hcon]; exact List.mem_cons_self _ _)
  have hn2 : ∀ x ∈ l2, x.id ≠ e.id := by
    have hcons := hnd'.2.1
    rw [List.nodup_cons] at hcons
    intro x hx hcon
    exact hcons.1 (List.mem_map.2 ⟨x, hx, hcon⟩)
  rw [List.foldlM_append]
  rw [coordFinal_skip fid l1 t0 (fun x hx =>
    hinact x (List.mem_append_left _ hx) (hn1 x hx))]
  simp only [Option.bind_eq_bind, Option.some_bind]
  rw [List.foldlM_cons, hstep]
  simp only [Option.bind_eq_bind, Option.some_bind]
  exact coordFinal_skip fid l2 t1 (fun x hx =>
    hinact x (List.mem_append_right _ (List.mem_cons_of_mem e hx)) (hn2 x hx))

end Tb2ud

namespace Tb2ud

/-- C3 (amended): for a coordination head `s` whose children are exactly
the three `CoordMember` nodes `[a, b, c]` in document order (with `a`
itself childless and `s` not Artificial): after the rewrite `a` hangs on
`s`'s former parent but keeps its own relation label (the branch
transfers no label), `b` and `c` hang under `a` with label `conj`, and
`s` ends under one of the conjuncts — under `a` whenever `s`'s target
label is neither `cc` nor `punct` or `s` precedes `a`; otherwise the
final pass may re-attach `s` to a later conjunct (`b` or `c`). -/
theorem c3_coordination_amended {t : UTree} {s : Nat} {a b c : UNode}
    (h : Wf t) (hsl : s ∈ idsOf t)
    (hch : children t s = [a, b, c])
    (hca : a.coordMember = true) (hcb : b.coordMember = true)
    (hcc : c.coordMember = true)
    (hacl : children t a.id = [])
    (hnart : nodeTypeOf t s ≠ "Artificial") :
    ∃ t', coordBranch t s = some t' ∧
      parentOf t' a.id = parentOf t s ∧
      deprelOf t' a.id = deprelOf t a.id ∧
      parentOf t' b.id = a.id ∧ deprelOf t' b.id = "conj" ∧
      parentOf t' c.id = a.id ∧ deprelOf t' c.id = "conj" ∧
      deprelOf t' s = deprelOf t s ∧
      (parentOf t' s = a.id ∨ parentOf t' s = b.id ∨ parentOf t' s = c.id) ∧
      (((udeprelOf (deprelOf t s) ≠ "cc" ∧ udeprelOf (deprelOf t s) ≠ "punct") ∨
          ordN t s < ordN t a.id) → parentOf t' s = a.id) := by
  classical
  have hma : a ∈ children t s := by rw [hch]; exact List.mem_cons_self _ _
  have hmb : b ∈ children t s := by
    rw [hch]
    exact List.mem_cons_of_mem _ (List.mem_cons_self _ _)
  have hmc : c ∈ children t s := by
    rw [hch]
    exact List.mem_cons_of_mem _ (List.mem_cons_of_mem _ (List.mem_cons_self _ _))
  obtain ⟨ham, hap⟩ := mem_children.1 hma
  obtain ⟨hbm, hbp⟩ := mem_children.1 hmb
  obtain ⟨hcm, hcp⟩ := mem_children.1 hmc
  have haL : a.id ∈ idsOf t := idsOf_mem_of_node ham
  have hbL : b.id ∈ idsOf t := idsOf_mem_of_node hbm
  have hcL : c.id ∈ idsOf t := idsOf_mem_of_node hcm
  have hpa : parentOf t a.id = s := by rw [parentOf_of_mem h ham]; exact hap
  have hpb : parentOf t b.id = s := by rw [parentOf_of_mem h hbm]; exact hbp
  have hpc : parentOf t c.id = s := by rw [parentOf_of_mem h hcm]; exact hcp
  have haS : a.id ≠ s := by
    intro hcon
    rw [hcon] at hpa
    exact parentOf_ne_self h hsl hpa
  have hbS : b.id ≠ s := by
    intro hcon
    rw [hcon] at hpb
    exact parentOf_ne_self h hsl hpb
  have hcS : c.id ≠ s := by
    intro hcon
    rw [hcon] at hpc
    exact parentOf_ne_self h hsl hpc
  have hnodch := children_ids_nodup h s
  rw [hch] at hnodch
  simp only [List.map_cons, List.map_nil] at hnodch
  have hab : a.id ≠ b.id := by
    intro hcon
    exact (List.nodup_cons.1 hnodch).1 (by rw [hcon]; exact List.mem_cons_self _ _)
  have hac : a.id ≠ c.id := by
    intro hcon
    exact (List.nodup_cons.1 hnodch).1
      (by rw [hcon]; exact List.mem_cons_of_mem _ (List.mem_cons_self _ _))
  have hbc : b.id ≠ c.id := by
    intro hcon
    exact (List.nodup_cons.1 (List.nodup_cons.1 hnodch).2).1
      (by rw [hcon]; exact List.mem_cons_self _ _)
  have hanc_a : (parentOf t)^[1+1] a.id = parentOf t s := by
    rw [Function.iterate_succ_apply', Function.iterate_one, hpa]
  have hanc_b : (parentOf t)^[1+1] b.id = parentOf t s := by
    rw [Function.iterate_succ_apply', Function.iterate_one, hpb]
  have hanc_c : (parentOf t)^[1+1] c.id = parentOf t s := by
    rw [Function.iterate_succ_apply', Function.iterate_one, hpc]
  have hga : ∀ k, (parentOf t)^[k] (parentOf t s) ≠ a.id :=
    avoid_of_strict_anc h haL (by omega) hanc_a
  have hgb : ∀ k, (parentOf t)^[k] (parentOf t s) ≠ b.id :=
    avoid_of_strict_anc h hbL (by omega) hanc_b
  have hgc : ∀ k, (parentOf t)^[k] (parentOf t s) ≠ c.id :=
    avoid_of_strict_anc h hcL (by omega) hanc_c
  have hgs : ∀ k, (parentOf t)^[k] (parentOf t s) ≠ s :=
    avoid_of_strict_anc h hsl le_rfl (by rw [Function.iterate_one])
  have hs1 : setParent t a.id (parentOf t s) = some (updParent t a.id (parentOf t s)) :=
    setParent_succeeds h haL (parent_liveOr0 h hsl) hga
  set t1 := updParent t a.id (parentOf t s) with ht1
  have hw1 : Wf t1 := Wf_setParent h hs1
  have hids1 : idsOf t1 = idsOf t := by rw [ht1, idsOf_updParent]
  have hpar1 : ∀ i, parentOf t1 i = if i = a.id then parentOf t s else parentOf t i := by
    intro i
    rw [ht1]
    exact parentOf_updParent h haL (parentOf t s) i
  have hchg1 : ∀ k, (parentOf t1)^[k] (parentOf t s) = (parentOf t)^[k] (parentOf t s) := by
    intro k
    rw [ht1]
    exact iterate_updParent_avoid h haL (parentOf t s) hga k
  have havb : ∀ k, (parentOf t1)^[k] a.id ≠ b.id := by
    intro k
    cases k with
    | zero =>
      simp only [Function.iterate_zero, id_eq]
      exact hab
    | succ j =>
      rw [Function.iterate_succ_apply, hpar1 a.id, if_pos rfl, hchg1 j]
      exact hgb j
  have hs2a : setParent t1 b.id a.id = some (updParent t1 b.id a.id) :=
    setParent_succeeds hw1 (by rw [hids1]; exact hbL)
      (Or.inr (by rw [hids1]; exact haL)) havb
  set t2a := updParent t1 b.id a.id with ht2a
  have hw2a : Wf t2a := Wf_setParent hw1 hs2a
  set t2b := setDeprel t2a b.id "conj" with ht2b
  have hsk2b : skel t2b = skel t2a := by
    rw [ht2b]
    exact skel_setDeprel t2a b.id "conj"
  have hw2b : Wf t2b := Wf_of_skel_eq hsk2b hw2a
  have hids2b : idsOf t2b = idsOf t := by
    rw [idsOf_of_skel_eq hsk2b, ht2a, idsOf_updParent, hids1]
  have hpar2b : ∀ i, parentOf t2b i = if i = b.id then a.id else parentOf t1 i := by
    intro i
    rw [ht2b, parentOf_setDeprel, ht2a]
    exact parentOf_updParent hw1 (by rw [hids1]; exact hbL) a.id i
  have hchg2b : ∀ k, (parentOf t2b)^[k] (parentOf t s)
      = (parentOf t)^[k] (parentOf t s) := by
    intro k
    induction k with
    | zero => rfl
    | succ j ih =>
      rw [Function.iterate_succ_apply', Function.iterate_succ_apply', ih,
          hpar2b ((parentOf t)^[j] (parentOf t s)), if_neg (hgb j),
          hpar1 ((parentOf t)^[j] (parentOf t s)), if_neg (hga j)]
  have havc : ∀ k, (parentOf t2b)^[k] a.id ≠ c.id := by
    intro k
    cases k with
    | zero =>
      simp only [Function.iterate_zero, id_eq]
      exact hac
    | succ j =>
      rw [Function.iterate_succ_apply, hpar2b a.id, if_neg hab, hpar1 a.id, if_pos rfl,
          hchg2b j]
      exact hgc j
  have hs2c : setParent t2b c.id a.id = some (updParent t2b c.id a.id) :=
    setParent_succeeds hw2b (by rw [hids2b]; exact hcL)
      (Or.inr (by rw [hids2b]; exact haL)) havc
  set t2c := updParent t2b c.id a.id with ht2c
  have hw2c : Wf t2c := Wf_setParent hw2b hs2c
  set t2 := setDeprel t2c c.id "conj" with ht2
  have hsk2 : skel t2 = skel t2c := by
    rw [ht2]
    exact skel_setDeprel t2c c.id "conj"
  have hw2 : Wf t2 := Wf_of_skel_eq hsk2 hw2c
  have hids2 : idsOf t2 = idsOf t := by
    rw [idsOf_of_skel_eq hsk2, ht2c, idsOf_updParent, hids2b]
  have hpar2 : ∀ i, parentOf t2 i = if i = c.id then a.id else if i = b.id then a.id
      else if i = a.id then parentOf t s else parentOf t i := by
    intro i
    rw [ht2, parentOf_setDeprel, ht2c,
        parentOf_updParent hw2b (by rw [hids2b]; exact hcL) a.id i]
    by_cases hic : i = c.id
    · rw [if_pos hic, if_pos hic]
    · rw [if_neg hic, if_neg hic, hpar2b i, hpar1 i]
  have hchg2 : ∀ k, (parentOf t2)^[k] (parentOf t s)
      = (parentOf t)^[k] (parentOf t s) := by
    intro k
    induction k with
    | zero => rfl
    | succ j ih =>
      rw [Function.iterate_succ_apply', Function.iterate_succ_apply', ih,
          hpar2 ((parentOf t)^[j] (parentOf t s)), if_neg (hgc j), if_neg (hgb j),
          if_neg (hga j)]
  have hdep2 : ∀ i, deprelOf t2 i = if i = c.id then "conj" else if i = b.id then "conj"
      else deprelOf t i := by
    intro i
    by_cases hic : i = c.id
    · rw [if_pos hic, hic, ht2]
      exact deprelOf_setDeprel_self hw2c
        (by rw [ht2c, idsOf_updParent, hids2b]; exact hcL) "conj"
    · rw [if_neg hic, ht2, deprelOf_setDeprel_ne t2c hic "conj", ht2c, deprelOf_updParent]
      by_cases hib : i = b.id
      · rw [if_pos hib, hib, ht2b]
        exact deprelOf_setDeprel_self hw2a
          (by rw [ht2a, idsOf_updParent, hids1]; exact hbL) "conj"
      · rw [if_neg hib, ht2b, deprelOf_setDeprel_ne t2a hib "conj", ht2a,
            deprelOf_updParent, ht1, deprelOf_updParent]
  have hfold2 : List.foldlM (fun acc m => do
        let acc1 ← setParent acc m.id a.id
        pure (setDeprel acc1 m.id "conj")) t1 [b, c] = some t2 := by
    rw [List.foldlM_cons]
    simp only [Option.bind_eq_bind]
    rw [hs2a]
    simp only [Option.some_bind, Option.pure_def]
    rw [← ht2b, List.foldlM_cons]
    simp only [Option.bind_eq_bind]
    rw [hs2c]
    simp only [Option.some_bind, Option.pure_def]
    rw [← ht2, List.foldlM_nil]
    rfl
  have havS : ∀ k, (parentOf t2)^[k] a.id ≠ s := by
    intro k
    cases k with
    | zero =>
      simp only [Function.iterate_zero, id_eq]
      exact haS
    | succ j =>
      rw [Function.iterate_succ_apply, hpar2 a.id, if_neg hac, if_neg hab, if_pos rfl,
          hchg2 j]
      exact hgs j
  have hs3 : setParent t2 s a.id = some (updParent t2 s a.id) :=
    setParent_succeeds hw2 (by rw [hids2]; exact hsl)
      (Or.inr (by rw [hids2]; exact haL)) havS
  set t3 := updParent t2 s a.id with ht3
  have hw3 : Wf t3 := Wf_setParent hw2 hs3
  have hids3 : idsOf t3 = idsOf t := by rw [ht3, idsOf_updParent, hids2]
  have hpar3 : ∀ i, parentOf t3 i = if i = s then a.id else if i = c.id then a.id
      else if i = b.id then a.id else if i = a.id then parentOf t s
      else parentOf t i := by
    intro i
    rw [ht3, parentOf_updParent hw2 (by rw [hids2]; exact hsl) a.id i]
    by_cases his : i = s
    · rw [if_pos his, if_pos his]
    · rw [if_neg his, if_neg his, hpar2 i]
  have hdep3 : ∀ i, deprelOf t3 i = if i = c.id then "conj" else if i = b.id then "conj"
      else deprelOf t i := by
    intro i
    rw [ht3, deprelOf_updParent]
    exact hdep2 i
  have hchg3 : ∀ k, (parentOf t3)^[k] (parentOf t s)
      = (parentOf t)^[k] (parentOf t s) := by
    intro k
    induction k with
    | zero => rfl
    | succ j ih =>
      rw [Function.iterate_succ_apply', Function.iterate_succ_apply', ih,
          hpar3 ((parentOf t)^[j] (parentOf t s)), if_neg (hgs j), if_neg (hgc j),
          if_neg (hgb j), if_neg (hga j)]
  have hordN3 : ∀ i, ordN t3 i = ordN t i := by
    intro i
    rw [ht3, ordN_updParent, ht2, ordN_setDeprel, ht2c, ordN_updParent, ht2b,
        ordN_setDeprel, ht2a, ordN_updParent, ht1, ordN_updParent]
  have hnt3 : nodeTypeOf t3 s = nodeTypeOf t s := by
    rw [ht3, nodeTypeOf_updParent, ht2, nodeTypeOf_setDeprel, ht2c, nodeTypeOf_updParent,
        ht2b, nodeTypeOf_setDeprel, ht2a, nodeTypeOf_updParent, ht1, nodeTypeOf_updParent]
  have hch3s : children t3 s = [] := by
    unfold children
    rw [List.filter_eq_nil_iff]
    intro n hn
    simp only [beq_iff_eq]
    intro hps
    have hpid : parentOf t3 n.id = n.parent := parentOf_of_mem hw3 hn
    rw [hps, hpar3 n.id] at hpid
    split_ifs at hpid with h1 h2 h3 h4
    · exact haS hpid
    · exact haS hpid
    · exact haS hpid
    · exact parentOf_ne_self h hsl hpid
    · have hnL : n.id ∈ idsOf t := by rw [← hids3]; exact idsOf_mem_of_node hn
      obtain ⟨m, hmm', hmid⟩ := exists_node_of_id hnL
      have hmp : m.parent = s := by
        rw [← parentOf_of_mem h hmm', hmid]
        exact hpid
      have hmem : m ∈ children t s := mem_children.2 ⟨hmm', hmp⟩
      rw [hch] at hmem
      simp only [List.mem_cons, List.not_mem_nil, or_false] at hmem
      rcases hmem with hm1 | hm1 | hm1
      · exact h4 (by rw [← hmid, hm1])
      · exact h3 (by rw [← hmid, hm1])
      · exact h2 (by rw [← hmid, hm1])
  have hmem3a : ∀ n ∈ children t3 a.id, n.id = s ∨ n.id = b.id ∨ n.id = c.id := by
    intro n hn
    obtain ⟨hnm, hnp⟩ := mem_children.1 hn
    have hpid : parentOf t3 n.id = a.id := by
      rw [parentOf_of_mem hw3 hnm]
      exact hnp
    rw [hpar3 n.id] at hpid
    split_ifs at hpid with h1 h2 h3 h4
    · exact Or.inl h1
    · exact Or.inr (Or.inr h2)
    · exact Or.inr (Or.inl h3)
    · exact absurd hpid (hga 0)
    · exfalso
      have hnL : n.id ∈ idsOf t := by rw [← hids3]; exact idsOf_mem_of_node hnm
      obtain ⟨m, hmm', hmid⟩ := exists_node_of_id hnL
      have hmp : m.parent = a.id := by
        rw [← parentOf_of_mem h hmm', hmid]
        exact hpid
      have hmem : m ∈ children t a.id := mem_children.2 ⟨hmm', hmp⟩
      rw [hacl] at hmem
      exact List.not_mem_nil m hmem
  obtain ⟨sr, hsrm, hsrid⟩ :=
    exists_node_of_id (show s ∈ idsOf t3 by rw [hids3]; exact hsl)
  have hsrpar : sr.parent = a.id := by
    rw [← parentOf_of_mem hw3 hsrm, hsrid, hpar3 s, if_pos rfl]
  have hsrc : sr ∈ children t3 a.id := mem_children.2 ⟨hsrm, hsrpar⟩
  have hsrdep : sr.deprel = deprelOf t s := by
    rw [← deprelOf_of_mem hw3 hsrm, hsrid, hdep3 s, if_neg (Ne.symm hcS),
        if_neg (Ne.symm hbS)]
  have hconjrec : ∀ n ∈ children t3 a.id, n.id ≠ s → n.deprel = "conj" := by
    intro n hn hns
    obtain ⟨hnm, hnp⟩ := mem_children.1 hn
    rcases hmem3a n hn with h1 | h1 | h1
    · exact absurd h1 hns
    · rw [← deprelOf_of_mem hw3 hnm, h1, hdep3 b.id, if_neg hbc, if_pos rfl]
    · rw [← deprelOf_of_mem hw3 hnm, h1, hdep3 c.id, if_pos rfl]
  have hcond5 : (((getNode? t3 s).map (·.nodeType)).getD "" == "Artificial") = false := by
    apply beq_eq_false_iff_ne.2
    show nodeTypeOf t3 s ≠ "Artificial"
    rw [hnt3]
    exact hnart
  have hp3a : parentOf t3 a.id = parentOf t s := by
    rw [hpar3 a.id, if_neg haS, if_neg hac, if_neg hab, if_pos rfl]
  have hp3b : parentOf t3 b.id = a.id := by
    rw [hpar3 b.id, if_neg hbS, if_neg hbc, if_pos rfl]
  have hp3c : parentOf t3 c.id = a.id := by
    rw [hpar3 c.id, if_neg hcS, if_pos rfl]
  have hp3s : parentOf t3 s = a.id := by
    rw [hpar3 s, if_pos rfl]
  have hd3a : deprelOf t3 a.id = deprelOf t a.id := by
    rw [hdep3 a.id, if_neg hac, if_neg hab]
  have hd3b : deprelOf t3 b.id = "conj" := by
    rw [hdep3 b.id, if_neg hbc, if_pos rfl]
  have hd3c : deprelOf t3 c.id = "conj" := by
    rw [hdep3 c.id, if_pos rfl]
  have hd3s : deprelOf t3 s = deprelOf t s := by
    rw [hdep3 s, if_neg (Ne.symm hcS), if_neg (Ne.symm hbS)]
  have hsr3par : parentOf t3 sr.id = a.id := by
    rw [hsrid]
    exact hp3s
  have hinact : ∀ x ∈ children t3 a.id, x.id ≠ sr.id →
      (udeprelOf x.deprel == "cc") = false ∧ (udeprelOf x.deprel == "punct") = false := by
    intro x hx hxne
    rw [hsrid] at hxne
    rw [hconjrec x hx hxne]
    exact ⟨by decide, by decide⟩
  have hassem : ∀ T', List.foldlM (fun acc c =>
      if (udeprelOf c.deprel == "cc" ∨ udeprelOf c.deprel == "punct") ∧
         !(ordN acc c.id < ordN acc a.id) then
        attach_right acc c.id (fun b => udeprelOf b.deprel) "conj"
      else pure acc) t3 (children t3 a.id) = some T' → coordBranch t s = some T' := by
    intro T' hT
    unfold coordBranch
    rw [hch]
    have hfl : List.filter (fun x => x.coordMember) [a, b, c] = [a, b, c] := by
      simp [List.filter_cons, hca, hcb, hcc]
    rw [hfl]
    dsimp only
    simp only [Option.bind_eq_bind]
    rw [hs1]
    simp only [Option.some_bind]
    simp only [Option.bind_eq_bind] at hfold2
    rw [hfold2]
    simp only [Option.some_bind]
    rw [hs3]
    simp only [Option.some_bind]
    rw [hch3s]
    simp only [List.foldlM_nil, Option.pure_def, Option.some_bind]
    rw [hcond5, if_neg Bool.false_ne_true]
    exact hT
  by_cases hmove : (udeprelOf (deprelOf t s) = "cc" ∨ udeprelOf (deprelOf t s) = "punct")
      ∧ ¬(ordN t s < ordN t a.id)
  · have hC : (udeprelOf sr.deprel == "cc" ∨ udeprelOf sr.deprel == "punct") ∧
        !(ordN t3 sr.id < ordN t3 a.id) := by
      constructor
      · rcases hmove.1 with h1 | h1
        · left
          rw [hsrdep]
          exact beq_iff_eq.2 h1
        · right
          rw [hsrdep]
          exact beq_iff_eq.2 h1
      · rw [hsrid, hordN3 s, hordN3 a.id]
        simp only [Bool.not_eq_true', decide_eq_false_iff_not]
        exact hmove.2
    cases hfind : ((children t3 a.id).filter
        (fun ch => !(ordN t3 ch.id < ordN t3 sr.id))).find?
        (fun b => udeprelOf b.deprel == "conj") with
    | none =>
      have hstep : (if (udeprelOf sr.deprel == "cc" ∨ udeprelOf sr.deprel == "punct") ∧
           !(ordN t3 sr.id < ordN t3 a.id) then
          attach_right t3 sr.id (fun b => udeprelOf b.deprel) "conj"
        else pure t3) = some t3 := by
        rw [if_pos hC]
        unfold attach_right
        dsimp only
        rw [hsr3par, hfind]
      exact ⟨t3, hassem t3 (coordFinal_fold a.id hsrc (children_ids_nodup hw3 a.id)
          hinact hstep),
        hp3a, hd3a, hp3b, hd3b, hp3c, hd3c, hd3s, Or.inl hp3s, fun _ => hp3s⟩
    | some b0 =>
      have hb0f := List.mem_of_find?_eq_some hfind
      have hb0c : b0 ∈ children t3 a.id := (List.mem_filter.1 hb0f).1
      have hb0p : (udeprelOf b0.deprel == "conj") = true :=
        @List.find?_some UNode (fun b => udeprelOf b.deprel == "conj") b0 _ hfind
      have hb0conj : udeprelOf b0.deprel = "conj" := eq_of_beq hb0p
      have hb0id : b0.id = b.id ∨ b0.id = c.id := by
        rcases hmem3a b0 hb0c with h1 | h1 | h1
        · exfalso
          have hb0m : b0 ∈ t3.nodes := (mem_children.1 hb0c).1
          have hb0sr : b0 = sr := nodes_id_inj hw3 hb0m hsrm (by rw [h1, hsrid])
          rw [hb0sr, hsrdep] at hb0conj
          rcases hmove.1 with h2 | h2 <;> rw [hb0conj] at h2 <;>
            exact absurd h2 (by decide)
        · exact Or.inl h1
        · exact Or.inr h1
      have hb0L : b0.id ∈ idsOf t3 := idsOf_mem_of_node (mem_children.1 hb0c).1
      have hb0S : b0.id ≠ s := by
        rcases hb0id with h1 | h1
        · rw [h1]; exact hbS
        · rw [h1]; exact hcS
      have hb0par : parentOf t3 b0.id = a.id := by
        rcases hb0id with h1 | h1
        · rw [h1]; exact hp3b
        · rw [h1]; exact hp3c
      have hav4 : ∀ k, (parentOf t3)^[k] b0.id ≠ sr.id := by
        intro k
        rw [hsrid]
        cases k with
        | zero =>
          simp only [Function.iterate_zero, id_eq]
          exact hb0S
        | succ j =>
          rw [Function.iterate_succ_apply, hb0par]
          cases j with
          | zero =>
            simp only [Function.iterate_zero, id_eq]
            exact haS
          | succ i =>
            rw [Function.iterate_succ_apply, hpar3 a.id, if_neg haS, if_neg hac,
                if_neg hab, if_pos rfl, hchg3 i]
            exact hgs i
      have hs4 : setParent t3 sr.id b0.id = some (updParent t3 sr.id b0.id) :=
        setParent_succeeds hw3 (by rw [hsrid, hids3]; exact hsl) (Or.inr hb0L) hav4
      have hstep : (if (udeprelOf sr.deprel == "cc" ∨ udeprelOf sr.deprel == "punct") ∧
           !(ordN t3 sr.id < ordN t3 a.id) then
          attach_right t3 sr.id (fun b => udeprelOf b.deprel) "conj"
        else pure t3) = some (updParent t3 sr.id b0.id) := by
        rw [if_pos hC]
        unfold attach_right
        dsimp only
        rw [hsr3par, hfind]
        exact hs4
      have hpar4 : ∀ i, parentOf (updParent t3 sr.id b0.id) i =
          if i = s then b0.id else parentOf t3 i := by
        intro i
        rw [parentOf_updParent hw3 (by rw [hsrid, hids3]; exact hsl) b0.id i, hsrid]
      refine ⟨updParent t3 sr.id b0.id,
        hassem _ (coordFinal_fold a.id hsrc (children_ids_nodup hw3 a.id) hinact hstep),
        ?_, ?_, ?_, ?_, ?_, ?_, ?_, ?_, ?_⟩
      · rw [hpar4 a.id, if_neg haS]
        exact hp3a
      · rw [deprelOf_updParent]
        exact hd3a
      · rw [hpar4 b.id, if_neg hbS]
        exact hp3b
      · rw [deprelOf_updParent]
        exact hd3b
      · rw [hpar4 c.id, if_neg hcS]
        exact hp3c
      · rw [deprelOf_updParent]
        exact hd3c
      · rw [deprelOf_updParent]
        exact hd3s
      · rw [hpar4 s, if_pos rfl]
        rcases hb0id with h1 | h1
        · exact Or.inr (Or.inl h1)
        · exact Or.inr (Or.inr h1)
      · intro habs
        exfalso
        rcases habs with h1 | h1
        · rcases hmove.1 with h2 | h2
          · exact h1.1 h2
          · exact h1.2 h2
        · exact hmove.2 h1
  · have hstep : (if (udeprelOf sr.deprel == "cc" ∨ udeprelOf sr.deprel == "punct") ∧
         !(ordN t3 sr.id < ordN t3 a.id) then
        attach_right t3 sr.id (fun b => udeprelOf b.deprel) "conj"
      else pure t3) = some t3 := by
      rw [if_neg ?_]
      · rfl
      · intro hcon
        apply hmove
        constructor
        · rcases hcon.1 with h1 | h1
          · left
            rw [← hsrdep]
            exact eq_of_beq h1
          · right
            rw [← hsrdep]
            exact eq_of_beq h1
        · have h2 := hcon.2
          rw [hsrid, hordN3 s, hordN3 a.id] at h2
          simpa using h2
    exact ⟨t3, hassem t3 (coordFinal_fold a.id hsrc (children_ids_nodup hw3 a.id)
        hinact hstep),
      hp3a, hd3a, hp3b, hd3b, hp3c, hd3c, hd3s, Or.inl hp3s, fun _ => hp3s⟩

end Tb2ud

namespace Tb2ud

theorem c3_coordination_amended_witness :
    Wf exTreeC3 ∧ 1 ∈ idsOf exTreeC3 ∧
    children exTreeC3 1 = [coordA, coordB, coordC] ∧
    coordA.coordMember = true ∧ coordB.coordMember = true ∧ coordC.coordMember = true ∧
    children exTreeC3 coordA.id = [] ∧
    nodeTypeOf exTreeC3 1 ≠ "Artificial" ∧
    (∃ t', coordBranch exTreeC3 1 = some t' ∧
      parentOf t' coordA.id = parentOf exTreeC3 1 ∧
      deprelOf t' coordA.id = deprelOf exTreeC3 coordA.id ∧
      parentOf t' coordB.id = coordA.id ∧ deprelOf t' coordB.id = "conj" ∧
      parentOf t' coordC.id = coordA.id ∧ deprelOf t' coordC.id = "conj" ∧
      deprelOf t' 1 = deprelOf exTreeC3 1 ∧
      (parentOf t' 1 = coordA.id ∨ parentOf t' 1 = coordB.id ∨
        parentOf t' 1 = coordC.id) ∧
      (((udeprelOf (deprelOf exTreeC3 1) ≠ "cc" ∧
          udeprelOf (deprelOf exTreeC3 1) ≠ "punct") ∨
          ordN exTreeC3 1 < ordN exTreeC3 coordA.id) → parentOf t' 1 = coordA.id)) :=
  ⟨by decide, by decide, by decide, by decide, by decide, by decide, by decide, by decide,
    @c3_coordination_amended exTreeC3 1 coordA coordB coordC
      (by decide) (by decide) (by decide) (by decide) (by decide) (by decide)
      (by decide) (by decide)⟩

end Tb2ud
